import Mathlib

/-!
# bass: table-driven assembler core

A shallow embedding of `bass/architecture/table/table.cpp` (the table parser
`assembleTableLHS` / `assembleTableRHS`, the encoder `assemble`, `bitLength`,
`writeBits`, `swapEndian`) and of the overwrite tracker of `bass/core/core.cpp`,
with the properties of the specification proved about it.

Conventions of the embedding.

* A C string is the list of its characters before the terminating NUL; reading
  `*p` at the end of the list, or past it, yields the NUL character.
* Machine integers are `Nat` / `Int` with the wrap-around written out:
  `uint` is 32 bits, `uint64_t` 64 bits, `int` 32 bits two's complement.
  Indices into a string (`int i`, `uint offset`) are left unbounded.
* A shift whose count is not below the width of the shifted type, and signed
  overflow, are undefined in C++.  The model fixes them the way the x86-64
  code generated for the sources behaves: the shift count is reduced modulo the
  operand width and signed arithmetic wraps.  Every theorem that depends on
  this choice says so.
* `error(...)` throws; functions that can reach it return `Except Error _`.
* What lies outside the listed sources (the expression evaluator, the
  tokenizer, the declarations of the headers) is a parameter of the model or is
  modelled from the specification, as the doc comment of each such definition
  says.
-/

namespace BassModel

/-! ## Machine arithmetic -/

/-- Conversion to an unsigned type of `w` bits. -/
def wrapU (w : Nat) (x : Int) : Nat := (x % 2 ^ w).toNat

/-- Conversion to a signed two's complement type of `w` bits. -/
def wrapS (w : Nat) (x : Int) : Int := (x + 2 ^ (w - 1)) % 2 ^ w - 2 ^ (w - 1)

/-- The expression `x << n` on `int`, with `n` an unsigned count. -/
def shlInt (x : Int) (n : Nat) : Int := wrapS 32 (x * 2 ^ (n % 32))

/-- The expression `x >> n` on `int`: arithmetic shift, count modulo 32. -/
def sarInt (x : Int) (n : Nat) : Int := x / 2 ^ (n % 32)

/-- The expression `x >> n` on `uint64_t`. -/
def shrU64 (x n : Nat) : Nat := x / 2 ^ (n % 64)

/-- The expression `x << n` on `uint64_t`. -/
def shlU64 (x n : Nat) : Nat := (x * 2 ^ (n % 64)) % 2 ^ 64

/-! ## Data model -/

/-- Everything that reaches `error(...)`, plus the two ways the encoder can
leave defined behaviour or be left by the external evaluator. -/
inductive Error where
  /-- `error("branch out of bounds: ", data)` -/
  | branchOutOfBounds
  /-- `error("Invalid number of bits for BassTable::swapEndian")` -/
  | invalidSwapBits
  /-- `error("overwrite detected at address 0x", ...)`, with the file offset -/
  | overwrite (address : Nat)
  /-- an exception thrown by the external expression evaluator -/
  | evaluator
  /-- `args[i]` or `opcode.number[i]` read past the end of the vector -/
  | outOfRange
  deriving DecidableEq, Repr

/-- `Bass::Endian`. -/
inductive Endian where
  | LSB
  | MSB
  deriving DecidableEq, Repr

/-- `Format::Type`. -/
inductive FormatType where
  | Static
  | Absolute
  | Relative
  | Repeat
  | ShiftRight
  | ShiftLeft
  | RelativeShiftRight
  | Negative
  | NegativeShiftRight
  | Compliment
  | ComplimentShiftRight
  | Decrement
  | DecrementShiftRight
  | Increment
  | IncrementShiftRight
  deriving DecidableEq, Repr

/-- `Format::Match`. -/
inductive FormatMatch where
  | Exact
  | Strong
  | Weak
  deriving DecidableEq, Repr

/-- `Table::Format`: one encoding directive.  The field `match` of the source is
`match_` here.  The defaults are the zero-initialisation of `Format format = {type}`;
zero is taken to be `Exact`, the first enumerator upstream (no code reads the
match mode of a format that was not given one). -/
structure Format where
  type : FormatType
  match_ : FormatMatch := FormatMatch.Exact
  data : Nat := 0
  bits : Nat := 0
  argument : Nat := 0
  displacement : Int := 0
  deriving DecidableEq, Repr

/-- `Table::Number`: the declared width of one wildcard. -/
structure Number where
  bits : Nat
  deriving DecidableEq, Repr

/-- `Table::Prefix`: one literal fragment of a pattern and its length. -/
structure Prefix where
  text : List Char
  size : Nat
  deriving DecidableEq, Repr

/-- `Table::Opcode`; a default-constructed opcode is empty.  The field `prefix`
of the source is `prefix_` here. -/
structure Opcode where
  prefix_ : List Prefix := []
  number : List Number := []
  format : List Format := []
  pattern : List Char := []
  deriving DecidableEq, Repr

/-- The widths in bits of the unsigned types of `bitval` and `bitpos`.  Their
declaration (table.hpp) is not among the sources, so the widths are parameters
of the model; the upstream declaration is `uint64_t bitval, bitpos`. -/
structure AccWidth where
  val : Nat
  pos : Nat
  deriving DecidableEq, Repr

/-- The upstream accumulator: both fields `uint64_t`. -/
def AccWidth.u64 : AccWidth := ⟨64, 64⟩

/-- The state of a `Table` architecture together with what it sees of `Bass`
through `Architecture`: `origin` and `base` (for `pc()`), the endian setting, and
`sink`, the bytes handed to `write`, oldest first. -/
structure Table where
  bitval : Nat := 0
  bitpos : Nat := 0
  table : List Opcode := []
  endian : Endian := Endian.LSB
  origin : Nat := 0
  base : Int := 0
  sink : List Nat := []
  deriving DecidableEq, Repr

namespace Table

/-- `Architecture::pc`, which forwards to `Bass::pc`: `origin + base` as a `uint`. -/
def pc (t : Table) : Nat := wrapU 32 ((t.origin : Int) + t.base)

/-- `write(bitval)`: `Architecture::write` with its default length 1, which
forwards to `Bass::write`: one byte, the low 8 bits of the value, goes to the
output and `origin` advances by one. -/
def write (t : Table) (data : Nat) : Table :=
  { t with sink := t.sink ++ [data % 256], origin := (t.origin + 1) % 2 ^ 32 }

/-! ## `Table::writeBits` -/

/-- The lambda `setBits` of `writeBits`: `(1 << n) - 1` computed in `int` and
returned as `uint64_t`. -/
def setBits (n : Nat) : Nat := wrapU 64 (wrapS 32 (shlInt 1 n - 1))

/-- The loop `while(bitpos >= 8) { write(bitval); bitval >>= 8; bitpos -= 8; }`.
The first argument bounds the number of iterations. -/
def flushLoop : Nat → Table → Table
  | 0, t => t
  | fuel + 1, t =>
    if 8 ≤ t.bitpos then
      flushLoop fuel { t.write t.bitval with bitval := t.bitval / 2 ^ 8, bitpos := t.bitpos - 8 }
    else t

/-- The statements of `writeBits` before its loop: `bitval <<= length;
bitval |= data & setBits(length); bitpos += length;`. -/
def accumulate (w : AccWidth) (t : Table) (data length : Nat) : Table :=
  let shifted := (t.bitval * 2 ^ (length % w.val)) % 2 ^ w.val
  { t with
    bitval := (shifted ||| (data % 2 ^ 64 &&& setBits length)) % 2 ^ w.val
    bitpos := (t.bitpos + length) % 2 ^ w.pos }

/-- `Table::writeBits(data, length)`.  The loop is given `bitpos / 8` iterations,
the number it takes to bring `bitpos` below 8. -/
def writeBits (w : AccWidth) (t : Table) (data length : Nat) : Table :=
  let t1 := accumulate w t data length
  flushLoop (t1.bitpos / 8) t1

/-! ## `Table::swapEndian` -/

/-- `Table::swapEndian(data, bits)`.  The masked bytes are moved within a
`uint64_t` (no shift leaves 64 bits); `t_data` is an `int`, so the swapped value
is narrowed to 32 bits and sign-extended by the `return`. -/
def swapEndian (data bits : Nat) : Except Error Nat :=
  let ret := fun (v : Nat) => wrapU 64 (wrapS 32 (v : Int))
  match wrapU 32 ((bits : Int) - 1) / 8 with
  | 3 => .ok (ret (((data &&& 0xFF000000) >>> 24) ||| ((data &&& 0x00FF0000) >>> 8)
                  ||| ((data &&& 0x0000FF00) <<< 8) ||| ((data &&& 0x000000FF) <<< 24)))
  | 2 => .ok (ret (((data &&& 0xFF0000) >>> 16) ||| (data &&& 0x00FF00)
                  ||| ((data &&& 0x0000FF) <<< 16)))
  | 1 => .ok (ret (((data &&& 0xFF00) >>> 8) ||| ((data &&& 0x00FF) <<< 8)))
  | 0 => .ok (ret data)
  | _ => .error Error.invalidSwapBits

/-! ## `Table::bitLength` -/

/-- The character `p[i]` of a C string: NUL at the end and past it. -/
def charAt (p : List Char) (i : Nat) : Char := p.getD i (Char.ofNat 0)

/-- The loop of the lambda `binLength`, with the running `uint length`. -/
def binLengthLoop : List Char → Nat → Nat
  | [], length => length
  | c :: p, length =>
    if c = '0' ∨ c = '1' then binLengthLoop p ((length + 1) % 2 ^ 32) else 0

/-- The lambda `binLength` of `bitLength`. -/
def binLength (p : List Char) : Nat := binLengthLoop p 0

/-- The loop of the lambda `hexLength`, with the running `uint length`. -/
def hexLengthLoop : List Char → Nat → Nat
  | [], length => length
  | c :: p, length =>
    if '0'.toNat ≤ c.toNat ∧ c.toNat ≤ '9'.toNat then hexLengthLoop p ((length + 4) % 2 ^ 32)
    else if 'a'.toNat ≤ c.toNat ∧ c.toNat ≤ 'f'.toNat then hexLengthLoop p ((length + 4) % 2 ^ 32)
    else if 'A'.toNat ≤ c.toNat ∧ c.toNat ≤ 'F'.toNat then hexLengthLoop p ((length + 4) % 2 ^ 32)
    else 0

/-- The lambda `hexLength` of `bitLength`. -/
def hexLength (p : List Char) : Nat := hexLengthLoop p 0

/-- `struct Meta` of `decLength`. -/
structure Meta where
  offset : Nat
  elements : Nat
  bits : Nat
  deriving DecidableEq, Repr

/-- The table `metas[20]` of `decLength`. -/
def metas : List Meta :=
  [⟨0, 3, 3⟩, ⟨3, 3, 6⟩, ⟨9, 3, 9⟩, ⟨18, 4, 13⟩,
   ⟨34, 3, 16⟩, ⟨49, 3, 19⟩, ⟨67, 4, 23⟩, ⟨95, 3, 26⟩,
   ⟨119, 3, 29⟩, ⟨146, 4, 33⟩, ⟨186, 3, 36⟩, ⟨219, 3, 39⟩,
   ⟨255, 4, 43⟩, ⟨307, 3, 46⟩, ⟨349, 3, 49⟩, ⟨394, 4, 53⟩,
   ⟨458, 3, 56⟩, ⟨509, 3, 59⟩, ⟨563, 4, 63⟩, ⟨639, 1, 64⟩]

/-- The string `powers[]` of `decLength`, line by line as in the source. -/
def powers : List Char :=
  ("842643216512256128819240962048102465536327681638452428826214413107" ++
   "283886084194304209715210485766710886433554432167772165368709122684" ++
   "354561342177288589934592429496729621474836481073741824687194767363" ++
   "435973836817179869184549755813888274877906944137438953472879609302" ++
   "220843980465111042199023255552109951162777670368744177664351843720" ++
   "888321759218604441656294995342131228147497671065614073748835532890" ++
   "071992547409924503599627370496225179981368524811258999068426247205" ++
   "759403792793636028797018963968180143985094819845764607523034234882" ++
   "882303761517117441441151880758558729223372036854775808461168601842" ++
   "73879042305843009213693952115292150460684697618446744073709551616").toList

/-- The C library function `strncmp(a, b, n)` on NUL-terminated strings: the
difference of the first two characters that differ among the first `n`, zero
when there is none. -/
def strncmp : List Char → List Char → Nat → Int
  | _, _, 0 => 0
  | [], [], _ + 1 => 0
  | [], b :: _, _ + 1 => -(b.toNat : Int)
  | a :: _, [], _ + 1 => (a.toNat : Int)
  | a :: as, b :: bs, n + 1 =>
    if a = b then strncmp as bs n else (a.toNat : Int) - (b.toNat : Int)

/-- The first loop of `decLength`: the index `i` of the terminating NUL, or
`none` when a character outside `'0'..'9'` comes first (`return 0`).  The `int i`
of the source counts characters of the string and is left unbounded. -/
def decScan : List Char → Nat → Option Nat
  | [], i => some i
  | c :: p, i =>
    if c.toNat < '0'.toNat ∨ c.toNat > '9'.toNat then none else decScan p (i + 1)

/-- The second loop of `decLength`: `for(i = 0; i < meta.elements; i++)` with
`start` advancing by `length`; returns the final `i`. -/
def decCompare (p start : List Char) (length : Nat) : Nat → Nat → Nat
  | 0, i => i
  | remaining + 1, i =>
    if strncmp p start length ≥ 0 then i
    else decCompare p (start.drop length) length remaining (i + 1)

/-- The lambda `decLength` of `bitLength`. -/
def decLength (p : List Char) : Nat :=
  match decScan p 0 with
  | none => 0
  | some i =>
    if i = 0 then 0
    else if i ≥ 21 then 65
    else
      let length := i
      let m := metas.getD (length - 1) ⟨0, 0, 0⟩
      let start := powers.drop m.offset
      m.bits - decCompare p start length m.elements 0 + 1

end Table

/-- What `bitLength` needs from outside `table.cpp`. -/
structure Evaluator where
  /-- `evaluate(text)`: the external expression evaluator, an `int64_t` or an
  exception.  It may read the assembler state (the program counter). -/
  evaluate : Table → List Char → Except Error Int
  /-- the conversion to `uint` of the floating-point value `floor(log2(data)) + 1`,
  for `data >= 0` -/
  log2Bits : Int → Nat

namespace Table

/-- `Table::bitLength(text)`: the width, and `text` as the call leaves it (a
leading width sigil is overwritten by a blank). -/
def bitLength (ev : Evaluator) (t : Table) (text : List Char) :
    Except Error (Nat × List Char) :=
  let c := charAt text 0
  if c = '<' then .ok (8, ' ' :: text.tail)
  else if c = '>' then .ok (16, ' ' :: text.tail)
  else if c = '^' then .ok (24, ' ' :: text.tail)
  else if c = '?' then .ok (32, ' ' :: text.tail)
  else if c = ':' then .ok (64, ' ' :: text.tail)
  else
    let length := 0
    let length := if c = '%' then binLength (text.drop 1) else length
    let length := if c = '$' then hexLength (text.drop 1) else length
    let length := if c = '0' ∧ charAt text 1 = 'b' then binLength (text.drop 2) else length
    let length := if c = '0' ∧ charAt text 1 = 'x' then hexLength (text.drop 2) else length
    let length := if '0'.toNat ≤ c.toNat ∧ c.toNat ≤ '9'.toNat then decLength text else length
    if length ≠ 0 then .ok (length, text)
    else
      match ev.evaluate t text with
      | .error e => .error e
      | .ok data => .ok (if data ≥ 0 then ev.log2Bits data else 64, text)

end Table

/-! ## `Table::assemble` -/

/-- What `assemble` needs from outside `table.cpp`, besides the evaluator. -/
structure Env extends Evaluator where
  /-- `s.match("instrument \"*\"")` followed by `s.trim(...)`: the text between
  the quotes when the statement is an `instrument "..."` statement -/
  instrument : List Char → Option (List Char)
  /-- the effect of `parseTable(text)` on the opcode table and the endian
  setting, or the error it raises; `parseTable` does not touch the accumulator,
  `origin` or the output -/
  parseTable : List Char → List Opcode × Endian → Except Error (List Opcode × Endian)
  /-- `tokenize(s, pattern)`: whether the statement matches the pattern -/
  tokenizeMatch : List Char → List Char → Bool
  /-- `tokenize(args, s, pattern)`: the text matched by each wildcard -/
  tokenizeArgs : List Char → List Char → List (List Char)

namespace Table

/-- The width-check loop of `assemble` (lines 25-43) over the formats still to
visit: the final value of `mismatch`, and `args` as the calls of `bitLength`
leave it. -/
def widthCheck (ev : Evaluator) (t : Table) (number : List Number) :
    List Format → List (List Char) → Except Error (Bool × List (List Char))
  | [], args => .ok (false, args)
  | f :: fs, args =>
    if f.match_ = FormatMatch.Weak then widthCheck ev t number fs args
    else if f.type = FormatType.Absolute then
      match args[f.argument]? with
      | none => .error Error.outOfRange
      | some arg =>
        match bitLength ev t arg with
        | .error e => .error e
        | .ok (bits, arg1) =>
          let args1 := args.set f.argument arg1
          match number[f.argument]? with
          | none => .error Error.outOfRange
          | some n =>
            if f.match_ = FormatMatch.Strong then
              if bits > n.bits then .ok (true, args1) else widthCheck ev t number fs args1
            else if f.match_ = FormatMatch.Exact then
              if bits ≠ n.bits then .ok (true, args1) else widthCheck ev t number fs args1
            else widthCheck ev t number fs args1
    else widthCheck ev t number fs args

/-- The `int data = evaluate(arg) - (pc + format.displacement)` of the two
relative formats: `pc + displacement` is a `uint`, the difference an `int64_t`,
narrowed to `int`. -/
def relativeData (e : Int) (pc : Nat) (displacement : Int) : Int :=
  wrapS 32 (wrapS 64 (e - (wrapU 32 ((pc : Int) + displacement) : Int)))

/-- The bound `min = -(1 << (bits - 1))` of the relative formats. -/
def relativeMin (bits : Nat) : Int := wrapS 32 (-(shlInt 1 (wrapU 32 ((bits : Int) - 1))))

/-- The bound `max = +(1 << (bits - 1)) - 1` of the relative formats. -/
def relativeMax (bits : Nat) : Int := wrapS 32 (shlInt 1 (wrapU 32 ((bits : Int) - 1)) - 1)

/-- One iteration of the emission loop of `assemble` (the `switch`, lines 47-152).
`pc` is the snapshot taken before the opcode loop. -/
def emitFormat (w : AccWidth) (ev : Evaluator) (pc : Nat) (number : List Number)
    (args : List (List Char)) (t : Table) (f : Format) : Except Error Table :=
  let withArg := fun (k : Int → Nat → Except Error Table) =>
    match args[f.argument]? with
    | none => Except.error Error.outOfRange
    | some arg =>
      match ev.evaluate t arg with
      | .error e => .error e
      | .ok e =>
        match number[f.argument]? with
        | none => .error Error.outOfRange
        | some n => k e n.bits
  match f.type with
  | .Static => .ok (writeBits w t f.data f.bits)
  | .Absolute => withArg fun e bits => .ok (writeBits w t (wrapU 32 e) bits)
  | .Relative => withArg fun e bits =>
      let data := relativeData e pc f.displacement
      if data < relativeMin bits ∨ data > relativeMax bits then .error Error.branchOutOfBounds
      else .ok (writeBits w t (wrapU 64 data) bits)
  | .Repeat =>
      match args[f.argument]? with
      | none => .error Error.outOfRange
      | some arg =>
        match ev.evaluate t arg with
        | .error e => .error e
        | .ok e =>
          let data := wrapU 32 e
          if data = 0 then .ok t
          else
            match number[f.argument]? with
            | none => .error Error.outOfRange
            | some n => .ok ((fun t1 => writeBits w t1 f.data n.bits)^[data] t)
  | .ShiftRight => withArg fun e bits => .ok (writeBits w t (shrU64 (wrapU 64 e) f.data) bits)
  | .ShiftLeft => withArg fun e bits => .ok (writeBits w t (shlU64 (wrapU 64 e) f.data) bits)
  | .RelativeShiftRight => withArg fun e bits0 =>
      let data := relativeData e pc f.displacement
      if data < relativeMin bits0 ∨ data > relativeMax bits0 then .error Error.branchOutOfBounds
      else
        let bits := wrapU 32 ((bits0 : Int) - f.data)
        let shifted := wrapU 64 (sarInt data f.data)
        if t.endian = Endian.LSB then .ok (writeBits w t shifted bits)
        else
          match swapEndian shifted bits with
          | .error e => .error e
          | .ok swapped => .ok (writeBits w t swapped bits)
  | .Negative => withArg fun e bits =>
      .ok (writeBits w t (wrapU 32 (-(wrapU 32 e : Int))) bits)
  | .NegativeShiftRight => withArg fun e bits =>
      .ok (writeBits w t (shrU64 (wrapU 64 (-(wrapU 64 e : Int))) f.data) bits)
  | .Compliment => withArg fun e bits =>
      .ok (writeBits w t (wrapU 32 (-(wrapU 32 e : Int) - 1)) bits)
  | .ComplimentShiftRight => withArg fun e bits =>
      .ok (writeBits w t (shrU64 (wrapU 64 (-(wrapU 64 e : Int) - 1)) f.data) bits)
  | .Decrement => withArg fun e bits =>
      .ok (writeBits w t (wrapU 32 ((wrapU 32 e : Int) - 1)) bits)
  | .DecrementShiftRight => withArg fun e bits =>
      .ok (writeBits w t (shrU64 (wrapU 64 ((wrapU 64 e : Int) - 1)) f.data) bits)
  | .Increment => withArg fun e bits =>
      .ok (writeBits w t (wrapU 32 ((wrapU 32 e : Int) + 1)) bits)
  | .IncrementShiftRight => withArg fun e bits =>
      .ok (writeBits w t (shrU64 (wrapU 64 ((wrapU 64 e : Int) + 1)) f.data) bits)

/-- The emission loop of `assemble` (line 46) over the formats still to emit. -/
def emitFormats (w : AccWidth) (ev : Evaluator) (pc : Nat) (number : List Number)
    (args : List (List Char)) : List Format → Table → Except Error Table
  | [], t => .ok t
  | f :: fs, t =>
    match emitFormat w ev pc number args t f with
    | .error e => .error e
    | .ok t1 => emitFormats w ev pc number args fs t1

/-- The opcode loop of `assemble` (line 18) over the opcodes still to try; the
result is the return value and the state. -/
def assembleLoop (w : AccWidth) (env : Env) (s : List Char) (pc : Nat) :
    List Opcode → Table → Except Error (Bool × Table)
  | [], t => .ok (false, t)
  | opcode :: rest, t =>
    if env.tokenizeMatch s opcode.pattern = false then assembleLoop w env s pc rest t
    else
      let args := env.tokenizeArgs s opcode.pattern
      if args.length ≠ opcode.number.length then assembleLoop w env s pc rest t
      else
        match widthCheck env.toEvaluator t opcode.number opcode.format args with
        | .error e => .error e
        | .ok (true, _) => assembleLoop w env s pc rest t
        | .ok (false, args1) =>
          match emitFormats w env.toEvaluator pc opcode.number args1 opcode.format t with
          | .error e => .error e
          | .ok t1 => .ok (true, t1)

/-- `Table::assemble(statement)`. -/
def assemble (w : AccWidth) (env : Env) (t : Table) (statement : List Char) :
    Except Error (Bool × Table) :=
  match env.instrument statement with
  | some text =>
    match env.parseTable text (t.table, t.endian) with
    | .error e => .error e
    | .ok (table, endian) => .ok (true, { t with table := table, endian := endian })
  | none => assembleLoop w env statement t.pc t.table t

end Table

/-! ## `Table::assembleTableLHS` and `Table::assembleTableRHS` -/

namespace Table

/-- Modelled from the spec: `slice(text, offset, size)` of nall is not among the
sources; it is the fragment of `size` characters of `text` that starts at
`offset` ("each literal fragment becomes a prefix entry"). -/
def slice (text : List Char) (offset size : Nat) : List Char := (text.drop offset).take size

/-- The lambda `length` of `assembleTableLHS` on the text from `offset` on: the
number of characters before the next `*` or the end. -/
def lhsLength : List Char → Nat → Nat
  | [], length => length
  | n :: rest, length => if n = '*' then length else lhsLength rest (length + 1)

/-- The value of `c - '0'` for a character read from a string. -/
def digitOf (c : Char) : Int := (c.toNat : Int) - ('0'.toNat : Int)

/-- The loop `while(text[offset])` of `assembleTableLHS`.  The first argument
bounds the number of iterations; every iteration advances `offset`, so the
length of the text plus one is enough. -/
def lhsLoop (text : List Char) : Nat → Nat → Opcode → Opcode
  | 0, _, opcode => opcode
  | fuel + 1, offset, opcode =>
    if charAt text offset = Char.ofNat 0 then opcode
    else
      let size := lhsLength (text.drop offset) 0
      let opcode1 := { opcode with prefix_ := opcode.prefix_ ++ [⟨slice text offset size, size⟩] }
      let offset1 := offset + size
      if charAt text offset1 ≠ '*' then lhsLoop text fuel offset1 opcode1
      else
        let bits := wrapU 32 (10 * digitOf (charAt text (offset1 + 1)))
        let bits1 := wrapU 32 ((bits : Int) + digitOf (charAt text (offset1 + 2)))
        lhsLoop text fuel (offset1 + 3) { opcode1 with number := opcode1.number ++ [⟨bits1⟩] }

/-- The end of `assembleTableLHS`: every prefix text followed by `*` is appended
to the pattern, one trailing `*` is trimmed, and a `*` is appended when there
are as many descriptors as prefixes. -/
def lhsPattern (opcode : Opcode) : List Char :=
  let joined := opcode.pattern ++ (opcode.prefix_.map (fun p => p.text ++ ['*'])).flatten
  let trimmed := if joined.getLast? = some '*' then joined.dropLast else joined
  if opcode.number.length = opcode.prefix_.length then trimmed ++ ['*'] else trimmed

/-- `Table::assembleTableLHS(opcode, text)`. -/
def assembleTableLHS (opcode : Opcode) (text : List Char) : Opcode :=
  let opcode1 := lhsLoop text (text.length + 1) 0 opcode
  { opcode1 with pattern := lhsPattern opcode1 }

/-- Modelled from the spec: `toHex` of nall is not among the sources; it is the
value of the hexadecimal digits at the start of the text ("data = hex(HH)"),
continuing from `sum`. -/
def toHex : List Char → Nat → Nat
  | [], sum => sum
  | c :: p, sum =>
    if '0'.toNat ≤ c.toNat ∧ c.toNat ≤ '9'.toNat then toHex p (16 * sum + (c.toNat - '0'.toNat))
    else if 'a'.toNat ≤ c.toNat ∧ c.toNat ≤ 'f'.toNat then
      toHex p (16 * sum + (c.toNat - 'a'.toNat + 10))
    else if 'A'.toNat ≤ c.toNat ∧ c.toNat ≤ 'F'.toNat then
      toHex p (16 * sum + (c.toNat - 'A'.toNat + 10))
    else sum

/-- Modelled from the spec: `toBinary` of nall is not among the sources; it is
the value of the binary digits at the start of the text ("data = binary(bits…)"),
continuing from `sum`. -/
def toBinary : List Char → Nat → Nat
  | [], sum => sum
  | c :: p, sum =>
    if c = '0' then toBinary p (2 * sum)
    else if c = '1' then toBinary p (2 * sum + 1)
    else sum

/-- The expression `(c >= 'A' && c <= 'Z') ? c + 123 - 'A' - 'a' : c - 'a'` that
maps an argument letter to `format.argument`, a `uint`. -/
def argumentOf (c : Char) : Nat :=
  if 'A'.toNat ≤ c.toNat ∧ c.toNat ≤ 'Z'.toNat then
    wrapU 32 ((c.toNat : Int) + 123 - ('A'.toNat : Int) - ('a'.toNat : Int))
  else wrapU 32 ((c.toNat : Int) - ('a'.toNat : Int))

/-- The expression `(a - '0') * 10 + (b - '0')` stored in `format.data`. -/
def twoDigits (a b : Char) : Nat := wrapU 32 (digitOf a * 10 + digitOf b)

/-- The body of the loop of `assembleTableRHS`: the format that one item adds,
if any. -/
def rhsItem (item : List Char) : Option Format :=
  let c := fun (i : Nat) => charAt item i
  if c 0 = '$' ∧ item.length = 3 then
    some { type := .Static, data := wrapU 32 (toHex (item.drop 1) 0),
           bits := wrapU 32 (((item.length : Int) - 1) * 4) }
  else if c 0 = '>' ∧ c 1 = '>' then
    some { type := .ShiftRight, match_ := .Weak, argument := argumentOf (c 4),
           data := twoDigits (c 2) (c 3) }
  else if c 0 = '<' ∧ c 1 = '<' then
    some { type := .ShiftLeft, match_ := .Weak, argument := argumentOf (c 4),
           data := twoDigits (c 2) (c 3) }
  else if c 0 = '+' ∧ c 2 = '>' ∧ c 3 = '>' then
    some { type := .RelativeShiftRight, match_ := .Weak, argument := argumentOf (c 6),
           displacement := wrapS 32 (digitOf (c 1)), data := twoDigits (c 4) (c 5) }
  else if c 0 = 'N' ∧ c 1 = '>' ∧ c 2 = '>' then
    some { type := .NegativeShiftRight, match_ := .Weak, argument := argumentOf (c 5),
           data := twoDigits (c 3) (c 4) }
  else if c 0 = 'N' ∧ c 1 ≠ '>' then
    some { type := .Negative, match_ := .Weak, argument := argumentOf (c 1) }
  else if c 0 = 'C' ∧ c 1 = '>' ∧ c 2 = '>' then
    some { type := .ComplimentShiftRight, match_ := .Weak, argument := argumentOf (c 5),
           data := twoDigits (c 3) (c 4) }
  else if c 0 = 'C' ∧ c 1 ≠ '>' then
    some { type := .Compliment, match_ := .Weak, argument := argumentOf (c 1) }
  else if c 0 = 'D' ∧ c 1 = '>' ∧ c 2 = '>' then
    some { type := .DecrementShiftRight, match_ := .Weak, argument := argumentOf (c 5),
           data := twoDigits (c 3) (c 4) }
  else if c 0 = 'D' ∧ c 1 ≠ '>' then
    some { type := .Decrement, match_ := .Weak, argument := argumentOf (c 1) }
  else if c 0 = 'I' ∧ c 1 = '>' ∧ c 2 = '>' then
    some { type := .IncrementShiftRight, match_ := .Weak, argument := argumentOf (c 5),
           data := twoDigits (c 3) (c 4) }
  else if c 0 = 'I' ∧ c 1 ≠ '>' then
    some { type := .Increment, match_ := .Weak, argument := argumentOf (c 1) }
  else if c 0 = '%' then
    some { type := .Static, data := wrapU 32 (toBinary (item.drop 1) 0),
           bits := wrapU 32 ((item.length : Int) - 1) }
  else if c 0 = '!' then
    some { type := .Absolute, match_ := .Exact, argument := argumentOf (c 1) }
  else if c 0 = '=' then
    some { type := .Absolute, match_ := .Strong, argument := argumentOf (c 1) }
  else if c 0 = '~' then
    some { type := .Absolute, match_ := .Weak, argument := argumentOf (c 1) }
  else if c 0 = '+' then
    some { type := .Relative, argument := argumentOf (c 2),
           displacement := wrapS 32 (digitOf (c 1)) }
  else if c 0 = '-' then
    some { type := .Relative, argument := argumentOf (c 2),
           displacement := wrapS 32 (-digitOf (c 1)) }
  else if c 0 = '*' then
    some { type := .Repeat, argument := argumentOf (c 1),
           data := wrapU 32 (toHex (item.drop 3) 0) }
  else none

/-- Modelled from the spec: `text.split(" ")` of nall is not among the sources;
the RHS is a list of "whitespace-separated tokens", the texts between the
blanks. -/
def splitBlank (text : List Char) : List (List Char) := text.splitOn ' '

/-- `Table::assembleTableRHS(opcode, text)`. -/
def assembleTableRHS (opcode : Opcode) (text : List Char) : Opcode :=
  { opcode with format := opcode.format ++ (splitBlank text).filterMap rhsItem }

/-- The opcode of the body of the line loop of `parseTable` (lines 294-297), for a
table line whose two parts are `lhs` and `rhs`. -/
def lineOpcode (lhs rhs : List Char) : Opcode :=
  assembleTableRHS (assembleTableLHS {} lhs) rhs

end Table

/-! ## `bass/core/core.cpp`: the overwrite tracker -/

/-- Modelled from the spec: the declaration of `Bass::tracker` (core.hpp) is not
among the sources.  The specification describes it as a switch and "a set of
absolute output addresses that have been written": `find` is membership and
`insert` adds one address. -/
structure Tracker where
  enable : Bool := false
  addresses : Finset Nat := ∅
  deriving DecidableEq

/-- `Bass::Phase`, in the order `assemble` sets it. -/
inductive Phase where
  | Analyze | Query | Refine | Write
  deriving DecidableEq, Repr

/-- The part of the `Bass` object that `track`, `seek`, `pc` and `write` read and
write.  `targetOpen` is `if(targetFile)`, `targetOffset` is
`targetFile.offset()` (a `uint64_t`), `targetData` lists the bytes written to
the target file since it was opened, each with the offset it went to, oldest
first.  `stdoutTty` is `isatty(fileno(stdout))` and `stdoutData` the bytes
given to `fputc`.  `origin` is a `uint`, `base` an `int`. -/
structure Bass where
  tracker : Tracker := {}
  targetOffset : Nat := 0
  phase : Phase := Phase.Analyze
  endian : Endian := Endian.LSB
  origin : Nat := 0
  base : Int := 0
  targetOpen : Bool := false
  targetData : List (Nat × Nat) := []
  stdoutTty : Bool := true
  stdoutData : List Nat := []
  deriving DecidableEq

namespace Bass

/-- The loop `for(auto n : range(length))` of `track`, with the iterations still
to run and the current `n`; `address + n` is a `uint64_t`. -/
def trackLoop (address : Nat) : Nat → Nat → Finset Nat → Except Error (Finset Nat)
  | 0, _, addresses => .ok addresses
  | remaining + 1, n, addresses =>
    if (address + n) % 2 ^ 64 ∈ addresses then .error (Error.overwrite ((address + n) % 2 ^ 64))
    else trackLoop address remaining (n + 1) (insert ((address + n) % 2 ^ 64) addresses)

/-- `Bass::track(length)`. -/
def track (b : Bass) (length : Nat) : Except Error Bass :=
  if b.tracker.enable = false then .ok b
  else
    match trackLoop b.targetOffset length 0 b.tracker.addresses with
    | .error e => .error e
    | .ok addresses => .ok { b with tracker := { b.tracker with addresses := addresses } }

/-- `Bass::writePhase()`: the declaration (core.hpp) is not among the sources;
the name and every use say `phase == Phase::Write`. -/
def writePhase (b : Bass) : Bool := decide (b.phase = Phase.Write)

/-- `Bass::pc()`: `origin + base` as a `uint`. -/
def pc (b : Bass) : Nat := wrapU 32 ((b.origin : Int) + b.base)

/-- `Bass::seek(offset)`. -/
def seek (b : Bass) (offset : Nat) : Bass :=
  if b.targetOpen = false then b
  else if b.writePhase then { b with targetOffset := offset }
  else b

/-- Modelled from the spec: `file::write` of one byte (nall/file.hpp is not
among the sources): the byte goes to the current offset of the target file and
the offset moves on by one. -/
def filePut (b : Bass) (byte : Nat) : Bass :=
  { b with targetData := b.targetData ++ [(b.targetOffset, byte % 256)],
           targetOffset := (b.targetOffset + 1) % 2 ^ 64 }

/-- Modelled from the spec: `file::writel(data, length)`, the `length` low bytes
of `data`, lowest first. -/
def writel (b : Bass) (data length : Nat) : Bass :=
  (List.range length).foldl (fun b1 n => filePut b1 (data / 2 ^ (8 * n))) b

/-- Modelled from the spec: `file::writem(data, length)`, the `length` low bytes
of `data`, highest first. -/
def writem (b : Bass) (data length : Nat) : Bass :=
  (List.range length).reverse.foldl (fun b1 n => filePut b1 (data / 2 ^ (8 * n))) b

/-- One `fputc(data >> n * 8, stdout)`: `n * 8` is a `uint`, the shift is on a
`uint64_t`, and `fputc` keeps the low byte. -/
def stdoutPut (data : Nat) (b : Bass) (n : Nat) : Bass :=
  { b with stdoutData := b.stdoutData ++ [shrU64 data (wrapU 32 ((n : Int) * 8)) % 256] }

/-- `Bass::write(data, length)`: `data` is a `uint64_t`, `length` a `uint`. -/
def write (b : Bass) (data length : Nat) : Except Error Bass :=
  let advance := fun (b1 : Bass) => { b1 with origin := (b1.origin + length) % 2 ^ 32 }
  if b.writePhase then
    if b.targetOpen then
      match track b length with
      | .error e => .error e
      | .ok b1 =>
        match b1.endian with
        | Endian.LSB => .ok (advance (writel b1 data length))
        | Endian.MSB => .ok (advance (writem b1 data length))
    else if b.stdoutTty = false then
      match b.endian with
      | Endian.LSB => .ok (advance ((List.range length).foldl (stdoutPut data) b))
      | Endian.MSB => .ok (advance ((List.range length).reverse.foldl (stdoutPut data) b))
    else .ok (advance b)
  else .ok (advance b)

/-- `Bass::target(filename, create)`: `named` is `filename` being non-empty and
`opened` the answer of `targetFile.open`; the result is the returned `bool` and
the state.  A freshly opened file is at offset 0 with nothing written. -/
def target (b : Bass) (named opened : Bool) : Bool × Bass :=
  let b1 : Bass := { b with targetOpen := false }
  if named = false then (true, b1)
  else if opened = false then (false, b1)
  else (true, { b1 with targetOpen := true, targetOffset := 0, targetData := [],
                        tracker := { b1.tracker with addresses := ∅ } })

end Bass

/-! ## `bass/core/core.cpp`: the pass driver `Bass::assemble` -/

/-- Modelled from the spec: the declaration of a constant (core.hpp) is not among
the sources.  The specification gives it as "Name + integer value + flags
{held, changed, indeterminate, unknown}", and these are the members `assemble`
names. -/
structure Constant where
  name : List Char
  value : Int := 0
  held : Bool := false
  changed : Bool := false
  indeterminate : Bool := false
  unknown : Bool := false
  deriving DecidableEq, Repr

/-- The `Bass` object as `assemble` sees it between two passes: the set
`constants` in the order its iterator lists it, `orderedUnknowns`, and in `rest`
everything else that `analyze` and `execute` read and write. -/
structure Driver (ρ : Type) where
  constants : List Constant := []
  orderedUnknowns : List (List Char) := []
  rest : ρ

/-- The state of a run of `assemble`: the object and the phases of the passes
begun so far, oldest first. -/
structure Run (ρ : Type) where
  driver : Driver ρ
  passes : List Phase

/-- What a call of `assemble` leaves: the returned `bool`, the phases of the
passes it began, in order, and the object when it returned `true`. -/
structure Outcome (ρ : Type) where
  result : Bool
  passes : List Phase
  final : Option (Driver ρ)

namespace Bass

/-- The body of the loop `for(auto& constant : constants)` (lines 102 to 123) for
one constant: what is left of it in the set, whether it sets `anyChanged`, and
whether it sets `anyUnset`.  The iterator of `hashset` walks a copy of the
entries made when the loop starts, so every constant is visited once.  A
constant that is not held is removed before line 121 reads it again; the model
reads the flags it had, so with `held` false it leaves `anyChanged` alone. -/
def inspectConstant (c : Constant) : Option Constant × Bool × Bool :=
  if c.held = false then (none, c.changed && c.held, true)
  else if c.indeterminate then
    let c1 := { c with indeterminate := false, held := false }
    (some { c1 with changed := false }, c1.changed && c1.held, false)
  else if c.unknown then
    let c1 := { c with unknown := false }
    (some { c1 with changed := false }, c1.changed && c1.held, false)
  else (some { c with changed := false }, c.changed && c.held, false)

/-- The whole loop of lines 100 to 123: the constants that remain, `anyChanged`
and `anyUnset`. -/
def inspect (constants : List Constant) : List Constant × Bool × Bool :=
  (constants.filterMap fun c => (inspectConstant c).1,
   constants.any fun c => (inspectConstant c).2.1,
   constants.any fun c => (inspectConstant c).2.2)

/-- The loop of lines 132 to 136 for one constant. -/
def force (c : Constant) : Constant :=
  { c with indeterminate := false, unknown := false, held := true }

/-- One pass: `phase = ...` followed by `analyze()` or `execute()`, which the
parameter `exec` stands for (analyze.cpp and execute.cpp are not among the
sources).  An error leaves through `catch(...)`; the passes begun are kept. -/
def pass {ρ : Type} (exec : Phase → Driver ρ → Except Error (Driver ρ)) (phase : Phase)
    (r : Run ρ) : Except (List Phase) (Run ρ) :=
  match exec phase r.driver with
  | .error _ => .error (r.passes ++ [phase])
  | .ok d => .ok { driver := d, passes := r.passes ++ [phase] }

/-- The loop `for(; passes <= 10; passes++)` of line 93, with the number of
iterations still allowed: nine when it is entered with `passes = 2`. -/
def refineLoop {ρ : Type} (exec : Phase → Driver ρ → Except Error (Driver ρ)) :
    Nat → Run ρ → Except (List Phase) (Run ρ)
  | 0, r => .ok r
  | remaining + 1, r =>
    let inspected := inspect r.driver.constants
    let d1 : Driver ρ := { r.driver with orderedUnknowns := [], constants := inspected.1 }
    if inspected.2.1 = false then
      if inspected.2.2 then .ok { r with driver := d1 }
      else .ok { r with driver := { d1 with constants := d1.constants.map force } }
    else
      match pass exec Phase.Refine { r with driver := d1 } with
      | .error passes => .error passes
      | .ok r1 => refineLoop exec remaining r1

/-- `Bass::assemble(strict)`. -/
def assemble {ρ : Type} (exec : Phase → Driver ρ → Except Error (Driver ρ))
    (d : Driver ρ) : Outcome ρ :=
  match pass exec Phase.Analyze { driver := d, passes := [] } with
  | .error passes => { result := false, passes := passes, final := none }
  | .ok r1 =>
    match pass exec Phase.Query r1 with
    | .error passes => { result := false, passes := passes, final := none }
    | .ok r2 =>
      match (if r2.driver.orderedUnknowns.length ≠ 0 then refineLoop exec 9 r2 else .ok r2) with
      | .error passes => { result := false, passes := passes, final := none }
      | .ok r3 =>
        match pass exec Phase.Write r3 with
        | .error passes => { result := false, passes := passes, final := none }
        | .ok r4 => { result := true, passes := r4.passes, final := some r4.driver }

end Bass

/-! ## `nall/hashset.hpp`: the Robin Hood hash set -/

/-- `hashset::entry_t`: a pointer to the stored object, null in an empty slot,
and the hash of the object.  The object itself stands for the pointer. -/
structure entry_t (T : Type) where
  ptr : Option T := none
  hash : Nat := 0

/-- What `hashset<T>` takes from outside the header: `T::hash()` (a `uint`),
`T::operator==`, and `bit::round` of nall/bit.hpp, which is not among the
sources. -/
structure Element (T : Type) where
  hash : T → Nat
  eq : T → T → Bool
  round : Nat → Nat

/-- The members of `hashset<T>`: `pool` (null or an array of `length` entries),
`length` and `count`, both `uint`. -/
structure hashset (T : Type) where
  pool : Option (List (entry_t T)) := none
  length : Nat := 8
  count : Nat := 0

namespace hashset

variable {T : Type}

/-- `mask(n)`: `n & (length - 1)` on `uint`. -/
def mask (length : Nat) (n : Int) : Nat := wrapU 32 n &&& wrapU 32 ((length : Int) - 1)

/-- `size()`. -/
def size (s : hashset T) : Nat := s.count

/-- `reset()`. -/
def reset (_ : hashset T) : hashset T := { pool := none, length := 8, count := 0 }

/-- `entries()`: the entries of the occupied slots, in the order of the pool. -/
def entries (s : hashset T) : List (entry_t T) :=
  match s.pool with
  | none => []
  | some pool =>
    if s.count = 0 then []
    else ((List.range s.length).map fun n => pool.getD n {}).filter fun e => e.ptr.isSome

/-- The loop of `find`, with the iterations still allowed and the current `i`. -/
def findLoop (ops : Element T) (length hash : Nat) (pool : List (entry_t T)) (value : T) :
    Nat → Nat → Option T
  | 0, _ => none
  | remaining + 1, i =>
    let index := mask length ((hash : Int) + i)
    let entry := pool.getD index {}
    match entry.ptr with
    | none => none
    | some x =>
      if entry.hash = hash ∧ ops.eq x value = true then some x
      else if i ≠ 0 ∧ mask length ((index : Int) - entry.hash) < i then none
      else findLoop ops length hash pool value remaining (i + 1)

/-- `find(value)`: the stored object, or `nothing`. -/
def find (ops : Element T) (s : hashset T) (value : T) : Option T :=
  match s.pool with
  | none => none
  | some pool => findLoop ops s.length (ops.hash value % 2 ^ 32) pool value s.length 0

/-- The loop of `insert`, with the iterations still allowed, the current `i`, the
held object and hash, the pool and `count`.  The result is the pool, `count`
and the returned object; `nothing` is returned on the path after the loop
only. -/
def insertLoop (ops : Element T) (length hash : Nat) (ptr : T) :
    Nat → Nat → T → Nat → List (entry_t T) → Nat → List (entry_t T) × Nat × Option T
  | 0, _, _, _, pool, count => (pool, count, none)
  | remaining + 1, i, heldPtr, heldHash, pool, count =>
    let index := mask length ((hash : Int) + i)
    let entry := pool.getD index {}
    match entry.ptr with
    | none =>
      (pool.set index { ptr := some heldPtr, hash := heldHash }, (count + 1) % 2 ^ 32, some ptr)
    | some x =>
      if entry.hash = heldHash ∧ ops.eq x heldPtr = true then (pool, count, some heldPtr)
      else if i ≠ 0 ∧ mask length ((index : Int) - entry.hash) < i then
        insertLoop ops length hash ptr remaining (i + 1) x entry.hash
          (pool.set index { ptr := some heldPtr, hash := heldHash }) count
      else insertLoop ops length hash ptr remaining (i + 1) heldPtr heldHash pool count

/-- `reserve(size)`, with the `insert` it calls as a parameter. -/
def reserveWith (ops : Element T) (ins : hashset T → T → Option (hashset T × Option T))
    (s : hashset T) (size : Nat) : Option (hashset T) :=
  let oldEntries := entries s
  let length := ops.round (max size (s.count * 2 % 2 ^ 32)) % 2 ^ 32
  let s1 : hashset T := { pool := some (List.replicate length {}), length := length, count := 0 }
  oldEntries.foldlM
    (fun acc entry =>
      match entry.ptr with
      | none => some acc
      | some x => (ins acc x).map Prod.fst)
    s1

/-- `insert(value)`: the set after the call and the returned object.  `insert`
and `reserve` call each other; the first argument bounds the depth of these
calls, and the result is `none` when it does not suffice. -/
def insert (ops : Element T) : Nat → hashset T → T → Option (hashset T × Option T)
  | 0, _, _ => none
  | fuel + 1, s, value =>
    let s1 : hashset T :=
      match s.pool with
      | none => { s with pool := some (List.replicate s.length {}) }
      | some _ => s
    let grown :=
      if s1.count ≥ s1.length / 2 then reserveWith ops (insert ops fuel) s1 (s1.length * 2 % 2 ^ 32)
      else some s1
    match grown with
    | none => none
    | some s2 =>
      let hash := ops.hash value % 2 ^ 32
      let r := insertLoop ops s2.length hash value s2.length 0 value hash (s2.pool.getD []) s2.count
      some ({ s2 with pool := some r.1, count := r.2.1 }, r.2.2)

/-- `reserve(size)`. -/
def reserve (ops : Element T) (fuel : Nat) (s : hashset T) (size : Nat) : Option (hashset T) :=
  reserveWith ops (insert ops fuel) s size

/-- The inner loop of `remove`, the backward shift: the iterations still allowed,
the current `j`, `index` and the pool; `start` is `hash + i`. -/
def removeShift (length : Nat) (start : Int) :
    Nat → Nat → Nat → List (entry_t T) → List (entry_t T) × Nat
  | 0, _, index, pool => (pool, index)
  | remaining + 1, j, index, pool =>
    let other := mask length (start + j)
    let entry2 := pool.getD other {}
    match entry2.ptr with
    | none => (pool, index)
    | some _ =>
      if mask length ((other : Int) - entry2.hash) = 0 then (pool, index)
      else removeShift length start remaining (j + 1) other (pool.set index entry2)

/-- The outer loop of `remove`: the pool, `count` and the returned `bool`. -/
def removeLoop (ops : Element T) (length hash : Nat) (value : T) (count : Nat) :
    Nat → Nat → List (entry_t T) → List (entry_t T) × Nat × Bool
  | 0, _, pool => (pool, count, false)
  | remaining + 1, i, pool =>
    let index := mask length ((hash : Int) + i)
    let entry := pool.getD index {}
    match entry.ptr with
    | none => (pool, count, false)
    | some x =>
      if entry.hash = hash ∧ ops.eq x value = true then
        let shifted := removeShift length ((hash : Int) + i) (length - 1) 1 index pool
        (shifted.1.set shifted.2 {}, wrapU 32 ((count : Int) - 1), true)
      else if i ≠ 0 ∧ mask length ((index : Int) - entry.hash) < i then (pool, count, false)
      else removeLoop ops length hash value count remaining (i + 1) pool

/-- `remove(value)`: the set after the call and the returned `bool`. -/
def remove (ops : Element T) (s : hashset T) (value : T) : hashset T × Bool :=
  match s.pool with
  | none => (s, false)
  | some pool =>
    let r := removeLoop ops s.length (ops.hash value % 2 ^ 32) value s.count s.length 0 pool
    ({ s with pool := some r.1, count := r.2.1 }, r.2.2)

end hashset

/-! ## Specification-side definitions -/

deriving instance DecidableEq for Except

namespace Table

/-- A sequence of `writeBits` calls, each given as `(data, length)`, run in
order from the state `t`. -/
def writeAll (w : AccWidth) (t : Table) : List (Nat × Nat) → Table
  | [] => t
  | (data, length) :: rest => writeAll w (writeBits w t data length) rest

/-- A run of statements through `assemble`, as the pass driver makes it: each
statement from the state the previous one left, until one raises an error. -/
def assembleAll (w : AccWidth) (env : Env) : Table → List (List Char) → Except Error Table
  | t, [] => .ok t
  | t, statement :: rest =>
    match assemble w env t statement with
    | .error e => .error e
    | .ok (_, t1) => assembleAll w env t1 rest

end Table

namespace Table

/-- A decimal digit, `'0'..'9'`. -/
def IsDigit (c : Char) : Prop := '0'.toNat ≤ c.toNat ∧ c.toNat ≤ '9'.toNat

instance (c : Char) : Decidable (IsDigit c) := by unfold IsDigit; infer_instance

/-- The integer that a string of decimal digits denotes. -/
def decValue : List Char → Nat
  | [] => 0
  | c :: p => (c.toNat - '0'.toNat) * 10 ^ p.length + decValue p

/-- Canonical decimal input: a non-empty string of decimal digits without a
leading zero, or the string "0". -/
def Canonical (p : List Char) : Prop :=
  p ≠ [] ∧ (∀ c ∈ p, IsDigit c) ∧ (p.head? = some '0' → p = ['0'])

instance (p : List Char) : Decidable (Canonical p) := by unfold Canonical; infer_instance

/-- What the comment above `decLength` promises for a string denoting `v`:
1 for zero, the minimum number of bits below `2^64`, 65 from there on. -/
def decContract (v : Nat) : Nat :=
  if v = 0 then 1 else if v < 2 ^ 64 then Nat.log 2 v + 1 else 65

/-- The check of one row of `metas` against `powers`, for the decimal length
`len`: its `elements` thresholds are `2^bits, 2^(bits-1), ...` written with
`len` digits, the next power of two below them has fewer digits (or `len = 1`),
and every number of `len` digits is below `2^(bits+1)` (or `len = 20`, whose
one threshold is `2^64`). -/
def metaOk (len : Nat) (m : Meta) : Bool :=
  decide (1 ≤ m.elements ∧ m.elements ≤ m.bits) &&
  (List.range m.elements).all (fun j =>
    let t := (powers.drop (m.offset + j * len)).take len
    decide (t.length = len) && t.all (fun c => decide (IsDigit c)) &&
      decide (decValue t = 2 ^ (m.bits - j))) &&
  (decide (len = 1 ∧ m.bits = m.elements) ||
    decide (2 ≤ len ∧ 2 ^ (m.bits - m.elements) ≤ 10 ^ (len - 1))) &&
  (decide (len = 20 ∧ m.bits = 64) || decide (10 ^ len ≤ 2 ^ (m.bits + 1) ∧ m.bits < 64))

/-- The check of the whole table, decimal lengths 1 to 20. -/
def metasOk : Bool :=
  (List.range 20).all (fun k => metaOk (k + 1) (metas.getD k ⟨0, 0, 0⟩))

/-- A hexadecimal digit, `0-9`, `a-f` or `A-F`. -/
def IsHexDigit (c : Char) : Prop :=
  ('0'.toNat ≤ c.toNat ∧ c.toNat ≤ '9'.toNat) ∨ ('a'.toNat ≤ c.toNat ∧ c.toNat ≤ 'f'.toNat) ∨
  ('A'.toNat ≤ c.toNat ∧ c.toNat ≤ 'F'.toNat)

instance (c : Char) : Decidable (IsHexDigit c) := by unfold IsHexDigit; infer_instance

/-- A binary digit, `0` or `1`. -/
def IsBinDigit (c : Char) : Prop := c = '0' ∨ c = '1'

instance (c : Char) : Decidable (IsBinDigit c) := by unfold IsBinDigit; infer_instance

end Table
namespace Table

/-- The list `args` after the call of `bitLength` that the width check makes for
the format `f` (none for a `Weak` format or a format that is not `Absolute`). -/
def checkedArgs (ev : Evaluator) (t : Table) (f : Format) (args : List (List Char)) :
    List (List Char) :=
  if f.match_ ≠ FormatMatch.Weak ∧ f.type = FormatType.Absolute then
    match args[f.argument]? with
    | none => args
    | some arg =>
      match bitLength ev t arg with
      | .error _ => args
      | .ok (_, arg1) => args.set f.argument arg1
  else args

/-- The list `args` as the width check finds it after visiting `formats` in
sequence order. -/
def argsAfter (ev : Evaluator) (t : Table) : List Format → List (List Char) → List (List Char)
  | [], args => args
  | f :: fs, args => argsAfter ev t fs (checkedArgs ev t f args)

/-- The width condition of the specification for one format: an `Absolute`
format with match mode `Strong` needs `bitLength(args[argument]) <= number[argument].bits`,
one with match mode `Exact` needs equality; nothing is asked of other formats. -/
def FormatFits (ev : Evaluator) (t : Table) (number : List Number) (args : List (List Char))
    (f : Format) : Prop :=
  f.type = FormatType.Absolute →
    (f.match_ = FormatMatch.Strong → ∃ arg n bits arg1, args[f.argument]? = some arg ∧
      number[f.argument]? = some n ∧ bitLength ev t arg = .ok (bits, arg1) ∧ bits ≤ n.bits) ∧
    (f.match_ = FormatMatch.Exact → ∃ arg n bits arg1, args[f.argument]? = some arg ∧
      number[f.argument]? = some n ∧ bitLength ev t arg = .ok (bits, arg1) ∧ bits = n.bits)

/-- The width condition of the specification for an opcode: every format, taken
in sequence order, fits. -/
def WidthOk (ev : Evaluator) (t : Table) (number : List Number) (formats : List Format)
    (args : List (List Char)) : Prop :=
  ∀ (k : Nat) (h : k < formats.length),
    FormatFits ev t number (argsAfter ev t (formats.take k) args) (formats.get ⟨k, h⟩)

/-- An opcode is rejected for a statement: the pattern does not match, or the
number of extracted arguments differs from the number of descriptors, or the
width check ends with a mismatch. -/
def Rejected (env : Env) (t : Table) (s : List Char) (opcode : Opcode) : Prop :=
  env.tokenizeMatch s opcode.pattern = false ∨
  (env.tokenizeArgs s opcode.pattern).length ≠ opcode.number.length ∨
  ∃ args1, widthCheck env.toEvaluator t opcode.number opcode.format
    (env.tokenizeArgs s opcode.pattern) = .ok (true, args1)

/-- An opcode is accepted for a statement, with `args1` the arguments as the
width check leaves them. -/
def Accepted (env : Env) (t : Table) (s : List Char) (opcode : Opcode)
    (args1 : List (List Char)) : Prop :=
  env.tokenizeMatch s opcode.pattern = true ∧
  (env.tokenizeArgs s opcode.pattern).length = opcode.number.length ∧
  widthCheck env.toEvaluator t opcode.number opcode.format
    (env.tokenizeArgs s opcode.pattern) = .ok (false, args1)

end Table
/-! ## The scenarios of the specification

The external collaborators, as far as the scenarios S2-S4 of the specification
use them: hexadecimal literals for the evaluator and patterns that end in one
wildcard for the tokenizer. -/

namespace Scenario

/-- The value of one hexadecimal digit. -/
def hexDigit (c : Char) : Option Nat :=
  if '0'.toNat ≤ c.toNat ∧ c.toNat ≤ '9'.toNat then some (c.toNat - '0'.toNat)
  else if 'a'.toNat ≤ c.toNat ∧ c.toNat ≤ 'f'.toNat then some (c.toNat - 'a'.toNat + 10)
  else if 'A'.toNat ≤ c.toNat ∧ c.toNat ≤ 'F'.toNat then some (c.toNat - 'A'.toNat + 10)
  else none

/-- The value of a string of hexadecimal digits, continuing from `acc`. -/
def hexValue : List Char → Nat → Option Nat
  | [], acc => some acc
  | c :: p, acc =>
    match hexDigit c with
    | none => none
    | some d => hexValue p (16 * acc + d)

/-- An evaluator for the literals `$HH...` and `0xHH...`; anything else throws. -/
def evaluate (_ : Table) (text : List Char) : Except Error Int :=
  let digits := match text with
    | '$' :: ds => some ds
    | '0' :: 'x' :: ds => some ds
    | _ => none
  match digits with
  | none => .error Error.evaluator
  | some [] => .error Error.evaluator
  | some ds =>
    match hexValue ds 0 with
    | none => .error Error.evaluator
    | some v => .ok (v : Int)

/-- The number of binary digits of `n`, for `n < 2^fuel`. -/
def bitCount : Nat → Nat → Nat
  | 0, _ => 0
  | fuel + 1, n => if n = 0 then 0 else bitCount fuel (n / 2) + 1

/-- The exact value of `floor(log2(data)) + 1` for `1 <= data < 2^64`. -/
def log2Bits (data : Int) : Nat := bitCount 64 data.toNat

/-- The tokenizer for patterns made of literal text followed by one `*`: the
statement matches when it starts with the literal text, and the one argument is
the rest of the statement.  A pattern without wildcard matches itself only. -/
def tokenizeMatch (s pattern : List Char) : Bool :=
  if pattern.getLast? = some '*' then pattern.dropLast.isPrefixOf s else decide (s = pattern)

/-- The arguments extracted by the tokenizer of the scenarios. -/
def tokenizeArgs (s pattern : List Char) : List (List Char) :=
  if pattern.getLast? = some '*' then [s.drop (pattern.length - 1)] else []

/-- The collaborators of the scenarios; none of them has an `instrument`
statement. -/
def env : Env where
  evaluate := evaluate
  log2Bits := log2Bits
  instrument := fun _ => none
  parseTable := fun _ st => .ok st
  tokenizeMatch := tokenizeMatch
  tokenizeArgs := tokenizeArgs

/-- The opcode that `parseTable` appends for the table line `lda #*08; $a9 =a`
(scenario S2), whose parts around the `;` are `lda #*08` and `$a9 =a`: the pattern
`lda #*`, one descriptor of 8 bits, the formats `Static $a9` in 8 bits and
`Absolute`, `Strong`, of argument `a`. -/
def lda : Opcode := Table.lineOpcode "lda #*08".toList "$a9 =a".toList

/-- The opcode for the table line `beq *08; $f0 +1a` (scenarios S3 and S4): the
pattern `beq *`, one descriptor of 8 bits, the formats `Static $f0` in 8 bits and
`Relative` of argument `a` with displacement +1. -/
def beq : Opcode := Table.lineOpcode "beq *08".toList "$f0 +1a".toList

/-- The opcode for a table line `lda #*16; $ad =a`: as `lda`, with a descriptor
of 16 bits and the constant byte `$ad`. -/
def lda16 : Opcode := Table.lineOpcode "lda #*16".toList "$ad =a".toList

/-- The opcode for the table line `nop; $ea` (scenario S1). -/
def nop : Opcode := Table.lineOpcode "nop".toList "$ea".toList

/-- The `Relative` format `+1a` of the opcode `beq`. -/
def beqRelative : Format := { type := FormatType.Relative, argument := 0, displacement := 1 }

/-- An evaluator that always throws: a result obtained with it does not come
from the evaluator. -/
def noEvaluator : Evaluator where
  evaluate := fun _ _ => .error Error.evaluator
  log2Bits := fun _ => 0

/-- A freshly opened target file in the write phase, overwrite tracking off as
it is by default. -/
def opened : Bass := (Bass.target { phase := Phase.Write } true true).2

/-- A target file in the write phase with tracking on, whose offset 0 has been
written and recorded, positioned at offset 0 again. -/
def tracked : Bass :=
  { phase := Phase.Write, targetOpen := true, targetOffset := 0, targetData := [(0, 0xAA)],
    tracker := { enable := true, addresses := {0} } }

/-- A pass executor that raises no error and changes nothing. -/
def quiet : Phase → Driver Unit → Except Error (Driver Unit) := fun _ d => .ok d

/-- A pass executor that raises no error and ends every pass with one unknown
name and one held constant that changed: refinement never converges. -/
def restless : Phase → Driver Unit → Except Error (Driver Unit) := fun _ d =>
  .ok { d with constants := [{ name := "x".toList, held := true, changed := true }],
               orderedUnknowns := ["x".toList] }

/-- A pass executor that raises no error and ends every pass with one unknown
name and one constant that was referenced and never assigned. -/
def unassigned : Phase → Driver Unit → Except Error (Driver Unit) := fun _ d =>
  .ok { d with constants := [{ name := "x".toList, held := false }],
               orderedUnknowns := ["x".toList] }

/-- A pass executor that raises no error and ends every pass with one unknown
name and one held constant that changed and is indeterminate. -/
def wavering : Phase → Driver Unit → Except Error (Driver Unit) := fun _ d =>
  .ok { d with constants := [{ name := "x".toList, held := true, changed := true,
                               indeterminate := true }],
               orderedUnknowns := ["x".toList] }

/-- The opcode for the table line `jmp *24; $4c +0>>02a` (scenario S5). -/
def jmp : Opcode := Table.lineOpcode "jmp *24".toList "$4c +0>>02a".toList

end Scenario
namespace Table

/-- A pattern text in which every `*` is followed by two decimal digits. -/
def WellFormedLHS : List Char → Prop
  | [] => True
  | c :: rest =>
    if c = '*' then
      match rest with
      | d1 :: d2 :: rest2 => IsDigit d1 ∧ IsDigit d2 ∧ WellFormedLHS rest2
      | _ => False
    else WellFormedLHS rest

/-- The two-digit decimal numbers that follow the `*` of a pattern text, in
order. -/
def wildcardWidths : List Char → List Nat
  | [] => []
  | c :: rest =>
    if c = '*' then
      match rest with
      | d1 :: d2 :: rest2 =>
        (10 * (d1.toNat - '0'.toNat) + (d2.toNat - '0'.toNat)) :: wildcardWidths rest2
      | _ => []
    else wildcardWidths rest

/-- The pattern text with every `*NN` replaced by `*`. -/
def starred : List Char → List Char
  | [] => []
  | c :: rest =>
    if c = '*' then
      match rest with
      | _ :: _ :: rest2 => '*' :: starred rest2
      | _ => ['*']
    else c :: starred rest

/-- A C string: no NUL character inside. -/
def NulFree (text : List Char) : Prop := ∀ c ∈ text, c ≠ Char.ofNat 0

instance (text : List Char) : Decidable (NulFree text) := by unfold NulFree; infer_instance

/-- The value of one hexadecimal digit. -/
def hexDigitValue (c : Char) : Nat :=
  if '0'.toNat ≤ c.toNat ∧ c.toNat ≤ '9'.toNat then c.toNat - '0'.toNat
  else if 'a'.toNat ≤ c.toNat ∧ c.toNat ≤ 'f'.toNat then c.toNat - 'a'.toNat + 10
  else if 'A'.toNat ≤ c.toNat ∧ c.toNat ≤ 'F'.toNat then c.toNat - 'A'.toNat + 10
  else 0

/-- The number that a string of hexadecimal digits denotes. -/
def hexNumber (ds : List Char) : Nat :=
  ds.foldl (fun acc c => 16 * acc + hexDigitValue c) 0

/-- The place of the argument letter in the token of each format of the RHS
grammar: `!a`, `=a`, `~a`, `Na`, `Ca`, `Da`, `Ia` and `*aHH` have it at 1,
`+Da` and `-Da` at 2, `>>DDa` and `<<DDa` at 4, `N>>DDa`, `C>>DDa`, `D>>DDa`,
`I>>DDa` at 5, `+D>>DDa` at 6.  A `Static` token names no argument. -/
def letterPosition : FormatType → Nat
  | .Static => 0
  | .Absolute => 1
  | .Relative => 2
  | .Repeat => 1
  | .ShiftRight => 4
  | .ShiftLeft => 4
  | .RelativeShiftRight => 6
  | .Negative => 1
  | .NegativeShiftRight => 5
  | .Compliment => 1
  | .ComplimentShiftRight => 5
  | .Decrement => 1
  | .DecrementShiftRight => 5
  | .Increment => 1
  | .IncrementShiftRight => 5

/-- An argument letter, `a..z` or `A..Z`. -/
def IsLetter (c : Char) : Prop :=
  ('a'.toNat ≤ c.toNat ∧ c.toNat ≤ 'z'.toNat) ∨ ('A'.toNat ≤ c.toNat ∧ c.toNat ≤ 'Z'.toNat)

instance (c : Char) : Decidable (IsLetter c) := by unfold IsLetter; infer_instance

/-- The index that the specification gives an argument letter: `a..z` are 0 to
25, `A..Z` are 26 to 51. -/
def letterIndex (c : Char) : Nat :=
  if 'a'.toNat ≤ c.toNat ∧ c.toNat ≤ 'z'.toNat then c.toNat - 'a'.toNat
  else c.toNat - 'A'.toNat + 26

end Table

/-! ## Specification-side definitions for `hashset` -/

namespace hashset

variable {T : Type}

/-- The requirements of the header on `T`, "T::hash() consistent with
T::operator==", with `operator==` an equivalence; and `bit::round` leaves a
power of two as it is. -/
structure Lawful (ops : Element T) : Prop where
  refl : ∀ a, ops.eq a a = true
  symm : ∀ a b, ops.eq a b = true → ops.eq b a = true
  trans : ∀ a b c, ops.eq a b = true → ops.eq b c = true → ops.eq a c = true
  hash_eq : ∀ a b, ops.eq a b = true → ops.hash a % 2 ^ 32 = ops.hash b % 2 ^ 32
  round_pow : ∀ k, ops.round (2 ^ k) = 2 ^ k

/-- The probe distance of slot `p` for an object of hash `g` in a pool of `n`
slots: the number of steps from the home slot `g mod n` to `p`. -/
def dist (n p g : Nat) : Nat := (p + n - g % n) % n

/-- The slot after `p`, cyclically. -/
def next (n p : Nat) : Nat := (p + 1) % n

/-- Slot `p` of the pool holds the object `x` with the stored hash `g`. -/
def Holds (pool : List (entry_t T)) (p : Nat) (x : T) (g : Nat) : Prop :=
  (pool.getD p {}).ptr = some x ∧ (pool.getD p {}).hash = g

/-- Slot `p` of the pool is empty. -/
def Vacant (pool : List (entry_t T)) (p : Nat) : Prop := (pool.getD p {}).ptr = none

/-- The number of occupied slots. -/
def occupied (pool : List (entry_t T)) : Nat := pool.countP fun e => e.ptr.isSome

/-- The Robin Hood ordering of a pool of `n` slots: the stored hashes are those
of the objects, an object that is not in its home slot follows an object that
is at most one step closer to its own home, and no two slots hold objects that
`operator==` equates. -/
structure PoolInv (ops : Element T) (n : Nat) (pool : List (entry_t T)) : Prop where
  len : pool.length = n
  hashes : ∀ p x g, Holds pool p x g → g = ops.hash x % 2 ^ 32
  order : ∀ p, p < n → ∀ y g', Holds pool (next n p) y g' → dist n (next n p) g' ≠ 0 →
    ∃ x g, Holds pool p x g ∧ dist n (next n p) g' ≤ dist n p g + 1
  unique : ∀ p q x y g g', Holds pool p x g → Holds pool q y g' → ops.eq x y = true → p = q

/-- The ordering of a pool during the backward shift of `remove`: slot `idx` is
to be emptied, the other slots are ordered among themselves, and an object of
distance `a` would be in order at `idx`. -/
structure HoleInv (ops : Element T) (n : Nat) (pool : List (entry_t T)) (idx a : Nat) :
    Prop where
  len : pool.length = n
  idx_lt : idx < n
  hashes : ∀ p x g, p ≠ idx → Holds pool p x g → g = ops.hash x % 2 ^ 32
  order : ∀ p, p < n → p ≠ idx → next n p ≠ idx → ∀ y g', Holds pool (next n p) y g' →
    dist n (next n p) g' ≠ 0 → ∃ x g, Holds pool p x g ∧ dist n (next n p) g' ≤ dist n p g + 1
  unique : ∀ p q x y g g', p ≠ idx → q ≠ idx → Holds pool p x g → Holds pool q y g' →
    ops.eq x y = true → p = q
  pred : a ≠ 0 → ∀ p0, p0 < n → next n p0 = idx →
    ∃ y g0, Holds pool p0 y g0 ∧ a ≤ dist n p0 g0 + 1
  succ : ∀ y g', Holds pool (next n idx) y g' → dist n (next n idx) g' ≤ a + 1

/-- The representation invariant of a `hashset`: `length` is a power of two from
8 to `2^31`, the load is at most one half, `count` is the number of occupied
slots, and the pool is ordered. -/
structure Inv (ops : Element T) (s : hashset T) : Prop where
  pow : ∃ k, 3 ≤ k ∧ k ≤ 31 ∧ s.length = 2 ^ k
  load : 2 * s.count ≤ s.length
  pool : ∀ pool, s.pool = some pool → PoolInv ops s.length pool ∧ s.count = occupied pool
  null : s.pool = none → s.count = 0

/-- Some slot of the pool holds the object `x`. -/
def Has (pool : List (entry_t T)) (x : T) : Prop := ∃ p, (pool.getD p {}).ptr = some x

/-- The object `x` is in the set. -/
def Stored (s : hashset T) (x : T) : Prop := ∃ pool, s.pool = some pool ∧ Has pool x

/-- What a call `insert(value)` on the set `s` is to leave: the invariant, a
pool of the same or twice the length, the same set when an equal object is
stored, and otherwise the set with `value` added and `count` one more. -/
def InsertOK (ops : Element T) (s : hashset T) (value : T) (s1 : hashset T) : Prop :=
  Inv ops s1 ∧ (s1.length = s.length ∨ s1.length = 2 * s.length) ∧ s1.pool ≠ none ∧
  ((∃ x, Stored s x ∧ ops.eq x value = true) →
    s1.count = s.count ∧ ∀ w, Stored s1 w ↔ Stored s w) ∧
  ((¬ ∃ x, Stored s x ∧ ops.eq x value = true) →
    s1.count = s.count + 1 ∧ ∀ w, Stored s1 w ↔ Stored s w ∨ w = value)

/-- A call of the interface. -/
inductive Call (T : Type) where
  | insert (value : T)
  | remove (value : T)
  | reset

/-- One call on a set: the set it leaves, `none` when the depth bound of `insert`
does not suffice. -/
def step (ops : Element T) (fuel : Nat) (s : hashset T) : Call T → Option (hashset T)
  | .insert value => (insert ops fuel s value).map Prod.fst
  | .remove value => some (remove ops s value).1
  | .reset => some (reset s)

/-- A sequence of calls, from the set `s`. -/
def run (ops : Element T) (fuel : Nat) : hashset T → List (Call T) → Option (hashset T)
  | s, [] => some s
  | s, c :: rest =>
    match step ops fuel s c with
    | none => none
    | some s1 => run ops fuel s1 rest

/-- A finite set as a list without two objects that `operator==` equates:
insertion keeps the list when an equal object is in it. -/
def specInsert (ops : Element T) (l : List T) (v : T) : List T :=
  if l.any (fun x => ops.eq x v) then l else l ++ [v]

/-- Removal from the finite set. -/
def specRemove (ops : Element T) (l : List T) (v : T) : List T :=
  l.filter fun x => !ops.eq x v

/-- The finite set after a sequence of calls. -/
def specRun (ops : Element T) : List T → List (Call T) → List T
  | l, [] => l
  | l, .insert v :: rest => specRun ops (specInsert ops l v) rest
  | l, .remove v :: rest => specRun ops (specRemove ops l v) rest
  | _, .reset :: rest => specRun ops [] rest

/-- The set `s` represents the finite set `l`: it has the representation
invariant, `count` is the number of objects of `l`, the stored objects are those
of `l`, and no two objects of `l` are equal by `operator==`. -/
structure Refines (ops : Element T) (s : hashset T) (l : List T) : Prop where
  inv : Inv ops s
  size : s.count = l.length
  mem : ∀ w, Stored s w ↔ w ∈ l
  distinct : l.Pairwise fun a b => ops.eq a b = false

/-- Every `insert` of the sequence is called on a set of fewer than `2^30`
objects, with `l` the finite set before the sequence: `count << 1` and
`length << 1` stay within `uint`. -/
def Bounded (ops : Element T) : List T → List (Call T) → Prop
  | _, [] => True
  | l, .insert v :: rest => l.length < 2 ^ 30 ∧ Bounded ops (specInsert ops l v) rest
  | l, .remove v :: rest => Bounded ops (specRemove ops l v) rest
  | _, .reset :: rest => Bounded ops [] rest

instance decBounded (ops : Element T) :
    (l : List T) → (calls : List (Call T)) → Decidable (Bounded ops l calls)
  | _, [] => instDecidableTrue
  | l, .insert v :: rest =>
    @instDecidableAnd _ _ (Nat.decLt _ _) (decBounded ops (specInsert ops l v) rest)
  | l, .remove v :: rest => decBounded ops (specRemove ops l v) rest
  | _, .reset :: rest => decBounded ops [] rest

/-- An element type for the examples: natural numbers with `hash()` the residue
modulo 4, so that different numbers share a home slot, `operator==` the equality
of numbers, and a rounding that leaves its argument as it is. -/
def natOps : Element Nat := { hash := fun x => x % 4, eq := fun a b => decide (a = b), round := fun n => n }

/-- Where the walk that `find`, `insert` and `remove` share stops: at an equal
object, at an empty slot, at an object closer to its home than the walk is to
its own, or after `length` steps. -/
inductive Probe (T : Type) where
  | found (i : Nat) (x : T)
  | vacant (i : Nat)
  | rich (i : Nat) (y : T) (g : Nat)
  | exhausted

/-- The walk from the home slot of `hash`, in a pool of `n` slots, with the
steps still allowed and the current `i`. -/
def probe (ops : Element T) (n hash : Nat) (pool : List (entry_t T)) (value : T) :
    Nat → Nat → Probe T
  | 0, _ => .exhausted
  | remaining + 1, i =>
    match (pool.getD ((hash + i) % n) {}).ptr with
    | none => .vacant i
    | some x =>
      if (pool.getD ((hash + i) % n) {}).hash = hash ∧ ops.eq x value = true then .found i x
      else if i ≠ 0 ∧ dist n ((hash + i) % n) (pool.getD ((hash + i) % n) {}).hash < i then
        .rich i x (pool.getD ((hash + i) % n) {}).hash
      else probe ops n hash pool value remaining (i + 1)

/-- The slots of the first `i` steps of the walk hold objects that are not equal
to `value` and are at least as far from their homes as the walk is from its
own. -/
def Walked (ops : Element T) (n hash : Nat) (pool : List (entry_t T)) (value : T) (i : Nat) :
    Prop :=
  ∀ j, j < i → ∃ y g, Holds pool ((hash + j) % n) y g ∧
    ¬ (g = hash ∧ ops.eq y value = true) ∧ j ≤ dist n ((hash + j) % n) g

end hashset

/-! ## Lemmas: machine arithmetic -/

/-! ## Lemmas: `writeBits` -/

namespace Table

lemma flushLoop_spec (fuel : Nat) : ∀ t : Table, t.bitpos / 8 ≤ fuel →
    (flushLoop fuel t).bitpos = t.bitpos % 8 ∧
    (flushLoop fuel t).sink.length = t.sink.length + t.bitpos / 8 ∧
    (flushLoop fuel t).table = t.table ∧ (flushLoop fuel t).endian = t.endian ∧
    (flushLoop fuel t).base = t.base := by
  induction fuel with
  | zero =>
    intro t h
    have h8 : t.bitpos < 8 := by omega
    simp only [flushLoop]
    exact ⟨by omega, by omega, trivial, trivial, trivial⟩
  | succ k ih =>
    intro t h
    by_cases h8 : 8 ≤ t.bitpos
    · have step := ih { t.write t.bitval with bitval := t.bitval / 2 ^ 8, bitpos := t.bitpos - 8 }
        (by simp only; omega)
      simp only [flushLoop, h8, if_true]
      obtain ⟨h1, h2, h3, h4, h5⟩ := step
      refine ⟨?_, ?_, ?_, ?_, ?_⟩
      · rw [h1]; simp only; omega
      · rw [h2]; simp only [write, List.length_append, List.length_singleton]; omega
      · rw [h3]; rfl
      · rw [h4]; rfl
      · rw [h5]; rfl
    · simp only [flushLoop, h8, if_false]
      exact ⟨by omega, by omega, trivial, trivial, trivial⟩

lemma writeBits_bitpos_lt (w : AccWidth) (t : Table) (data length : Nat) :
    (writeBits w t data length).bitpos < 8 := by
  unfold writeBits
  have h := (flushLoop_spec ((accumulate w t data length).bitpos / 8)
    (accumulate w t data length) (le_refl _)).1
  simp only at h ⊢
  rw [h]
  exact Nat.mod_lt _ (by norm_num)

lemma writeBits_count (w : AccWidth) (t : Table) (data length : Nat)
    (h : t.bitpos + length < 2 ^ w.pos) :
    (writeBits w t data length).bitpos = (t.bitpos + length) % 8 ∧
    (writeBits w t data length).sink.length = t.sink.length + (t.bitpos + length) / 8 := by
  have hs := flushLoop_spec ((accumulate w t data length).bitpos / 8)
    (accumulate w t data length) (le_refl _)
  have hp : (accumulate w t data length).bitpos = t.bitpos + length := by
    simp only [accumulate]
    exact Nat.mod_eq_of_lt h
  have hk : (accumulate w t data length).sink = t.sink := rfl
  unfold writeBits
  simp only at hs ⊢
  rw [hp, hk] at hs
  rw [hp]
  exact ⟨hs.1, hs.2.1⟩

lemma writeBits_frame (w : AccWidth) (t : Table) (data length : Nat) :
    (writeBits w t data length).table = t.table ∧
    (writeBits w t data length).endian = t.endian ∧
    (writeBits w t data length).base = t.base := by
  have hs := flushLoop_spec ((accumulate w t data length).bitpos / 8)
    (accumulate w t data length) (le_refl _)
  unfold writeBits
  exact ⟨hs.2.2.1, hs.2.2.2.1, hs.2.2.2.2⟩

lemma writeAll_count (w : AccWidth) (calls : List (Nat × Nat)) : ∀ t : Table,
    t.bitpos < 8 → (∀ c ∈ calls, c.2 + 7 < 2 ^ w.pos) →
    (writeAll w t calls).bitpos = (t.bitpos + (calls.map Prod.snd).sum) % 8 ∧
    (writeAll w t calls).sink.length
      = t.sink.length + (t.bitpos + (calls.map Prod.snd).sum) / 8 := by
  induction calls with
  | nil =>
    intro t ht _
    simp only [writeAll, List.map_nil, List.sum_nil, Nat.add_zero]
    omega
  | cons c rest ih =>
    intro t ht hc
    obtain ⟨data, length⟩ := c
    have hlen : length + 7 < 2 ^ w.pos := hc (data, length) (List.mem_cons_self _ _)
    have h1 := writeBits_count w t data length (by omega)
    have h2 := ih (writeBits w t data length) (writeBits_bitpos_lt w t data length)
      (fun c hmem => hc c (List.mem_cons_of_mem _ hmem))
    simp only [writeAll, List.map_cons, List.sum_cons]
    rw [h2.1, h2.2, h1.1, h1.2]
    constructor <;> omega

lemma iterate_writeBits_bitpos_lt (w : AccWidth) (data bits : Nat) (k : Nat) (t : Table)
    (h : t.bitpos < 8) : ((fun t1 => writeBits w t1 data bits)^[k] t).bitpos < 8 := by
  induction k generalizing t with
  | zero => simpa using h
  | succ k ih =>
    rw [Function.iterate_succ_apply]
    exact ih _ (writeBits_bitpos_lt w t data bits)

lemma emitFormat_bitpos_lt (w : AccWidth) (ev : Evaluator) (pc : Nat) (number : List Number)
    (args : List (List Char)) (t t1 : Table) (f : Format) (h : t.bitpos < 8)
    (hr : emitFormat w ev pc number args t f = .ok t1) : t1.bitpos < 8 := by
  unfold emitFormat at hr
  simp only at hr
  split at hr <;> (repeat' split at hr) <;>
    first
    | (injection hr with hr; subst hr; first
        | exact writeBits_bitpos_lt _ _ _ _
        | exact iterate_writeBits_bitpos_lt _ _ _ _ _ h
        | exact h)
    | (exact absurd hr (by simp))

lemma emitFormats_bitpos_lt (w : AccWidth) (ev : Evaluator) (pc : Nat) (number : List Number)
    (args : List (List Char)) (fs : List Format) : ∀ (t t1 : Table), t.bitpos < 8 →
    emitFormats w ev pc number args fs t = .ok t1 → t1.bitpos < 8 := by
  induction fs with
  | nil =>
    intro t t1 h hr
    simp only [emitFormats, Except.ok.injEq] at hr
    exact hr ▸ h
  | cons f fs ih =>
    intro t t1 h hr
    simp only [emitFormats] at hr
    split at hr
    · exact absurd hr (by simp)
    · next t2 h2 => exact ih t2 t1 (emitFormat_bitpos_lt w ev pc number args t t2 f h h2) hr

lemma assembleLoop_bitpos_lt (w : AccWidth) (env : Env) (s : List Char) (pc : Nat)
    (ops : List Opcode) : ∀ (t t1 : Table) (r : Bool), t.bitpos < 8 →
    assembleLoop w env s pc ops t = .ok (r, t1) → t1.bitpos < 8 := by
  induction ops with
  | nil =>
    intro t t1 r h hr
    simp only [assembleLoop, Except.ok.injEq, Prod.mk.injEq] at hr
    exact hr.2 ▸ h
  | cons op rest ih =>
    intro t t1 r h hr
    simp only [assembleLoop] at hr
    split at hr
    · exact ih t t1 r h hr
    · split at hr
      · exact ih t t1 r h hr
      · split at hr
        · exact absurd hr (by simp)
        · exact ih t t1 r h hr
        · split at hr
          · exact absurd hr (by simp)
          · next t2 h2 =>
            simp only [Except.ok.injEq, Prod.mk.injEq] at hr
            exact hr.2 ▸ emitFormats_bitpos_lt w env.toEvaluator pc _ _ _ t t2 h h2

lemma assemble_bitpos_lt (w : AccWidth) (env : Env) (t t1 : Table) (s : List Char) (r : Bool)
    (h : t.bitpos < 8) (hr : assemble w env t s = .ok (r, t1)) : t1.bitpos < 8 := by
  unfold assemble at hr
  split at hr
  · split at hr
    · exact absurd hr (by simp)
    · simp only [Except.ok.injEq, Prod.mk.injEq] at hr
      exact hr.2 ▸ h
  · exact assembleLoop_bitpos_lt w env s _ _ t t1 r h hr

end Table

namespace Table

lemma writeAll_append (w : AccWidth) (c1 c2 : List (Nat × Nat)) : ∀ t : Table,
    writeAll w t (c1 ++ c2) = writeAll w (writeAll w t c1) c2 := by
  induction c1 with
  | nil => intro t; rfl
  | cons c c1 ih =>
    intro t
    obtain ⟨data, length⟩ := c
    simp only [List.cons_append, writeAll]
    exact ih _

lemma iterate_writeBits_eq (w : AccWidth) (data bits : Nat) (k : Nat) : ∀ t : Table,
    (fun t1 => writeBits w t1 data bits)^[k] t
      = writeAll w t (List.replicate k (data, bits)) := by
  induction k with
  | zero => intro t; rfl
  | succ k ih =>
    intro t
    rw [Function.iterate_succ_apply, List.replicate_succ]
    simp only [writeAll]
    exact ih _

lemma emitFormat_calls (w : AccWidth) (ev : Evaluator) (pc : Nat) (number : List Number)
    (args : List (List Char)) (t t1 : Table) (f : Format)
    (hr : emitFormat w ev pc number args t f = .ok t1) :
    ∃ calls, t1 = writeAll w t calls := by
  unfold emitFormat at hr
  simp only at hr
  split at hr <;> (repeat' split at hr) <;>
    first
    | (injection hr with hr; subst hr; first
        | exact ⟨[(_, _)], rfl⟩
        | exact ⟨_, iterate_writeBits_eq _ _ _ _ _⟩
        | exact ⟨[], rfl⟩)
    | (exact absurd hr (by simp))

lemma emitFormats_calls (w : AccWidth) (ev : Evaluator) (pc : Nat) (number : List Number)
    (args : List (List Char)) (fs : List Format) : ∀ (t t1 : Table),
    emitFormats w ev pc number args fs t = .ok t1 → ∃ calls, t1 = writeAll w t calls := by
  induction fs with
  | nil =>
    intro t t1 hr
    simp only [emitFormats, Except.ok.injEq] at hr
    exact ⟨[], hr ▸ rfl⟩
  | cons f fs ih =>
    intro t t1 hr
    simp only [emitFormats] at hr
    split at hr
    · exact absurd hr (by simp)
    · next t2 h2 =>
      obtain ⟨c1, h1⟩ := emitFormat_calls w ev pc number args t t2 f h2
      obtain ⟨c2, h3⟩ := ih t2 t1 hr
      exact ⟨c1 ++ c2, by rw [writeAll_append, ← h1, h3]⟩

lemma assembleLoop_calls (w : AccWidth) (env : Env) (s : List Char) (pc : Nat)
    (ops : List Opcode) : ∀ (t t1 : Table) (r : Bool),
    assembleLoop w env s pc ops t = .ok (r, t1) → ∃ calls, t1 = writeAll w t calls := by
  induction ops with
  | nil =>
    intro t t1 r hr
    simp only [assembleLoop, Except.ok.injEq, Prod.mk.injEq] at hr
    exact ⟨[], hr.2 ▸ rfl⟩
  | cons op rest ih =>
    intro t t1 r hr
    simp only [assembleLoop] at hr
    split at hr
    · exact ih t t1 r hr
    · split at hr
      · exact ih t t1 r hr
      · split at hr
        · exact absurd hr (by simp)
        · exact ih t t1 r hr
        · split at hr
          · exact absurd hr (by simp)
          · next t2 h2 =>
            simp only [Except.ok.injEq, Prod.mk.injEq] at hr
            exact hr.2 ▸ emitFormats_calls w env.toEvaluator pc _ _ _ t t2 h2

lemma assemble_calls (w : AccWidth) (env : Env) (t t1 : Table) (s : List Char) (r : Bool)
    (hr : assemble w env t s = .ok (r, t1)) :
    ∃ calls, t1 = writeAll w { t with table := t1.table, endian := t1.endian } calls := by
  unfold assemble at hr
  split at hr
  · split at hr
    · exact absurd hr (by simp)
    · simp only [Except.ok.injEq, Prod.mk.injEq] at hr
      exact ⟨[], hr.2 ▸ rfl⟩
  · obtain ⟨calls, h⟩ := assembleLoop_calls w env s _ _ t t1 r hr
    refine ⟨calls, ?_⟩
    have ht : t1.table = t.table ∧ t1.endian = t.endian := by
      rw [h]
      clear h hr
      induction calls generalizing t with
      | nil => exact ⟨rfl, rfl⟩
      | cons c calls ih =>
        obtain ⟨data, length⟩ := c
        simp only [writeAll]
        have hf := writeBits_frame w t data length
        have := ih (writeBits w t data length)
        exact ⟨this.1.trans hf.1, this.2.trans hf.2.1⟩
    rw [ht.1, ht.2]
    exact h

end Table
namespace Table

lemma flushLoop_retable (tb : List Opcode) (en : Endian) (fuel : Nat) : ∀ t : Table,
    flushLoop fuel { t with table := tb, endian := en }
      = { flushLoop fuel t with table := tb, endian := en } := by
  induction fuel with
  | zero => intro t; rfl
  | succ k ih =>
    intro t
    simp only [flushLoop]
    by_cases h8 : 8 ≤ t.bitpos
    · rw [if_pos h8, if_pos h8]
      exact ih { t.write t.bitval with bitval := t.bitval / 2 ^ 8, bitpos := t.bitpos - 8 }
    · rw [if_neg h8, if_neg h8]

lemma writeBits_retable (w : AccWidth) (tb : List Opcode) (en : Endian) (t : Table)
    (data length : Nat) :
    writeBits w { t with table := tb, endian := en } data length
      = { writeBits w t data length with table := tb, endian := en } := by
  unfold writeBits
  exact flushLoop_retable tb en _ (accumulate w t data length)

lemma writeAll_retable (w : AccWidth) (tb : List Opcode) (en : Endian)
    (calls : List (Nat × Nat)) : ∀ t : Table,
    writeAll w { t with table := tb, endian := en } calls
      = { writeAll w t calls with table := tb, endian := en } := by
  induction calls with
  | nil => intro t; rfl
  | cons c calls ih =>
    intro t
    obtain ⟨data, length⟩ := c
    simp only [writeAll]
    rw [writeBits_retable]
    exact ih _

lemma assembleAll_calls (w : AccWidth) (env : Env) (stmts : List (List Char)) :
    ∀ (t t1 : Table), assembleAll w env t stmts = .ok t1 →
    ∃ calls, t1 = writeAll w { t with table := t1.table, endian := t1.endian } calls := by
  induction stmts with
  | nil =>
    intro t t1 hr
    simp only [assembleAll, Except.ok.injEq] at hr
    exact ⟨[], hr ▸ rfl⟩
  | cons s rest ih =>
    intro t t1 hr
    simp only [assembleAll] at hr
    split at hr
    · exact absurd hr (by simp)
    · next r t2 h2 =>
      obtain ⟨c1, h1⟩ := assemble_calls w env t t2 s r h2
      obtain ⟨c2, h3⟩ := ih t2 t1 hr
      refine ⟨c1 ++ c2, ?_⟩
      rw [writeAll_append]
      have e : writeAll w { t with table := t1.table, endian := t1.endian } c1
          = { t2 with table := t1.table, endian := t1.endian } := by
        rw [writeAll_retable]
        have e2 : writeAll w t c1 = { t2 with table := t.table, endian := t.endian } := by
          have := writeAll_retable w t.table t.endian c1
            { t with table := t2.table, endian := t2.endian }
          rw [← h1] at this
          exact this
        rw [e2]
      rw [e]
      exact h3

end Table

namespace Table

lemma writeAll_bitpos_lt (w : AccWidth) (calls : List (Nat × Nat)) : ∀ t : Table,
    t.bitpos < 8 → (writeAll w t calls).bitpos < 8 := by
  induction calls with
  | nil => intro t h; exact h
  | cons c rest ih =>
    intro t _
    obtain ⟨data, length⟩ := c
    simp only [writeAll]
    exact ih _ (writeBits_bitpos_lt w t data length)

end Table
/-! ## Lemmas: `swapEndian` -/

namespace Table

lemma and_byte_mask (x k : Nat) : x &&& ((2 ^ 8 - 1) <<< k) = ((x / 2 ^ k) % 2 ^ 8) * 2 ^ k := by
  rw [← Nat.shiftLeft_eq, ← Nat.shiftRight_eq_div_pow]
  apply Nat.eq_of_testBit_eq
  intro i
  simp only [Nat.testBit_and, Nat.testBit_shiftLeft, Nat.testBit_two_pow_sub_one,
    Nat.testBit_mod_two_pow, Nat.testBit_shiftRight]
  by_cases h : k ≤ i
  · have : k + (i - k) = i := by omega
    simp [h, this, Bool.and_comm]
  · simp [h]

lemma or_eq_add_of_lt (a b k : Nat) (hb : b < 2 ^ k) : a * 2 ^ k ||| b = a * 2 ^ k + b := by
  rw [Nat.mul_comm, Nat.mul_add_lt_is_or hb]

/-- the return conversion of swapEndian keeps the low 32 bits -/
lemma narrow_mod (v : Nat) : wrapU 64 (wrapS 32 (v : Int)) % 2 ^ 32 = v % 2 ^ 32 := by
  unfold wrapU wrapS
  omega

lemma swap4_eq (x : Nat) :
    ((x &&& 0xFF000000) >>> 24) ||| ((x &&& 0x00FF0000) >>> 8)
      ||| ((x &&& 0x0000FF00) <<< 8) ||| ((x &&& 0x000000FF) <<< 24)
    = x / 2 ^ 24 % 2 ^ 8 + (x / 2 ^ 16 % 2 ^ 8) * 2 ^ 8 + (x / 2 ^ 8 % 2 ^ 8) * 2 ^ 16
      + (x % 2 ^ 8) * 2 ^ 24 := by
  have h3 : x &&& 0xFF000000 = (x / 2 ^ 24 % 2 ^ 8) * 2 ^ 24 := and_byte_mask x 24
  have h2 : x &&& 0x00FF0000 = (x / 2 ^ 16 % 2 ^ 8) * 2 ^ 16 := and_byte_mask x 16
  have h1 : x &&& 0x0000FF00 = (x / 2 ^ 8 % 2 ^ 8) * 2 ^ 8 := and_byte_mask x 8
  have h0 : x &&& 0x000000FF = x % 2 ^ 8 := Nat.and_pow_two_sub_one_eq_mod x 8
  rw [h3, h2, h1, h0]
  simp only [Nat.shiftRight_eq_div_pow, Nat.shiftLeft_eq]
  have e3 : x / 2 ^ 24 % 2 ^ 8 * 2 ^ 24 / 2 ^ 24 = x / 2 ^ 24 % 2 ^ 8 := by omega
  have e2 : x / 2 ^ 16 % 2 ^ 8 * 2 ^ 16 / 2 ^ 8 = (x / 2 ^ 16 % 2 ^ 8) * 2 ^ 8 := by omega
  have e1 : x / 2 ^ 8 % 2 ^ 8 * 2 ^ 8 * 2 ^ 8 = (x / 2 ^ 8 % 2 ^ 8) * 2 ^ 16 := by omega
  rw [e3, e2, e1]
  rw [Nat.or_comm (x / 2 ^ 24 % 2 ^ 8), or_eq_add_of_lt _ _ 8 (by omega)]
  rw [Nat.or_comm _ (x / 2 ^ 8 % 2 ^ 8 * 2 ^ 16), or_eq_add_of_lt _ _ 16 (by omega)]
  rw [Nat.or_comm _ (x % 2 ^ 8 * 2 ^ 24), or_eq_add_of_lt _ _ 24 (by omega)]
  omega

end Table
namespace Table

lemma swap3_eq (x : Nat) :
    ((x &&& 0xFF0000) >>> 16) ||| (x &&& 0x00FF00) ||| ((x &&& 0x0000FF) <<< 16)
    = x / 2 ^ 16 % 2 ^ 8 + (x / 2 ^ 8 % 2 ^ 8) * 2 ^ 8 + (x % 2 ^ 8) * 2 ^ 16 := by
  have h2 : x &&& 0xFF0000 = (x / 2 ^ 16 % 2 ^ 8) * 2 ^ 16 := and_byte_mask x 16
  have h1 : x &&& 0x00FF00 = (x / 2 ^ 8 % 2 ^ 8) * 2 ^ 8 := and_byte_mask x 8
  have h0 : x &&& 0x0000FF = x % 2 ^ 8 := Nat.and_pow_two_sub_one_eq_mod x 8
  rw [h2, h1, h0]
  simp only [Nat.shiftRight_eq_div_pow, Nat.shiftLeft_eq]
  have e2 : x / 2 ^ 16 % 2 ^ 8 * 2 ^ 16 / 2 ^ 16 = x / 2 ^ 16 % 2 ^ 8 := by omega
  rw [e2]
  rw [Nat.or_comm (x / 2 ^ 16 % 2 ^ 8), or_eq_add_of_lt _ _ 8 (by omega)]
  rw [Nat.or_comm _ (x % 2 ^ 8 * 2 ^ 16), or_eq_add_of_lt _ _ 16 (by omega)]
  omega

lemma swap2_eq (x : Nat) :
    ((x &&& 0xFF00) >>> 8) ||| ((x &&& 0x00FF) <<< 8)
    = x / 2 ^ 8 % 2 ^ 8 + (x % 2 ^ 8) * 2 ^ 8 := by
  have h1 : x &&& 0xFF00 = (x / 2 ^ 8 % 2 ^ 8) * 2 ^ 8 := and_byte_mask x 8
  have h0 : x &&& 0x00FF = x % 2 ^ 8 := Nat.and_pow_two_sub_one_eq_mod x 8
  rw [h1, h0]
  simp only [Nat.shiftRight_eq_div_pow, Nat.shiftLeft_eq]
  have e1 : x / 2 ^ 8 % 2 ^ 8 * 2 ^ 8 / 2 ^ 8 = x / 2 ^ 8 % 2 ^ 8 := by omega
  rw [e1]
  rw [Nat.or_comm (x / 2 ^ 8 % 2 ^ 8), or_eq_add_of_lt _ _ 8 (by omega)]
  omega

/-- `swapEndian` in arithmetic form, by the number of bytes `(bits - 1) / 8 + 1`
that `bits` selects. -/
lemma swapEndian_eq (x bits : Nat) :
    (1 ≤ bits ∧ bits ≤ 8 → swapEndian x bits = .ok (wrapU 64 (wrapS 32 (x : Int)))) ∧
    (9 ≤ bits ∧ bits ≤ 16 → swapEndian x bits
      = .ok (wrapU 64 (wrapS 32 ((x / 2 ^ 8 % 2 ^ 8 + (x % 2 ^ 8) * 2 ^ 8 : Nat) : Int)))) ∧
    (17 ≤ bits ∧ bits ≤ 24 → swapEndian x bits
      = .ok (wrapU 64 (wrapS 32 ((x / 2 ^ 16 % 2 ^ 8 + (x / 2 ^ 8 % 2 ^ 8) * 2 ^ 8
          + (x % 2 ^ 8) * 2 ^ 16 : Nat) : Int)))) ∧
    (25 ≤ bits ∧ bits ≤ 32 → swapEndian x bits
      = .ok (wrapU 64 (wrapS 32 ((x / 2 ^ 24 % 2 ^ 8 + (x / 2 ^ 16 % 2 ^ 8) * 2 ^ 8
          + (x / 2 ^ 8 % 2 ^ 8) * 2 ^ 16 + (x % 2 ^ 8) * 2 ^ 24 : Nat) : Int)))) := by
  refine ⟨?_, ?_, ?_, ?_⟩ <;> intro h
  · have hk : wrapU 32 ((bits : Int) - 1) / 8 = 0 := by unfold wrapU; omega
    unfold swapEndian
    rw [hk]
  · have hk : wrapU 32 ((bits : Int) - 1) / 8 = 1 := by unfold wrapU; omega
    unfold swapEndian
    rw [hk]
    simp only [swap2_eq]
  · have hk : wrapU 32 ((bits : Int) - 1) / 8 = 2 := by unfold wrapU; omega
    unfold swapEndian
    rw [hk]
    simp only [swap3_eq]
  · have hk : wrapU 32 ((bits : Int) - 1) / 8 = 3 := by unfold wrapU; omega
    unfold swapEndian
    rw [hk]
    simp only [swap4_eq]

lemma narrow_small (v : Nat) (h : v < 2 ^ 31) : wrapU 64 (wrapS 32 (v : Int)) = v := by
  unfold wrapU wrapS
  omega

lemma low_bytes (y : Nat) :
    y % 2 ^ 8 = y % 2 ^ 32 % 2 ^ 8 ∧ y / 2 ^ 8 % 2 ^ 8 = y % 2 ^ 32 / 2 ^ 8 % 2 ^ 8 ∧
    y / 2 ^ 16 % 2 ^ 8 = y % 2 ^ 32 / 2 ^ 16 % 2 ^ 8 ∧
    y / 2 ^ 24 % 2 ^ 8 = y % 2 ^ 32 / 2 ^ 24 % 2 ^ 8 := by
  refine ⟨?_, ?_, ?_, ?_⟩ <;> omega

lemma byte_digits (a0 a1 a2 a3 : Nat) (h0 : a0 < 256) (h1 : a1 < 256) (h2 : a2 < 256)
    (h3 : a3 < 256) :
    (a0 + a1 * 2 ^ 8 + a2 * 2 ^ 16 + a3 * 2 ^ 24) % 2 ^ 8 = a0 ∧
    (a0 + a1 * 2 ^ 8 + a2 * 2 ^ 16 + a3 * 2 ^ 24) / 2 ^ 8 % 2 ^ 8 = a1 ∧
    (a0 + a1 * 2 ^ 8 + a2 * 2 ^ 16 + a3 * 2 ^ 24) / 2 ^ 16 % 2 ^ 8 = a2 ∧
    (a0 + a1 * 2 ^ 8 + a2 * 2 ^ 16 + a3 * 2 ^ 24) / 2 ^ 24 % 2 ^ 8 = a3 := by
  refine ⟨?_, ?_, ?_, ?_⟩ <;> omega

lemma byte_sum (x : Nat) (hx : x < 2 ^ 32) :
    x = x % 2 ^ 8 + (x / 2 ^ 8 % 2 ^ 8) * 2 ^ 8 + (x / 2 ^ 16 % 2 ^ 8) * 2 ^ 16
      + (x / 2 ^ 24 % 2 ^ 8) * 2 ^ 24 := by omega

/-- The bytes of a value whose low 32 bits are the four bytes `a0..a3`. -/
lemma bytes_of_low (y a0 a1 a2 a3 : Nat) (h0 : a0 < 256) (h1 : a1 < 256) (h2 : a2 < 256)
    (h3 : a3 < 256)
    (hy : y % 2 ^ 32 = (a0 + a1 * 2 ^ 8 + a2 * 2 ^ 16 + a3 * 2 ^ 24) % 2 ^ 32) :
    y % 2 ^ 8 = a0 ∧ y / 2 ^ 8 % 2 ^ 8 = a1 ∧ y / 2 ^ 16 % 2 ^ 8 = a2 ∧
    y / 2 ^ 24 % 2 ^ 8 = a3 := by
  have hlt : a0 + a1 * 2 ^ 8 + a2 * 2 ^ 16 + a3 * 2 ^ 24 < 2 ^ 32 := by omega
  rw [Nat.mod_eq_of_lt hlt] at hy
  obtain ⟨l0, l1, l2, l3⟩ := low_bytes y
  obtain ⟨d0, d1, d2, d3⟩ := byte_digits a0 a1 a2 a3 h0 h1 h2 h3
  rw [l0, l1, l2, l3, hy]
  exact ⟨d0, d1, d2, d3⟩

lemma swapEndian_round_trip_small (b x : Nat) (hb : b = 8 ∨ b = 16 ∨ b = 24 ∨ b = 32)
    (hx : x < 2 ^ b) (h31 : x < 2 ^ 31) :
    ∃ y, swapEndian x b = .ok y ∧ swapEndian y b = .ok x := by
  have hsum := byte_sum x (by omega)
  have m0 : x % 2 ^ 8 < 256 := Nat.mod_lt _ (by norm_num)
  have m1 : x / 2 ^ 8 % 2 ^ 8 < 256 := Nat.mod_lt _ (by norm_num)
  have m2 : x / 2 ^ 16 % 2 ^ 8 < 256 := Nat.mod_lt _ (by norm_num)
  have m3 : x / 2 ^ 24 % 2 ^ 8 < 256 := Nat.mod_lt _ (by norm_num)
  rcases hb with rfl | rfl | rfl | rfl
  · refine ⟨_, (swapEndian_eq x 8).1 (by omega), ?_⟩
    rw [narrow_small x h31, (swapEndian_eq x 8).1 (by omega), narrow_small x h31]
  · refine ⟨_, (swapEndian_eq x 16).2.1 (by omega), ?_⟩
    rw [(swapEndian_eq _ 16).2.1 (by omega)]
    have hy := narrow_mod (x / 2 ^ 8 % 2 ^ 8 + x % 2 ^ 8 * 2 ^ 8)
    generalize wrapU 64 (wrapS 32 ((x / 2 ^ 8 % 2 ^ 8 + x % 2 ^ 8 * 2 ^ 8 : Nat) : Int)) = y at hy
    obtain ⟨y0, y1, _, _⟩ := bytes_of_low y (x / 2 ^ 8 % 2 ^ 8) (x % 2 ^ 8) 0 0 m1 m0
      (by norm_num) (by norm_num) (by rw [hy]; simp)
    have e2 : x / 2 ^ 16 % 2 ^ 8 = 0 := by omega
    have e3 : x / 2 ^ 24 % 2 ^ 8 = 0 := by omega
    rw [y0, y1]
    have hz : x % 2 ^ 8 + x / 2 ^ 8 % 2 ^ 8 * 2 ^ 8 = x := by
      rw [e2, e3] at hsum
      omega
    rw [hz, narrow_small x h31]
  · refine ⟨_, (swapEndian_eq x 24).2.2.1 (by omega), ?_⟩
    rw [(swapEndian_eq _ 24).2.2.1 (by omega)]
    have hy := narrow_mod (x / 2 ^ 16 % 2 ^ 8 + x / 2 ^ 8 % 2 ^ 8 * 2 ^ 8 + x % 2 ^ 8 * 2 ^ 16)
    generalize wrapU 64 (wrapS 32 ((x / 2 ^ 16 % 2 ^ 8 + x / 2 ^ 8 % 2 ^ 8 * 2 ^ 8
      + x % 2 ^ 8 * 2 ^ 16 : Nat) : Int)) = y at hy
    obtain ⟨y0, y1, y2, _⟩ := bytes_of_low y (x / 2 ^ 16 % 2 ^ 8) (x / 2 ^ 8 % 2 ^ 8)
      (x % 2 ^ 8) 0 m2 m1 m0 (by norm_num) (by rw [hy]; simp)
    have e3 : x / 2 ^ 24 % 2 ^ 8 = 0 := by omega
    rw [y0, y1, y2]
    have hz : x % 2 ^ 8 + x / 2 ^ 8 % 2 ^ 8 * 2 ^ 8 + x / 2 ^ 16 % 2 ^ 8 * 2 ^ 16 = x := by
      rw [e3] at hsum
      omega
    rw [hz, narrow_small x h31]
  · refine ⟨_, (swapEndian_eq x 32).2.2.2 (by omega), ?_⟩
    rw [(swapEndian_eq _ 32).2.2.2 (by omega)]
    have hy := narrow_mod (x / 2 ^ 24 % 2 ^ 8 + x / 2 ^ 16 % 2 ^ 8 * 2 ^ 8
      + x / 2 ^ 8 % 2 ^ 8 * 2 ^ 16 + x % 2 ^ 8 * 2 ^ 24)
    generalize wrapU 64 (wrapS 32 ((x / 2 ^ 24 % 2 ^ 8 + x / 2 ^ 16 % 2 ^ 8 * 2 ^ 8
      + x / 2 ^ 8 % 2 ^ 8 * 2 ^ 16 + x % 2 ^ 8 * 2 ^ 24 : Nat) : Int)) = y at hy
    obtain ⟨y0, y1, y2, y3⟩ := bytes_of_low y (x / 2 ^ 24 % 2 ^ 8) (x / 2 ^ 16 % 2 ^ 8)
      (x / 2 ^ 8 % 2 ^ 8) (x % 2 ^ 8) m3 m2 m1 m0 hy
    rw [y0, y1, y2, y3, ← hsum, narrow_small x h31]

end Table
/-! ## Lemmas: `decLength` -/

namespace Table

set_option maxRecDepth 100000 in
lemma metasOk_true : metasOk = true := by decide

lemma toNat_zero_char : '0'.toNat = 48 := rfl
lemma toNat_nine_char : '9'.toNat = 57 := rfl

lemma isDigit_iff (c : Char) : IsDigit c ↔ 48 ≤ c.toNat ∧ c.toNat ≤ 57 := Iff.rfl

lemma char_eq_of_toNat_eq {a b : Char} (h : a.toNat = b.toNat) : a = b := by
  rw [← Char.ofNat_toNat a, ← Char.ofNat_toNat b, h]

lemma decScan_digits (p : List Char) : ∀ i, (∀ c ∈ p, IsDigit c) →
    decScan p i = some (i + p.length) := by
  induction p with
  | nil => intro i _; simp [decScan]
  | cons c p ih =>
    intro i h
    have hc := (isDigit_iff c).1 (h c (List.mem_cons_self _ _))
    have hn : ¬ (c.toNat < '0'.toNat ∨ c.toNat > '9'.toNat) := by
      rw [toNat_zero_char, toNat_nine_char]; omega
    simp only [decScan, hn, if_false]
    rw [ih (i + 1) (fun d hd => h d (List.mem_cons_of_mem _ hd))]
    simp only [List.length_cons]
    congr 1
    omega

lemma decScan_nondigit (p : List Char) : ∀ i, (∃ c ∈ p, ¬ IsDigit c) →
    decScan p i = none := by
  induction p with
  | nil => intro i h; obtain ⟨c, hc, _⟩ := h; simp at hc
  | cons c p ih =>
    intro i h
    by_cases hc : IsDigit c
    · have hn : ¬ (c.toNat < '0'.toNat ∨ c.toNat > '9'.toNat) := by
        have := (isDigit_iff c).1 hc
        rw [toNat_zero_char, toNat_nine_char]; omega
      simp only [decScan, hn, if_false]
      apply ih
      obtain ⟨d, hd, hnd⟩ := h
      rcases List.mem_cons.1 hd with rfl | hd
      · exact absurd hc hnd
      · exact ⟨d, hd, hnd⟩
    · have hy : c.toNat < '0'.toNat ∨ c.toNat > '9'.toNat := by
        have : ¬ (48 ≤ c.toNat ∧ c.toNat ≤ 57) := fun h => hc ((isDigit_iff c).2 h)
        rw [toNat_zero_char, toNat_nine_char]; omega
      simp only [decScan, hy, if_true]

lemma decValue_lt (p : List Char) (h : ∀ c ∈ p, IsDigit c) : decValue p < 10 ^ p.length := by
  induction p with
  | nil => simp [decValue]
  | cons c p ih =>
    have hc := (isDigit_iff c).1 (h c (List.mem_cons_self _ _))
    have hp := ih (fun d hd => h d (List.mem_cons_of_mem _ hd))
    simp only [decValue, List.length_cons, toNat_zero_char, pow_succ]
    have : (c.toNat - 48) * 10 ^ p.length ≤ 9 * 10 ^ p.length :=
      Nat.mul_le_mul_right _ (by omega)
    omega

lemma strncmp_digits (a : List Char) : ∀ (b : List Char) (n : Nat), a.length = n →
    n ≤ b.length → (∀ c ∈ a, IsDigit c) → (∀ c ∈ b.take n, IsDigit c) →
    (0 ≤ strncmp a b n ↔ decValue (b.take n) ≤ decValue a) := by
  induction a with
  | nil =>
    intro b n hn _ _ _
    simp only [List.length_nil] at hn
    subst hn
    simp [strncmp, decValue]
  | cons x a ih =>
    intro b n hn hb ha hbd
    cases n with
    | zero => simp at hn
    | succ n =>
      cases b with
      | nil => simp at hb
      | cons y b =>
        simp only [List.length_cons, Nat.add_le_add_iff_right, add_left_inj] at hn hb
        simp only [List.take_succ_cons] at hbd ⊢
        have hx := (isDigit_iff x).1 (ha x (List.mem_cons_self _ _))
        have hy := (isDigit_iff y).1 (hbd y (List.mem_cons_self _ _))
        have ha' : ∀ c ∈ a, IsDigit c := fun d hd => ha d (List.mem_cons_of_mem _ hd)
        have hb' : ∀ c ∈ b.take n, IsDigit c := fun d hd => hbd d (List.mem_cons_of_mem _ hd)
        have la := decValue_lt a ha'
        have lb := decValue_lt (b.take n) hb'
        have lenb : (b.take n).length = n := by simp [List.length_take, hb]
        rw [lenb] at lb
        rw [hn] at la
        simp only [strncmp, decValue, toNat_zero_char, lenb, hn]
        by_cases hxy : x = y
        · subst hxy
          simp only [if_true]
          rw [ih b n hn hb ha' hb']
          omega
        · have hne : x.toNat ≠ y.toNat := fun h => hxy (char_eq_of_toNat_eq h)
          simp only [hxy, if_false]
          rcases Nat.lt_or_gt_of_ne hne with hlt | hgt
          · have h1 : (x.toNat - 48 + 1) * 10 ^ n ≤ (y.toNat - 48) * 10 ^ n :=
              Nat.mul_le_mul_right _ (by omega)
            have h2 : (x.toNat - 48 + 1) * 10 ^ n = (x.toNat - 48) * 10 ^ n + 10 ^ n := by ring
            constructor
            · intro h; omega
            · intro h; omega
          · have h1 : (y.toNat - 48 + 1) * 10 ^ n ≤ (x.toNat - 48) * 10 ^ n :=
              Nat.mul_le_mul_right _ (by omega)
            have h2 : (y.toNat - 48 + 1) * 10 ^ n = (y.toNat - 48) * 10 ^ n + 10 ^ n := by ring
            constructor
            · intro _; omega
            · intro _; omega


lemma decCompare_spec (p : List Char) (len : Nat) (v : Nat) (th : Nat → Nat)
    (hp : p.length = len) (hd : ∀ c ∈ p, IsDigit c) (hv : decValue p = v) :
    ∀ (remaining : Nat) (start : List Char) (i : Nat),
    (∀ j, j < remaining → ((start.drop (j * len)).take len).length = len ∧
      (∀ c ∈ (start.drop (j * len)).take len, IsDigit c) ∧
      decValue ((start.drop (j * len)).take len) = th (i + j)) →
    i ≤ decCompare p start len remaining i ∧
    decCompare p start len remaining i ≤ i + remaining ∧
    (∀ j, i ≤ j → j < decCompare p start len remaining i → v < th j) ∧
    (decCompare p start len remaining i < i + remaining →
      th (decCompare p start len remaining i) ≤ v) := by
  intro remaining
  induction remaining with
  | zero =>
    intro start i _
    simp only [decCompare]
    exact ⟨le_refl _, le_refl _, fun j h1 h2 => absurd h2 (by omega), fun h => absurd h (by omega)⟩
  | succ k ih =>
    intro start i hT
    obtain ⟨h0len, h0dig, h0val⟩ := hT 0 (by omega)
    simp only [Nat.zero_mul, List.drop_zero, Nat.add_zero] at h0len h0dig h0val
    have hle : len ≤ start.length := by
      have := List.length_take_le' len start
      omega
    have hcmp := strncmp_digits p start len hp hle hd h0dig
    rw [h0val, hv] at hcmp
    simp only [decCompare]
    by_cases hge : strncmp p start len ≥ 0
    · simp only [hge, if_true]
      exact ⟨le_refl _, by omega, fun j h1 h2 => absurd h2 (by omega), fun _ => hcmp.1 hge⟩
    · simp only [hge, if_false]
      have hlt : v < th i := by
        by_contra hcon
        exact hge (hcmp.2 (by omega))
      have hT' : ∀ j, j < k → (((start.drop len).drop (j * len)).take len).length = len ∧
          (∀ c ∈ ((start.drop len).drop (j * len)).take len, IsDigit c) ∧
          decValue (((start.drop len).drop (j * len)).take len) = th (i + 1 + j) := by
        intro j hj
        have h := hT (j + 1) (by omega)
        have e : (start.drop len).drop (j * len) = start.drop ((j + 1) * len) := by
          rw [List.drop_drop]
          congr 1
          ring
        rw [e]
        have e2 : i + 1 + j = i + (j + 1) := by omega
        rw [e2]
        exact h
      obtain ⟨r1, r2, r3, r4⟩ := ih (start.drop len) (i + 1) hT'
      refine ⟨by omega, by omega, ?_, ?_⟩
      · intro j h1 h2
        by_cases hji : j = i
        · rw [hji]; exact hlt
        · exact r3 j (by omega) h2
      · intro h
        exact r4 (by omega)


lemma metaOk_row (len : Nat) (h1 : 1 ≤ len) (h20 : len ≤ 20) :
    metaOk len (metas.getD (len - 1) ⟨0, 0, 0⟩) = true := by
  have h := metasOk_true
  unfold metasOk at h
  rw [List.all_eq_true] at h
  have hk := h (len - 1) (List.mem_range.2 (by omega))
  have e : len - 1 + 1 = len := by omega
  rw [e] at hk
  exact hk

lemma decContract_of_bounds (v k : Nat) (h1 : 2 ^ k ≤ v) (h2 : v < 2 ^ (k + 1))
    (hk : k + 1 ≤ 64) : decContract v = k + 1 := by
  have hpos : 0 < 2 ^ k := Nat.pow_pos (by norm_num)
  have hv0 : v ≠ 0 := by omega
  have hv64 : v < 2 ^ 64 := lt_of_lt_of_le h2 (Nat.pow_le_pow_right (by norm_num) hk)
  have hlog : Nat.log 2 v = k :=
    (Nat.log_eq_iff (Or.inr ⟨by norm_num, hv0⟩)).2 ⟨h1, h2⟩
  unfold decContract
  rw [if_neg hv0, if_pos hv64, hlog]

lemma canonical_lower (p : List Char) (hc : Canonical p) (h2 : 2 ≤ p.length) :
    10 ^ (p.length - 1) ≤ decValue p := by
  obtain ⟨_, hd, hz⟩ := hc
  cases p with
  | nil => simp at h2
  | cons c q =>
    have hcd := (isDigit_iff c).1 (hd c (List.mem_cons_self _ _))
    have hne : c ≠ '0' := by
      intro h
      subst h
      have := hz rfl
      simp only [List.cons.injEq, true_and] at this
      subst this
      simp at h2
    have hn : c.toNat ≠ 48 := fun h => hne (char_eq_of_toNat_eq (by rw [h]; rfl))
    simp only [decValue, List.length_cons, Nat.add_sub_cancel, toNat_zero_char]
    have : 1 * 10 ^ q.length ≤ (c.toNat - 48) * 10 ^ q.length :=
      Nat.mul_le_mul_right _ (by omega)
    omega


lemma decLength_canonical_short (p : List Char) (hc : Canonical p) (h20 : p.length ≤ 20) :
    decLength p = decContract (decValue p) := by
  have hne : p.length ≠ 0 := fun h => hc.1 (List.length_eq_zero.1 h)
  have hd := hc.2.1
  have hrow := metaOk_row p.length (by omega) h20
  generalize hm : metas.getD (p.length - 1) ⟨0, 0, 0⟩ = m at hrow
  unfold metaOk at hrow
  simp only [Bool.and_eq_true, Bool.or_eq_true, decide_eq_true_eq, List.all_eq_true,
    List.mem_range] at hrow
  obtain ⟨⟨⟨⟨hE1, hE2⟩, hT⟩, hLow⟩, hUp⟩ := hrow
  have hspec := decCompare_spec p p.length (decValue p) (fun j => 2 ^ (m.bits - j)) rfl hd rfl
    m.elements (powers.drop m.offset) 0 (by
      intro j hj
      have h := hT j hj
      have e : (powers.drop m.offset).drop (j * p.length)
          = powers.drop (m.offset + j * p.length) := by
        rw [List.drop_drop]
      rw [e, Nat.zero_add]
      exact ⟨h.1.1, h.1.2, h.2⟩)
  have hdl : decLength p
      = m.bits - decCompare p (powers.drop m.offset) p.length m.elements 0 + 1 := by
    unfold decLength
    rw [decScan_digits p 0 hd, Nat.zero_add]
    simp only [hne, if_false, hm]
    rw [if_neg (by omega)]
  rw [hdl]
  generalize decCompare p (powers.drop m.offset) p.length m.elements 0 = r at hspec
  obtain ⟨_, hr, hbelow, habove⟩ := hspec
  simp only [Nat.zero_add, Nat.zero_le, true_implies] at hr hbelow habove
  have hvlt := decValue_lt p hd
  have hB : m.bits ≤ 64 := by rcases hUp with h | h <;> omega
  by_cases hre : r < m.elements
  · have hge := habove hre
    by_cases hr0 : r = 0
    · subst hr0
      simp only [Nat.sub_zero] at hge ⊢
      rcases hUp with ⟨hl, hb⟩ | ⟨hu, hb⟩
      · rw [hb] at hge ⊢
        have hv0 : decValue p ≠ 0 := by
          have : 0 < 2 ^ 64 := by norm_num
          omega
        unfold decContract
        rw [if_neg hv0, if_neg (by omega)]
      · exact (decContract_of_bounds _ _ hge (lt_of_lt_of_le hvlt hu) (by omega)).symm
    · have hlt := hbelow (r - 1) (by omega)
      have e : m.bits - (r - 1) = m.bits - r + 1 := by omega
      rw [e] at hlt
      exact (decContract_of_bounds _ _ hge hlt (by omega)).symm
  · have hreq : r = m.elements := by omega
    subst hreq
    have hlt := hbelow (m.elements - 1) (by omega)
    have e : m.bits - (m.elements - 1) = m.bits - m.elements + 1 := by omega
    rw [e] at hlt
    rcases hLow with ⟨hl, hb⟩ | ⟨hl, hlow⟩
    · rw [hb] at hlt ⊢
      simp only [Nat.sub_self, Nat.zero_add, pow_one] at hlt ⊢
      unfold decContract
      by_cases hv0 : decValue p = 0
      · rw [if_pos hv0]
      · have hv1 : decValue p = 1 := by omega
        rw [if_neg hv0, hv1]
        simp
    · have hcl := canonical_lower p hc hl
      exact (decContract_of_bounds _ _ (le_trans hlow hcl) hlt (by omega)).symm

lemma decLength_canonical_long (p : List Char) (hc : Canonical p) (h21 : 21 ≤ p.length) :
    decLength p = decContract (decValue p) := by
  have hd := hc.2.1
  have hcl := canonical_lower p hc (by omega)
  have h1 : 10 ^ 20 ≤ 10 ^ (p.length - 1) := Nat.pow_le_pow_right (by norm_num) (by omega)
  have h2 : (2 : Nat) ^ 64 < 10 ^ 20 := by norm_num
  have hv : 2 ^ 64 < decValue p := by omega
  unfold decLength decContract
  rw [decScan_digits p 0 hd, Nat.zero_add]
  simp only
  rw [if_neg (by omega), if_pos (by omega), if_neg (by omega), if_neg (by omega)]

end Table
/-! ## Lemmas: `binLength` and `hexLength` -/

namespace Table

lemma hexLengthLoop_digits (p : List Char) : ∀ length, (∀ c ∈ p, IsHexDigit c) →
    hexLengthLoop p length = (length + 4 * p.length) % 2 ^ 32 ∨
    (p = [] ∧ hexLengthLoop p length = length) := by
  induction p with
  | nil => intro length _; exact Or.inr ⟨rfl, rfl⟩
  | cons c p ih =>
    intro length h
    left
    have hc : IsHexDigit c := h c (List.mem_cons_self _ _)
    have hstep : hexLengthLoop (c :: p) length = hexLengthLoop p ((length + 4) % 2 ^ 32) := by
      unfold IsHexDigit at hc
      simp only [hexLengthLoop]
      by_cases h1 : '0'.toNat ≤ c.toNat ∧ c.toNat ≤ '9'.toNat
      · rw [if_pos h1]
      · rw [if_neg h1]
        by_cases h2 : 'a'.toNat ≤ c.toNat ∧ c.toNat ≤ 'f'.toNat
        · rw [if_pos h2]
        · rw [if_neg h2]
          have h3 : 'A'.toNat ≤ c.toNat ∧ c.toNat ≤ 'F'.toNat := by tauto
          rw [if_pos h3]
    rw [hstep]
    rcases ih ((length + 4) % 2 ^ 32) (fun d hd => h d (List.mem_cons_of_mem _ hd)) with h1 | ⟨h1, h2⟩
    · rw [h1]
      simp only [List.length_cons]
      omega
    · rw [h2, h1]
      simp only [List.length_cons, List.length_nil]

lemma hexLength_digits (p : List Char) (h : ∀ c ∈ p, IsHexDigit c) :
    hexLength p = (4 * p.length) % 2 ^ 32 := by
  unfold hexLength
  rcases hexLengthLoop_digits p 0 h with h1 | ⟨h1, h2⟩
  · rw [h1, Nat.zero_add]
  · rw [h2, h1]; rfl

lemma binLengthLoop_digits (p : List Char) : ∀ length, length < 2 ^ 32 → (∀ c ∈ p, IsBinDigit c) →
    binLengthLoop p length = (length + p.length) % 2 ^ 32 := by
  induction p with
  | nil => intro length hl _; simp only [binLengthLoop, List.length_nil]; omega
  | cons c p ih =>
    intro length hl h
    have hc : c = '0' ∨ c = '1' := h c (List.mem_cons_self _ _)
    simp only [binLengthLoop, hc, if_true]
    rw [ih _ (Nat.mod_lt _ (by norm_num)) (fun d hd => h d (List.mem_cons_of_mem _ hd))]
    simp only [List.length_cons]
    omega

lemma binLength_digits (p : List Char) (h : ∀ c ∈ p, IsBinDigit c) :
    binLength p = p.length % 2 ^ 32 := by
  unfold binLength
  rw [binLengthLoop_digits p 0 (by norm_num) h, Nat.zero_add]

end Table
/-! ## Lemmas: the width check and the opcode loop -/

namespace Table

lemma widthOk_nil (ev : Evaluator) (t : Table) (number : List Number) (args : List (List Char)) :
    WidthOk ev t number [] args := by
  intro k h
  exact absurd h (by simp)

lemma widthOk_cons (ev : Evaluator) (t : Table) (number : List Number) (f : Format)
    (fs : List Format) (args : List (List Char)) :
    WidthOk ev t number (f :: fs) args ↔
      FormatFits ev t number args f ∧ WidthOk ev t number fs (checkedArgs ev t f args) := by
  constructor
  · intro h
    refine ⟨h 0 (by simp), ?_⟩
    intro k hk
    have := h (k + 1) (by simpa using hk)
    simpa [argsAfter] using this
  · rintro ⟨h0, hrest⟩ k hk
    cases k with
    | zero => simpa [argsAfter] using h0
    | succ k =>
      have := hrest k (by simpa using hk)
      simpa [argsAfter] using this

lemma checkedArgs_skip (ev : Evaluator) (t : Table) (f : Format) (args : List (List Char))
    (h : f.match_ = FormatMatch.Weak ∨ f.type ≠ FormatType.Absolute) :
    checkedArgs ev t f args = args := by
  unfold checkedArgs
  rw [if_neg]
  rintro ⟨h1, h2⟩
  rcases h with h | h
  · exact h1 h
  · exact h h2

lemma formatFits_skip (ev : Evaluator) (t : Table) (number : List Number) (f : Format)
    (args : List (List Char))
    (h : f.match_ = FormatMatch.Weak ∨ f.type ≠ FormatType.Absolute) :
    FormatFits ev t number args f := by
  intro ha
  rcases h with h | h
  · constructor <;> intro hm <;> rw [h] at hm <;> cases hm
  · exact absurd ha h

lemma widthCheck_spec (ev : Evaluator) (t : Table) (number : List Number) (fs : List Format) :
    ∀ args : List (List Char),
    (WidthOk ev t number fs args →
      widthCheck ev t number fs args = .ok (false, argsAfter ev t fs args)) ∧
    (∀ a, widthCheck ev t number fs args = .ok (false, a) → WidthOk ev t number fs args) := by
  induction fs with
  | nil =>
    intro args
    exact ⟨fun _ => rfl, fun _ _ => widthOk_nil ev t number args⟩
  | cons f fs ih =>
    intro args
    rw [widthOk_cons]
    by_cases hskip : f.match_ = FormatMatch.Weak ∨ f.type ≠ FormatType.Absolute
    · have hw : widthCheck ev t number (f :: fs) args = widthCheck ev t number fs args := by
        rw [widthCheck]
        rcases hskip with h | h
        · rw [if_pos h]
        · by_cases hm : f.match_ = FormatMatch.Weak
          · rw [if_pos hm]
          · rw [if_neg hm, if_neg h]
      rw [hw, checkedArgs_skip ev t f args hskip]
      simp only [argsAfter, checkedArgs_skip ev t f args hskip]
      exact ⟨fun h => (ih args).1 h.2,
        fun a h => ⟨formatFits_skip ev t number f args hskip, (ih args).2 a h⟩⟩
    · have hm : f.match_ ≠ FormatMatch.Weak := fun h => hskip (Or.inl h)
      have ha : f.type = FormatType.Absolute := by
        by_contra h
        exact hskip (Or.inr h)
      have hse : f.match_ = FormatMatch.Strong ∨ f.match_ = FormatMatch.Exact := by
        cases hmm : f.match_
        · exact Or.inr rfl
        · exact Or.inl rfl
        · exact absurd hmm hm
      rw [widthCheck, if_neg hm, if_pos ha]
      simp only [argsAfter]
      unfold checkedArgs
      rw [if_pos ⟨hm, ha⟩]
      cases harg : args[f.argument]? with
      | none =>
        simp only
        refine ⟨fun h => ?_, fun a h => absurd h (by simp)⟩
        rcases hse with hs | he
        · obtain ⟨arg, _, _, _, h1, _⟩ := (h.1 ha).1 hs
          rw [harg] at h1; cases h1
        · obtain ⟨arg, _, _, _, h1, _⟩ := (h.1 ha).2 he
          rw [harg] at h1; cases h1
      | some arg =>
        simp only
        cases hbl : bitLength ev t arg with
        | error e =>
          simp only
          refine ⟨fun h => ?_, fun a h => absurd h (by simp)⟩
          rcases hse with hs | he
          · obtain ⟨arg0, _, _, _, h1, _, h3, _⟩ := (h.1 ha).1 hs
            rw [harg] at h1; cases h1
            rw [hbl] at h3; cases h3
          · obtain ⟨arg0, _, _, _, h1, _, h3, _⟩ := (h.1 ha).2 he
            rw [harg] at h1; cases h1
            rw [hbl] at h3; cases h3
        | ok res =>
          obtain ⟨bits, arg1⟩ := res
          simp only
          cases hnum : number[f.argument]? with
          | none =>
            simp only
            refine ⟨fun h => ?_, fun a h => absurd h (by simp)⟩
            rcases hse with hs | he
            · obtain ⟨_, _, _, _, _, h2, _⟩ := (h.1 ha).1 hs
              rw [hnum] at h2; cases h2
            · obtain ⟨_, _, _, _, _, h2, _⟩ := (h.1 ha).2 he
              rw [hnum] at h2; cases h2
          | some n =>
            simp only
            rcases hse with hs | he
            · rw [if_pos hs]
              by_cases hgt : bits > n.bits
              · rw [if_pos hgt]
                refine ⟨fun h => ?_, fun a h => absurd h (by simp)⟩
                obtain ⟨arg0, n0, bits0, arg10, h1, h2, h3, h4⟩ := (h.1 ha).1 hs
                rw [harg] at h1; cases h1
                rw [hnum] at h2; cases h2
                rw [hbl] at h3; cases h3
                omega
              · rw [if_neg hgt]
                have hfit : FormatFits ev t number args f := by
                  intro _
                  refine ⟨fun _ => ⟨arg, n, bits, arg1, harg, hnum, hbl, by omega⟩, fun he => ?_⟩
                  rw [hs] at he; cases he
                exact ⟨fun h => (ih _).1 h.2, fun a h => ⟨hfit, (ih _).2 a h⟩⟩
            · have hns : f.match_ ≠ FormatMatch.Strong := by rw [he]; decide
              rw [if_neg hns, if_pos he]
              by_cases hneq : bits ≠ n.bits
              · rw [if_pos hneq]
                refine ⟨fun h => ?_, fun a h => absurd h (by simp)⟩
                obtain ⟨arg0, n0, bits0, arg10, h1, h2, h3, h4⟩ := (h.1 ha).2 he
                rw [harg] at h1; cases h1
                rw [hnum] at h2; cases h2
                rw [hbl] at h3; cases h3
                exact absurd h4 hneq
              · rw [if_neg hneq]
                have hfit : FormatFits ev t number args f := by
                  intro _
                  refine ⟨fun hs => ?_, fun _ => ⟨arg, n, bits, arg1, harg, hnum, hbl, by omega⟩⟩
                  rw [he] at hs; cases hs
                exact ⟨fun h => (ih _).1 h.2, fun a h => ⟨hfit, (ih _).2 a h⟩⟩

end Table

namespace Table

lemma assembleLoop_reject (w : AccWidth) (env : Env) (s : List Char) (pc : Nat) (op : Opcode)
    (rest : List Opcode) (t : Table) (h : Rejected env t s op) :
    assembleLoop w env s pc (op :: rest) t = assembleLoop w env s pc rest t := by
  rw [assembleLoop]
  rcases h with h | h | ⟨a, h⟩
  · rw [if_pos h]
  · by_cases hm : env.tokenizeMatch s op.pattern = false
    · rw [if_pos hm]
    · rw [if_neg hm]
      simp only
      rw [if_pos h]
  · by_cases hm : env.tokenizeMatch s op.pattern = false
    · rw [if_pos hm]
    · rw [if_neg hm]
      simp only
      by_cases hl : (env.tokenizeArgs s op.pattern).length ≠ op.number.length
      · rw [if_pos hl]
      · rw [if_neg hl, h]

lemma assembleLoop_accept (w : AccWidth) (env : Env) (s : List Char) (pc : Nat) (op : Opcode)
    (rest : List Opcode) (t : Table) (args1 : List (List Char)) (h : Accepted env t s op args1) :
    assembleLoop w env s pc (op :: rest) t
      = (emitFormats w env.toEvaluator pc op.number args1 op.format t).map
          (fun t1 => (true, t1)) := by
  obtain ⟨hm, hl, hc⟩ := h
  rw [assembleLoop]
  rw [if_neg (by rw [hm]; decide)]
  simp only
  rw [if_neg (by rw [hl]; exact fun h => h rfl), hc]
  simp only
  cases emitFormats w env.toEvaluator pc op.number args1 op.format t <;> rfl

lemma assembleLoop_first (w : AccWidth) (env : Env) (s : List Char) (pc : Nat)
    (pre : List Opcode) (op : Opcode) (post : List Opcode) (t : Table)
    (args1 : List (List Char)) (hpre : ∀ o ∈ pre, Rejected env t s o)
    (hop : Accepted env t s op args1) :
    assembleLoop w env s pc (pre ++ op :: post) t
      = (emitFormats w env.toEvaluator pc op.number args1 op.format t).map
          (fun t1 => (true, t1)) := by
  induction pre with
  | nil => exact assembleLoop_accept w env s pc op post t args1 hop
  | cons o pre ih =>
    rw [List.cons_append, assembleLoop_reject w env s pc o _ t (hpre o (List.mem_cons_self _ _))]
    exact ih (fun o1 h1 => hpre o1 (List.mem_cons_of_mem _ h1))

lemma emitFormats_append (w : AccWidth) (ev : Evaluator) (pc : Nat) (number : List Number)
    (args : List (List Char)) (fs1 fs2 : List Format) : ∀ t : Table,
    emitFormats w ev pc number args (fs1 ++ fs2) t
      = (emitFormats w ev pc number args fs1 t).bind (emitFormats w ev pc number args fs2) := by
  induction fs1 with
  | nil => intro t; rfl
  | cons f fs1 ih =>
    intro t
    simp only [List.cons_append, emitFormats]
    cases emitFormat w ev pc number args t f with
    | error e => rfl
    | ok t1 => exact ih t1

lemma assembleLoop_false_iff (w : AccWidth) (env : Env) (s : List Char) (pc : Nat)
    (ops : List Opcode) (t t1 : Table) :
    assembleLoop w env s pc ops t = .ok (false, t1) ↔
      (∀ o ∈ ops, Rejected env t s o) ∧ t1 = t := by
  induction ops with
  | nil =>
    simp only [assembleLoop, Except.ok.injEq, Prod.mk.injEq, true_and, List.not_mem_nil,
      false_implies, implies_true]
    exact eq_comm
  | cons op rest ih =>
    constructor
    · intro h
      rw [assembleLoop] at h
      by_cases hm : env.tokenizeMatch s op.pattern = false
      · rw [if_pos hm] at h
        obtain ⟨hr, ht⟩ := ih.1 h
        refine ⟨?_, ht⟩
        intro o ho
        rcases List.mem_cons.1 ho with rfl | ho
        · exact Or.inl hm
        · exact hr o ho
      · rw [if_neg hm] at h
        simp only at h
        by_cases hl : (env.tokenizeArgs s op.pattern).length ≠ op.number.length
        · rw [if_pos hl] at h
          obtain ⟨hr, ht⟩ := ih.1 h
          refine ⟨?_, ht⟩
          intro o ho
          rcases List.mem_cons.1 ho with rfl | ho
          · exact Or.inr (Or.inl hl)
          · exact hr o ho
        · rw [if_neg hl] at h
          split at h
          · exact absurd h (by simp)
          · next a hc =>
            obtain ⟨hr, ht⟩ := ih.1 h
            refine ⟨?_, ht⟩
            intro o ho
            rcases List.mem_cons.1 ho with rfl | ho
            · exact Or.inr (Or.inr ⟨a, hc⟩)
            · exact hr o ho
          · split at h
            · exact absurd h (by simp)
            · simp at h
    · rintro ⟨hr, ht⟩
      rw [assembleLoop_reject w env s pc op rest t (hr op (List.mem_cons_self _ _))]
      exact ih.2 ⟨fun o ho => hr o (List.mem_cons_of_mem _ ho), ht⟩

end Table

namespace Table

lemma rejected_not_accepted (env : Env) (t : Table) (s : List Char) (o : Opcode)
    (h : Rejected env t s o) (a : List (List Char)) : ¬ Accepted env t s o a := by
  rintro ⟨hm, hl, hc⟩
  rcases h with h | h | ⟨a1, h⟩
  · rw [hm] at h; cases h
  · exact h hl
  · rw [hc] at h
    injection h with h
    injection h with h1 _
    cases h1

lemma assembleLoop_true_accepted (w : AccWidth) (env : Env) (s : List Char) (pc : Nat)
    (ops : List Opcode) (t t1 : Table)
    (h : assembleLoop w env s pc ops t = .ok (true, t1)) :
    ∃ o ∈ ops, ∃ a, Accepted env t s o a := by
  induction ops with
  | nil => simp [assembleLoop] at h
  | cons op rest ih =>
    rw [assembleLoop] at h
    by_cases hm : env.tokenizeMatch s op.pattern = false
    · rw [if_pos hm] at h
      obtain ⟨o, ho, a, ha⟩ := ih h
      exact ⟨o, List.mem_cons_of_mem _ ho, a, ha⟩
    · rw [if_neg hm] at h
      simp only at h
      by_cases hl : (env.tokenizeArgs s op.pattern).length ≠ op.number.length
      · rw [if_pos hl] at h
        obtain ⟨o, ho, a, ha⟩ := ih h
        exact ⟨o, List.mem_cons_of_mem _ ho, a, ha⟩
      · rw [if_neg hl] at h
        split at h
        · exact absurd h (by simp)
        · obtain ⟨o, ho, a, ha⟩ := ih h
          exact ⟨o, List.mem_cons_of_mem _ ho, a, ha⟩
        · next a hc =>
          refine ⟨op, List.mem_cons_self _ _, a, ?_, ?_, hc⟩
          · cases hb : env.tokenizeMatch s op.pattern
            · exact absurd hb hm
            · rfl
          · by_contra hne
            exact hl hne

end Table
/-! ## Lemmas: the relative formats and the accumulator -/

namespace Table

lemma two_pow_le_of_le {a b : Nat} (h : a ≤ b) : (2 : Int) ^ a ≤ 2 ^ b := by
  exact_mod_cast Nat.pow_le_pow_right (by norm_num : 0 < 2) h

lemma setBits_eq (n : Nat) (h : n ≤ 31) : setBits n = 2 ^ n - 1 := by
  unfold setBits shlInt
  rw [Nat.mod_eq_of_lt (by omega : n < 32)]
  have h1 : (1 : Int) ≤ 2 ^ n := by exact_mod_cast Nat.one_le_two_pow
  have h2 : (2 : Int) ^ n ≤ 2 ^ 31 := two_pow_le_of_le h
  have hc : ((2 ^ n - 1 : Nat) : Int) = 2 ^ n - 1 := by
    rw [Nat.cast_sub Nat.one_le_two_pow]
    simp
  have key : wrapS 32 (wrapS 32 (1 * 2 ^ n) - 1) = 2 ^ n - 1 := by
    generalize (2 : Int) ^ n = P at h1 h2
    unfold wrapS
    omega
  rw [key]
  unfold wrapU
  have h3 : (2 : Int) ^ n - 1 < 2 ^ 64 := by
    have : (2 : Int) ^ 31 < 2 ^ 64 := by norm_num
    omega
  rw [Int.emod_eq_of_lt (by omega) h3, ← hc]
  exact Int.toNat_ofNat _

lemma relative_bounds (b : Nat) (h1 : 1 ≤ b) (h31 : b ≤ 31) :
    relativeMin b = -(2 : Int) ^ (b - 1) ∧ relativeMax b = 2 ^ (b - 1) - 1 := by
  unfold relativeMin relativeMax shlInt
  have hb : wrapU 32 ((b : Int) - 1) = b - 1 := by unfold wrapU; omega
  rw [hb, Nat.mod_eq_of_lt (by omega : b - 1 < 32)]
  have p1 : (1 : Int) ≤ 2 ^ (b - 1) := by exact_mod_cast Nat.one_le_two_pow
  have p2 : (2 : Int) ^ (b - 1) ≤ 2 ^ 30 := two_pow_le_of_le (by omega)
  generalize (2 : Int) ^ (b - 1) = P at p1 p2
  unfold wrapS
  constructor <;> omega

lemma relativeData_eq (e : Int) (pc : Nat) (d : Int)
    (hlo : -(2 : Int) ^ 31 ≤ e - ((pc : Int) + d)) (hhi : e - ((pc : Int) + d) < 2 ^ 31) :
    relativeData e pc d = e - ((pc : Int) + d) := by
  unfold relativeData wrapS wrapU
  omega

end Table
namespace Table

lemma masked_eq_mod (data n : Nat) (h : n ≤ 31) :
    data % 2 ^ 64 &&& setBits n = data % 2 ^ n := by
  rw [setBits_eq n h, Nat.and_pow_two_sub_one_eq_mod]
  exact Nat.mod_mod_of_dvd _ (Nat.pow_dvd_pow 2 (by omega))

lemma accumulate_mod (w : AccWidth) (t : Table) (data n : Nat) (h : n ≤ 31) :
    accumulate w t data n = accumulate w t (data % 2 ^ n) n := by
  unfold accumulate
  simp only
  rw [masked_eq_mod data n h, masked_eq_mod (data % 2 ^ n) n h, Nat.mod_mod]

lemma writeBits_mod (w : AccWidth) (t : Table) (data n : Nat) (h : n ≤ 31) :
    writeBits w t data n = writeBits w t (data % 2 ^ n) n := by
  unfold writeBits
  rw [accumulate_mod w t data n h]

lemma accumulate_eq (w : AccWidth) (t : Table) (data n : Nat) (h : n ≤ 31) (hn : n < w.val)
    (hv : t.bitval * 2 ^ n < 2 ^ w.val) (hp : t.bitpos + n < 2 ^ w.pos) :
    accumulate w t data n
      = { t with bitval := t.bitval * 2 ^ n + data % 2 ^ n, bitpos := t.bitpos + n } := by
  unfold accumulate
  simp only
  rw [masked_eq_mod data n h, Nat.mod_eq_of_lt hn, Nat.mod_eq_of_lt hv, Nat.mod_eq_of_lt hp]
  have hm : data % 2 ^ n < 2 ^ n := Nat.mod_lt _ (Nat.pow_pos (by norm_num))
  rw [or_eq_add_of_lt _ _ n hm]
  have hsum : t.bitval * 2 ^ n + data % 2 ^ n < 2 ^ w.val := by
    have e : 2 ^ w.val = 2 ^ (w.val - n) * 2 ^ n := by
      rw [← pow_add]; congr 1; omega
    rw [e] at hv ⊢
    have h1 : t.bitval < 2 ^ (w.val - n) := Nat.lt_of_mul_lt_mul_right hv
    have h2 : (t.bitval + 1) * 2 ^ n ≤ 2 ^ (w.val - n) * 2 ^ n := Nat.mul_le_mul_right _ h1
    have h3 : (t.bitval + 1) * 2 ^ n = t.bitval * 2 ^ n + 2 ^ n := by ring
    omega
  rw [Nat.mod_eq_of_lt hsum]

lemma wrapU64_mod (v : Int) (b : Nat) (h : b ≤ 64) :
    wrapU 64 v % 2 ^ b = (v % 2 ^ b).toNat := by
  unfold wrapU
  have h0 : (0 : Int) ≤ v % 2 ^ 64 := Int.emod_nonneg _ (by norm_num)
  have hb : (0 : Int) ≤ v % 2 ^ b := Int.emod_nonneg _ (by positivity)
  apply Int.ofNat_inj.1
  rw [Int.toNat_of_nonneg hb, Int.natCast_mod, Int.toNat_of_nonneg h0]
  push_cast
  exact Int.emod_emod_of_dvd _ (pow_dvd_pow 2 h)

end Table
/-! ## Lemmas: `Bass::track` -/

namespace Bass

lemma trackLoop_spec (address : Nat) (remaining : Nat) : ∀ (n : Nat) (s : Finset Nat),
    address + n + remaining ≤ 2 ^ 64 →
    ((∀ x, address + n ≤ x → x < address + n + remaining → x ∉ s) →
      trackLoop address remaining n s
        = .ok (s ∪ Finset.Ico (address + n) (address + n + remaining))) ∧
    ((∃ x, address + n ≤ x ∧ x < address + n + remaining ∧ x ∈ s) →
      ∃ y, address + n ≤ y ∧ y < address + n + remaining ∧ y ∈ s ∧
        trackLoop address remaining n s = .error (Error.overwrite y)) := by
  induction remaining with
  | zero =>
    intro n s _
    constructor
    · intro _
      simp [trackLoop]
    · rintro ⟨x, h1, h2, _⟩
      omega
  | succ k ih =>
    intro n s hfit
    have hmod : (address + n) % 2 ^ 64 = address + n := Nat.mod_eq_of_lt (by omega)
    have hrec := ih (n + 1) (insert (address + n) s) (by omega)
    constructor
    · intro hfree
      have hnot : address + n ∉ s := hfree _ (le_refl _) (by omega)
      rw [trackLoop, hmod, if_neg hnot]
      rw [hrec.1 (by
        intro x h1 h2 hx
        rcases Finset.mem_insert.1 hx with h | h
        · omega
        · exact hfree x (by omega) (by omega) h)]
      congr 1
      ext x
      simp only [Finset.mem_union, Finset.mem_insert, Finset.mem_Ico]
      constructor
      · rintro ((h | h) | h)
        · right; omega
        · left; exact h
        · right; omega
      · rintro (h | h)
        · left; right; exact h
        · by_cases hx : x = address + n
          · left; left; exact hx
          · right; omega
    · rintro ⟨x, h1, h2, hx⟩
      rw [trackLoop, hmod]
      by_cases hin : address + n ∈ s
      · rw [if_pos hin]
        exact ⟨address + n, le_refl _, by omega, hin, rfl⟩
      · rw [if_neg hin]
        have hne : x ≠ address + n := fun h => hin (h ▸ hx)
        obtain ⟨y, y1, y2, y3, y4⟩ := hrec.2 ⟨x, by omega, by omega, Finset.mem_insert_of_mem hx⟩
        refine ⟨y, by omega, by omega, ?_, y4⟩
        rcases Finset.mem_insert.1 y3 with h | h
        · omega
        · exact h

end Bass
/-! ## Lemmas: `Bass::write` and the pass driver -/

namespace Bass

lemma track_hit (b : Bass) (length : Nat) (he : b.tracker.enable = true)
    (hfit : b.targetOffset + length ≤ 2 ^ 64)
    (h : ∃ x, b.targetOffset ≤ x ∧ x < b.targetOffset + length ∧ x ∈ b.tracker.addresses) :
    ∃ x, track b length = .error (Error.overwrite x) ∧ b.targetOffset ≤ x ∧
      x < b.targetOffset + length ∧ x ∈ b.tracker.addresses := by
  have hspec := trackLoop_spec b.targetOffset length 0 b.tracker.addresses (by omega)
  simp only [Nat.add_zero] at hspec
  have hen : ¬ (b.tracker.enable = false) := by rw [he]; decide
  obtain ⟨y, y1, y2, y3, y4⟩ := hspec.2 h
  refine ⟨y, ?_, y1, y2, y3⟩
  unfold track
  rw [if_neg hen, y4]

lemma track_free (b : Bass) (length : Nat) (he : b.tracker.enable = true)
    (hfit : b.targetOffset + length ≤ 2 ^ 64)
    (h : ∀ x, b.targetOffset ≤ x → x < b.targetOffset + length → x ∉ b.tracker.addresses) :
    track b length = .ok { b with tracker := { b.tracker with
      addresses := b.tracker.addresses ∪
        Finset.Ico b.targetOffset (b.targetOffset + length) } } := by
  have hspec := trackLoop_spec b.targetOffset length 0 b.tracker.addresses (by omega)
  simp only [Nat.add_zero] at hspec
  have hen : ¬ (b.tracker.enable = false) := by rw [he]; decide
  unfold track
  rw [if_neg hen, hspec.1 h]

/-- A run of byte writes to the target file: the bytes are appended at the
consecutive offsets and nothing but the file changes. -/
lemma foldl_filePut (f : Nat → Nat) : ∀ (ns : List Nat) (b : Bass),
    b.targetOffset + ns.length < 2 ^ 64 →
    ns.foldl (fun b1 n => filePut b1 (f n)) b
      = { b with targetData := b.targetData ++
                   List.zip (List.range' b.targetOffset ns.length) (ns.map fun n => f n % 256),
                 targetOffset := b.targetOffset + ns.length } := by
  intro ns
  induction ns with
  | nil => intro b _; simp
  | cons n ns ih =>
    intro b hfit
    simp only [List.length_cons] at hfit
    have hmod : (b.targetOffset + 1) % 2 ^ 64 = b.targetOffset + 1 :=
      Nat.mod_eq_of_lt (by omega)
    rw [List.foldl_cons, ih _ (by simp only [filePut, hmod]; omega)]
    simp only [filePut, hmod, List.length_cons, List.map_cons, List.range'_succ,
      List.zip_cons_cons, List.append_assoc, List.singleton_append]
    congr 1
    omega

/-- A run of `fputc` calls changes the bytes given to stdout and nothing else. -/
lemma foldl_stdoutPut (data : Nat) : ∀ (ns : List Nat) (b : Bass),
    ns.foldl (stdoutPut data) b
      = { b with stdoutData := b.stdoutData ++
            ns.map fun n => shrU64 data (wrapU 32 ((n : Int) * 8)) % 256 } := by
  intro ns
  induction ns with
  | nil => intro b; simp
  | cons n ns ih =>
    intro b
    rw [List.foldl_cons, ih]
    simp [stdoutPut]

lemma track_frame (b b1 : Bass) (length : Nat) (h : track b length = .ok b1) :
    ∃ tr, b1 = { b with tracker := tr } := by
  unfold track at h
  split at h
  · injection h with h
    exact ⟨b.tracker, h ▸ rfl⟩
  · split at h
    · exact absurd h (by simp)
    · injection h with h
      exact ⟨_, h.symm⟩

lemma foldl_filePut_frame (f : Nat → Nat) : ∀ (ns : List Nat) (b : Bass),
    ∃ td off, ns.foldl (fun b1 n => filePut b1 (f n)) b
      = { b with targetData := td, targetOffset := off } := by
  intro ns
  induction ns with
  | nil => intro b; exact ⟨b.targetData, b.targetOffset, rfl⟩
  | cons n ns ih =>
    intro b
    obtain ⟨td, off, h⟩ := ih (filePut b (f n))
    exact ⟨td, off, by rw [List.foldl_cons, h]; rfl⟩

lemma pc_advance (origin length : Nat) (base : Int) :
    wrapU 32 ((((origin + length) % 2 ^ 32 : Nat) : Int) + base)
      = (wrapU 32 ((origin : Int) + base) + length) % 2 ^ 32 := by
  unfold wrapU
  norm_num
  omega

/-- What `write` leaves when it returns: the state that the output part of it
left, with `origin` advanced. -/
lemma write_ok (b b1 : Bass) (data length : Nat) (h : write b data length = .ok b1) :
    ∃ b2 : Bass, b2.origin = b.origin ∧ b2.base = b.base ∧
      b1 = { b2 with origin := (b2.origin + length) % 2 ^ 32 } := by
  unfold write at h
  simp only [writel, writem] at h
  split at h
  · split at h
    · split at h
      · exact absurd h (by simp)
      · rename_i b3 htrack
        obtain ⟨tr, rfl⟩ := track_frame _ _ _ htrack
        split at h
        · obtain ⟨td, off, hf⟩ := foldl_filePut_frame (fun n => data / 2 ^ (8 * n))
            (List.range length) { b with tracker := tr }
          injection h with h
          exact ⟨_, by rw [hf], by rw [hf], h.symm⟩
        · obtain ⟨td, off, hf⟩ := foldl_filePut_frame (fun n => data / 2 ^ (8 * n))
            (List.range length).reverse { b with tracker := tr }
          injection h with h
          exact ⟨_, by rw [hf], by rw [hf], h.symm⟩
    · split at h
      · split at h
        · injection h with h
          exact ⟨_, by rw [foldl_stdoutPut], by rw [foldl_stdoutPut], h.symm⟩
        · injection h with h
          exact ⟨_, by rw [foldl_stdoutPut], by rw [foldl_stdoutPut], h.symm⟩
      · injection h with h
        exact ⟨b, rfl, rfl, h.symm⟩
  · injection h with h
    exact ⟨b, rfl, rfl, h.symm⟩

/-- The loop of `assemble` begins only `Refine` passes, at most as many as it
may iterate; it raises an error only when `execute` did, in the last pass it
began. -/
lemma refineLoop_passes {ρ : Type} (exec : Phase → Driver ρ → Except Error (Driver ρ)) :
    ∀ (n : Nat) (r : Run ρ),
      (∃ k, k ≤ n ∧ ∃ d, refineLoop exec n r
          = .ok { driver := d, passes := r.passes ++ List.replicate k Phase.Refine }) ∨
      (∃ k, k < n ∧ refineLoop exec n r
          = .error (r.passes ++ List.replicate k Phase.Refine ++ [Phase.Refine]) ∧
        ∃ d e, exec Phase.Refine d = .error e) := by
  intro n
  induction n with
  | zero =>
    intro r
    exact Or.inl ⟨0, le_refl _, r.driver, by simp [refineLoop]⟩
  | succ n ih =>
    intro r
    unfold refineLoop
    simp only
    split
    · split
      · exact Or.inl ⟨0, Nat.zero_le _,
          { r.driver with orderedUnknowns := [], constants := (inspect r.driver.constants).1 },
          by simp⟩
      · exact Or.inl ⟨0, Nat.zero_le _,
          { r.driver with orderedUnknowns := [],
                          constants := (inspect r.driver.constants).1.map force },
          by simp⟩
    · cases hex : exec Phase.Refine
          { r.driver with orderedUnknowns := [], constants := (inspect r.driver.constants).1 } with
      | error e =>
        refine Or.inr ⟨0, Nat.succ_pos _, ?_, _, e, hex⟩
        simp [pass, hex]
      | ok d =>
        simp only [pass, hex]
        rcases ih { driver := d, passes := r.passes ++ [Phase.Refine] } with
          ⟨k, hk, d1, h⟩ | ⟨k, hk, h, hraise⟩
        · refine Or.inl ⟨k + 1, by omega, d1, ?_⟩
          rw [h]
          simp [List.replicate_succ]
        · refine Or.inr ⟨k + 1, by omega, ?_, hraise⟩
          rw [h]
          simp [List.replicate_succ]

/-- The passes of `assemble` when neither `analyze` nor `execute` raises an
error before the last pass: the refinement loop is left after at most nine
passes, however it ends, and the pass in the write phase follows. -/
lemma assemble_passes {ρ : Type} (exec : Phase → Driver ρ → Except Error (Driver ρ))
    (d : Driver ρ) (h : ∀ ph d0, ph ≠ Phase.Write → ∃ d1, exec ph d0 = .ok d1) :
    ∃ k, k ≤ 9 ∧ ∃ d3,
      (assemble exec d).passes
        = [Phase.Analyze, Phase.Query] ++ List.replicate k Phase.Refine ++ [Phase.Write] ∧
      ((assemble exec d).result = true ↔ ∃ d4, exec Phase.Write d3 = .ok d4) ∧
      ((assemble exec d).result = false ↔ ∃ e, exec Phase.Write d3 = .error e) := by
  obtain ⟨d1, h1⟩ := h Phase.Analyze d (by decide)
  obtain ⟨d2, h2⟩ := h Phase.Query d1 (by decide)
  have hloop : ∃ k, k ≤ 9 ∧ ∃ d3,
      (if d2.orderedUnknowns.length ≠ 0
        then refineLoop exec 9 { driver := d2, passes := [Phase.Analyze, Phase.Query] }
        else .ok { driver := d2, passes := [Phase.Analyze, Phase.Query] })
      = .ok { driver := d3,
              passes := [Phase.Analyze, Phase.Query] ++ List.replicate k Phase.Refine } := by
    split
    · rcases refineLoop_passes exec 9 { driver := d2, passes := [Phase.Analyze, Phase.Query] }
        with ⟨k, hk, d3, hr⟩ | ⟨k, _, _, d0, e, hraise⟩
      · exact ⟨k, hk, d3, hr⟩
      · obtain ⟨d1, hd⟩ := h Phase.Refine d0 (by decide)
        rw [hd] at hraise
        exact absurd hraise (by simp)
    · exact ⟨0, Nat.zero_le _, d2, by simp⟩
  obtain ⟨k, hk, d3, hl⟩ := hloop
  refine ⟨k, hk, d3, ?_⟩
  unfold assemble
  simp only [pass, h1, h2, List.nil_append, List.singleton_append] at hl ⊢
  rw [hl]
  cases hw : exec Phase.Write d3 with
  | error e => simp [hw]
  | ok d4 => simp [hw]

end Bass

/-! ## Lemmas: `Table::assembleTableLHS` -/

namespace Table

lemma charAt_drop (text : List Char) (offset j : Nat) :
    charAt text (offset + j) = charAt (text.drop offset) j := by
  simp [charAt, List.getD_eq_getElem?_getD, List.getElem?_drop]

lemma charAt_nil (j : Nat) : charAt [] j = Char.ofNat 0 := by
  simp [charAt]

/-- The text from an offset on splits into a fragment without `*`, whose length
the lambda `length` finds, and a remainder that is empty or starts with `*`. -/
lemma lhsLength_split : ∀ (rest : List Char) (k : Nat),
    ∃ frag tail, rest = frag ++ tail ∧ '*' ∉ frag ∧ (tail = [] ∨ ∃ t, tail = '*' :: t) ∧
      lhsLength rest k = k + frag.length := by
  intro rest
  induction rest with
  | nil => intro k; exact ⟨[], [], rfl, by simp, Or.inl rfl, by simp [lhsLength]⟩
  | cons c rest ih =>
    intro k
    by_cases hc : c = '*'
    · subst hc
      exact ⟨[], '*' :: rest, rfl, by simp, Or.inr ⟨rest, rfl⟩, by simp [lhsLength]⟩
    · obtain ⟨frag, tail, h1, h2, h3, h4⟩ := ih (k + 1)
      refine ⟨c :: frag, tail, by rw [h1]; rfl, ?_, h3, ?_⟩
      · intro hmem
        rcases List.mem_cons.1 hmem with h | h
        · exact hc h.symm
        · exact h2 h
      · rw [lhsLength, if_neg hc, h4, List.length_cons]
        omega

lemma wellFormed_cons (c : Char) (rest : List Char) (hc : c ≠ '*') :
    WellFormedLHS (c :: rest) ↔ WellFormedLHS rest := by
  conv_lhs => unfold WellFormedLHS
  simp [hc]

lemma wildcardWidths_cons (c : Char) (rest : List Char) (hc : c ≠ '*') :
    wildcardWidths (c :: rest) = wildcardWidths rest := by
  conv_lhs => unfold wildcardWidths
  simp [hc]

lemma starred_cons (c : Char) (rest : List Char) (hc : c ≠ '*') :
    starred (c :: rest) = c :: starred rest := by
  conv_lhs => unfold starred
  simp [hc]

lemma wellFormed_star (tail : List Char) (h : WellFormedLHS ('*' :: tail)) :
    ∃ d1 d2 rest, tail = d1 :: d2 :: rest ∧ IsDigit d1 ∧ IsDigit d2 ∧ WellFormedLHS rest := by
  unfold WellFormedLHS at h
  simp only [if_true] at h
  split at h
  · exact ⟨_, _, _, rfl, h⟩
  · exact absurd h id

lemma wildcardWidths_star (d1 d2 : Char) (rest : List Char) :
    wildcardWidths ('*' :: d1 :: d2 :: rest)
      = (10 * (d1.toNat - '0'.toNat) + (d2.toNat - '0'.toNat)) :: wildcardWidths rest := by
  conv_lhs => unfold wildcardWidths
  simp

lemma starred_star (d1 d2 : Char) (rest : List Char) :
    starred ('*' :: d1 :: d2 :: rest) = '*' :: starred rest := by
  conv_lhs => unfold starred
  simp

lemma wellFormed_frag : ∀ (frag tail : List Char), '*' ∉ frag →
    (WellFormedLHS (frag ++ tail) ↔ WellFormedLHS tail) := by
  intro frag
  induction frag with
  | nil => intro tail _; rfl
  | cons c frag ih =>
    intro tail h
    have hc : c ≠ '*' := fun e => h (e ▸ List.mem_cons_self _ _)
    rw [List.cons_append, wellFormed_cons _ _ hc]
    exact ih tail (fun hm => h (List.mem_cons_of_mem _ hm))

lemma wildcardWidths_frag : ∀ (frag tail : List Char), '*' ∉ frag →
    wildcardWidths (frag ++ tail) = wildcardWidths tail := by
  intro frag
  induction frag with
  | nil => intro tail _; rfl
  | cons c frag ih =>
    intro tail h
    have hc : c ≠ '*' := fun e => h (e ▸ List.mem_cons_self _ _)
    rw [List.cons_append, wildcardWidths_cons _ _ hc]
    exact ih tail (fun hm => h (List.mem_cons_of_mem _ hm))

lemma starred_frag : ∀ (frag tail : List Char), '*' ∉ frag →
    starred (frag ++ tail) = frag ++ starred tail := by
  intro frag
  induction frag with
  | nil => intro tail _; rfl
  | cons c frag ih =>
    intro tail h
    have hc : c ≠ '*' := fun e => h (e ▸ List.mem_cons_self _ _)
    rw [List.cons_append, starred_cons _ _ hc, ih tail (fun hm => h (List.mem_cons_of_mem _ hm))]
    rfl

lemma digit_bits (d1 d2 : Char) (h1 : IsDigit d1) (h2 : IsDigit d2) :
    wrapU 32 ((wrapU 32 (10 * digitOf d1) : Int) + digitOf d2)
      = 10 * (d1.toNat - '0'.toNat) + (d2.toNat - '0'.toNat) := by
  unfold IsDigit at h1 h2
  have e0 : '0'.toNat = 48 := by decide
  have e9 : '9'.toNat = 57 := by decide
  rw [e0, e9] at h1 h2
  unfold wrapU digitOf
  rw [e0]
  norm_num
  omega

lemma lhsLoop_end (text : List Char) (fuel offset : Nat) (opcode : Opcode)
    (h : charAt text offset = Char.ofNat 0) : lhsLoop text fuel offset opcode = opcode := by
  cases fuel with
  | zero => rfl
  | succ n => rw [lhsLoop, if_pos h]

lemma lhsLoop_spec (text : List Char) : ∀ (fuel : Nat) (rest : List Char) (offset : Nat)
    (opcode : Opcode), rest.length < fuel → text.drop offset = rest → WellFormedLHS rest →
    NulFree rest →
    ∃ ps ns, lhsLoop text fuel offset opcode
        = { opcode with prefix_ := opcode.prefix_ ++ ps, number := opcode.number ++ ns } ∧
      ns.map (fun n => n.bits) = wildcardWidths rest ∧
      (∀ p ∈ ps, '*' ∉ p.text ∧ p.size = p.text.length) ∧
      (rest ≠ [] → ps ≠ []) ∧
      ((ps.length = ns.length ∧ (ps.map fun p => p.text ++ ['*']).flatten = starred rest) ∨
       (ps.length = ns.length + 1 ∧
        (ps.map fun p => p.text ++ ['*']).flatten = starred rest ++ ['*'])) := by
  intro fuel
  induction fuel with
  | zero => intro rest _ _ h; omega
  | succ fuel ih =>
    intro rest offset opcode hlen hdrop hwf hnul
    have h0 : charAt text offset = charAt rest 0 := by
      have := charAt_drop text offset 0
      rwa [Nat.add_zero, hdrop] at this
    cases hrest : rest with
    | nil =>
      refine ⟨[], [], ?_, by simp [wildcardWidths], by simp, by simp, Or.inl ⟨rfl, by simp [starred]⟩⟩
      rw [lhsLoop_end text _ _ _ (by rw [h0, hrest]; exact charAt_nil 0)]
      simp
    | cons c r =>
      have hc : charAt text offset ≠ Char.ofNat 0 := by
        rw [h0, hrest]
        exact hnul c (by rw [hrest]; exact List.mem_cons_self _ _)
      obtain ⟨frag, tail, hsplit, hfrag, htail, hsize⟩ := lhsLength_split rest 0
      rw [Nat.zero_add] at hsize
      have htl : text.drop (offset + frag.length) = tail := by
        rw [← List.drop_drop, hdrop, hsplit, List.drop_left]
      have hslice : slice text offset frag.length = frag := by
        rw [slice, hdrop, hsplit, List.take_left]
      have hat : ∀ j, charAt text (offset + frag.length + j) = charAt tail j := by
        intro j
        rw [charAt_drop, htl]
      rw [← hrest]
      rw [lhsLoop, if_neg hc]
      simp only [hdrop, hsize, hslice]
      rcases htail with ht | ⟨t, ht⟩
      · have hnext : charAt text (offset + frag.length) = Char.ofNat 0 := by
          have := hat 0
          rw [Nat.add_zero, ht] at this
          rw [this]; exact charAt_nil 0
        have hne : charAt text (offset + frag.length) ≠ '*' := by
          rw [hnext]; decide
        rw [if_pos hne, lhsLoop_end text _ _ _ hnext]
        have hrf : rest = frag := by rw [hsplit, ht, List.append_nil]
        refine ⟨[⟨frag, frag.length⟩], [], by simp, ?_, ?_, by simp, Or.inr ⟨rfl, ?_⟩⟩
        · have := wildcardWidths_frag frag [] hfrag
          rw [List.append_nil] at this
          rw [hrf, this]; rfl
        · intro p hp
          rw [List.mem_singleton] at hp
          subst hp
          exact ⟨hfrag, rfl⟩
        · have := starred_frag frag [] hfrag
          rw [List.append_nil] at this
          rw [hrf, this]
          simp [starred]
      · have hwt : WellFormedLHS tail := by
          rw [hsplit] at hwf
          exact (wellFormed_frag frag tail hfrag).1 hwf
        rw [ht] at hwt
        obtain ⟨d1, d2, rest2, htt, hd1, hd2, hw2⟩ := wellFormed_star t hwt
        have htail2 : tail = '*' :: d1 :: d2 :: rest2 := by rw [ht, htt]
        have hstar : charAt text (offset + frag.length) = '*' := by
          have := hat 0
          rw [Nat.add_zero, htail2] at this
          rw [this]; rfl
        have hc1 : charAt text (offset + frag.length + 1) = d1 := by
          rw [hat 1, htail2]; rfl
        have hc2 : charAt text (offset + frag.length + 2) = d2 := by
          rw [hat 2, htail2]; rfl
        have hne : ¬ (charAt text (offset + frag.length) ≠ '*') := by
          rw [hstar]; simp
        rw [if_neg hne, hc1, hc2, digit_bits d1 d2 hd1 hd2]
        have hdrop2 : text.drop (offset + frag.length + 3) = rest2 := by
          rw [← List.drop_drop, htl, htail2]; rfl
        have hlen2 : rest2.length < fuel := by
          rw [hsplit, htail2] at hlen
          simp only [List.length_append, List.length_cons] at hlen
          omega
        have hnul2 : NulFree rest2 := by
          intro x hx
          apply hnul x
          rw [hsplit, htail2]
          simp [hx]
        obtain ⟨ps, ns, hrun, hbits, hps, _, hjoin⟩ :=
          ih rest2 (offset + frag.length + 3)
            { opcode with
              prefix_ := opcode.prefix_ ++ [⟨frag, frag.length⟩],
              number := opcode.number ++
                [⟨10 * (d1.toNat - '0'.toNat) + (d2.toNat - '0'.toNat)⟩] }
            hlen2 hdrop2 hw2 hnul2
        refine ⟨⟨frag, frag.length⟩ :: ps,
          ⟨10 * (d1.toNat - '0'.toNat) + (d2.toNat - '0'.toNat)⟩ :: ns, ?_, ?_, ?_, by simp, ?_⟩
        · rw [hrun]
          simp
        · rw [hsplit, htail2, wildcardWidths_frag _ _ hfrag, wildcardWidths_star,
            List.map_cons, hbits]
        · intro p hp
          rcases List.mem_cons.1 hp with h | h
          · subst h
            exact ⟨hfrag, rfl⟩
          · exact hps p h
        · have hst : starred rest = frag ++ '*' :: starred rest2 := by
            rw [hsplit, htail2, starred_frag _ _ hfrag, starred_star]
          rcases hjoin with ⟨h1, h2⟩ | ⟨h1, h2⟩
          · left
            refine ⟨by simp [h1], ?_⟩
            rw [List.map_cons, List.flatten_cons, h2, hst]
            simp
          · right
            refine ⟨by simp [h1], ?_⟩
            rw [List.map_cons, List.flatten_cons, h2, hst]
            simp

lemma starred_ne_nil (text : List Char) (h : text ≠ []) : starred text ≠ [] := by
  cases text with
  | nil => exact absurd rfl h
  | cons c rest =>
    unfold starred
    split
    · split <;> simp
    · simp

lemma getLast?_cons_of_ne_nil {α : Type} (a : α) (l : List α) (h : l ≠ []) :
    (a :: l).getLast? = l.getLast? := by
  cases l with
  | nil => exact absurd rfl h
  | cons b l => simp [List.getLast?_cons_cons]

/-- In a well-formed pattern text, the text with its wildcards replaced ends
with `*` exactly when the text ends with `*` and two more characters. -/
lemma starred_last : ∀ (n : Nat) (text : List Char), text.length ≤ n → WellFormedLHS text →
    text ≠ [] →
    ((starred text).getLast? = some '*' ↔ ∃ pre d1 d2, text = pre ++ ['*', d1, d2]) := by
  intro n
  induction n with
  | zero =>
    intro text hlen _ hne
    exact absurd (List.length_eq_zero.1 (Nat.le_zero.1 hlen)) hne
  | succ n ih =>
    intro text hlen hwf _
    cases text with
    | nil => contradiction
    | cons c rest =>
      simp only [List.length_cons] at hlen
      by_cases hc : c = '*'
      · subst hc
        obtain ⟨d1, d2, rest2, hr, hd1, hd2, hw2⟩ := wellFormed_star rest hwf
        subst hr
        rw [starred_star]
        have e1 : d1 ≠ '*' := by
          intro e; rw [e] at hd1; revert hd1; decide
        have e2 : d2 ≠ '*' := by
          intro e; rw [e] at hd2; revert hd2; decide
        by_cases hr2 : rest2 = []
        · subst hr2
          simp only [starred, List.getLast?_singleton, true_iff]
          exact ⟨[], d1, d2, rfl⟩
        · rw [getLast?_cons_of_ne_nil _ _ (starred_ne_nil _ hr2),
            ih rest2 (by simp only [List.length_cons] at hlen; omega) hw2 hr2]
          constructor
          · rintro ⟨pre, a, b, h⟩
            exact ⟨'*' :: d1 :: d2 :: pre, a, b, by rw [h]; rfl⟩
          · rintro ⟨pre, a, b, h⟩
            match pre, h with
            | [], h =>
              simp only [List.nil_append, List.cons.injEq] at h
              exact absurd h.2.2.2 hr2
            | [x], h =>
              simp only [List.singleton_append, List.cons.injEq] at h
              exact absurd h.2.1 e1
            | [x, y], h =>
              simp only [List.cons_append, List.nil_append, List.cons.injEq] at h
              exact absurd h.2.2.1 e2
            | x :: y :: z :: pre3, h =>
              simp only [List.cons_append, List.cons.injEq] at h
              exact ⟨pre3, a, b, h.2.2.2⟩
      · rw [starred_cons _ _ hc]
        have hwr : WellFormedLHS rest := (wellFormed_cons c rest hc).1 hwf
        by_cases hr : rest = []
        · subst hr
          simp only [starred, List.getLast?_singleton]
          constructor
          · intro h
            injection h with h
            exact absurd h hc
          · rintro ⟨pre, a, b, h⟩
            have := congrArg List.length h
            simp at this
        · rw [getLast?_cons_of_ne_nil _ _ (starred_ne_nil _ hr), ih rest (by omega) hwr hr]
          constructor
          · rintro ⟨pre, a, b, h⟩
            exact ⟨c :: pre, a, b, by rw [h]; rfl⟩
          · rintro ⟨pre, a, b, h⟩
            match pre, h with
            | [], h =>
              simp only [List.nil_append, List.cons.injEq] at h
              exact absurd h.1 hc
            | x :: pre2, h =>
              simp only [List.cons_append, List.cons.injEq] at h
              exact ⟨pre2, a, b, h.2⟩

lemma join_count : ∀ (ps : List Prefix), (∀ p ∈ ps, '*' ∉ p.text) →
    List.count '*' ((ps.map fun p => p.text ++ ['*']).flatten) = ps.length := by
  intro ps
  induction ps with
  | nil => intro _; rfl
  | cons p ps ih =>
    intro h
    rw [List.map_cons, List.flatten_cons, List.count_append, List.count_append,
      ih (fun q hq => h q (List.mem_cons_of_mem _ hq)),
      List.count_eq_zero.2 (h p (List.mem_cons_self _ _))]
    simp
    omega

lemma join_last : ∀ (ps : List Prefix), ps ≠ [] →
    ∃ X, (ps.map fun p => p.text ++ ['*']).flatten = X ++ ['*'] := by
  intro ps h
  rcases List.eq_nil_or_concat ps with h0 | ⟨init, last, rfl⟩
  · exact absurd h0 h
  · refine ⟨(init.map fun p => p.text ++ ['*']).flatten ++ last.text, ?_⟩
    simp

/-- The pattern that the end of `assembleTableLHS` builds from the prefixes and
descriptors that the loop leaves for a non-empty well-formed text. -/
lemma lhsPattern_eq (text : List Char) (ps : List Prefix) (ns : List Number)
    (hne : ps ≠ [])
    (hjoin : (ps.length = ns.length ∧
        (ps.map fun p => p.text ++ ['*']).flatten = starred text) ∨
      (ps.length = ns.length + 1 ∧
        (ps.map fun p => p.text ++ ['*']).flatten = starred text ++ ['*'])) :
    lhsPattern { prefix_ := ps, number := ns } = starred text := by
  obtain ⟨X, hX⟩ := join_last ps hne
  unfold lhsPattern
  simp only [List.nil_append]
  rw [hX]
  have hlast : (X ++ ['*']).getLast? = some '*' := by simp
  rw [if_pos hlast, List.dropLast_concat]
  rcases hjoin with ⟨h1, h2⟩ | ⟨h1, h2⟩
  · rw [if_pos h1.symm, ← hX, h2]
  · have hneq : ¬ (ns.length = ps.length) := by omega
    rw [if_neg hneq]
    rw [hX] at h2
    exact List.append_cancel_right h2

/-- What `assembleTableLHS` leaves for a well-formed text, from an empty
opcode. -/
lemma assembleTableLHS_run (text : List Char) (hwf : WellFormedLHS text) (hnul : NulFree text) :
    ∃ ps ns, assembleTableLHS {} text
        = { prefix_ := ps, number := ns, format := [],
            pattern := lhsPattern { prefix_ := ps, number := ns } } ∧
      ns.map (fun n => n.bits) = wildcardWidths text ∧
      (∀ p ∈ ps, '*' ∉ p.text ∧ p.size = p.text.length) ∧
      (text ≠ [] → ps ≠ []) ∧
      ((ps.length = ns.length ∧ (ps.map fun p => p.text ++ ['*']).flatten = starred text) ∨
       (ps.length = ns.length + 1 ∧
        (ps.map fun p => p.text ++ ['*']).flatten = starred text ++ ['*'])) := by
  obtain ⟨ps, ns, hrun, h1, h2, h3, h4⟩ :=
    lhsLoop_spec text (text.length + 1) text 0 {} (by omega) rfl hwf hnul
  refine ⟨ps, ns, ?_, h1, h2, h3, h4⟩
  unfold assembleTableLHS
  simp only [hrun, List.nil_append]

/-! ## Lemmas: `Table::assembleTableRHS` -/

lemma ite_some_ind {P : Format → Prop} {c : Prop} [Decidable c] {x : Format}
    {rest : Option Format} (hx : P x) (hrest : ∀ f, rest = some f → P f) :
    ∀ f, (if c then some x else rest) = some f → P f := by
  intro f h
  by_cases hc : c
  · rw [if_pos hc] at h
    injection h with h
    exact h ▸ hx
  · rw [if_neg hc] at h
    exact hrest f h

lemma rhsItem_argument_aux (item : List Char) : ∀ f, rhsItem item = some f →
    f.type ≠ FormatType.Static →
    f.argument = argumentOf (charAt item (letterPosition f.type)) := by
  unfold rhsItem
  simp only
  refine ite_some_ind (fun hs => absurd rfl hs) ?_
  refine ite_some_ind (fun _ => rfl) ?_
  refine ite_some_ind (fun _ => rfl) ?_
  refine ite_some_ind (fun _ => rfl) ?_
  refine ite_some_ind (fun _ => rfl) ?_
  refine ite_some_ind (fun _ => rfl) ?_
  refine ite_some_ind (fun _ => rfl) ?_
  refine ite_some_ind (fun _ => rfl) ?_
  refine ite_some_ind (fun _ => rfl) ?_
  refine ite_some_ind (fun _ => rfl) ?_
  refine ite_some_ind (fun _ => rfl) ?_
  refine ite_some_ind (fun _ => rfl) ?_
  refine ite_some_ind (fun hs => absurd rfl hs) ?_
  refine ite_some_ind (fun _ => rfl) ?_
  refine ite_some_ind (fun _ => rfl) ?_
  refine ite_some_ind (fun _ => rfl) ?_
  refine ite_some_ind (fun _ => rfl) ?_
  refine ite_some_ind (fun _ => rfl) ?_
  refine ite_some_ind (fun _ => rfl) ?_
  intro f h
  exact absurd h (by simp)

lemma rhsItem_argument (item : List Char) (f : Format) (h : rhsItem item = some f)
    (hs : f.type ≠ FormatType.Static) :
    f.argument = argumentOf (charAt item (letterPosition f.type)) :=
  rhsItem_argument_aux item f h hs

lemma argumentOf_letter (c : Char) (h : IsLetter c) : argumentOf c = letterIndex c := by
  unfold IsLetter at h
  unfold argumentOf letterIndex wrapU
  have ea : 'a'.toNat = 97 := by decide
  have ez : 'z'.toNat = 122 := by decide
  have eA : 'A'.toNat = 65 := by decide
  have eZ : 'Z'.toNat = 90 := by decide
  rw [ea, ez, eA, eZ] at h
  rw [ea, eA, eZ, ez]
  rcases h with h | h
  · rw [if_neg (by omega), if_pos h]
    norm_num
    omega
  · rw [if_pos h, if_neg (by omega)]
    norm_num
    omega

lemma toHex_digits : ∀ (ds : List Char) (sum : Nat), (∀ c ∈ ds, IsHexDigit c) →
    toHex ds sum = ds.foldl (fun acc c => 16 * acc + hexDigitValue c) sum := by
  intro ds
  induction ds with
  | nil => intro sum _; rfl
  | cons c ds ih =>
    intro sum h
    have hc : IsHexDigit c := h c (List.mem_cons_self _ _)
    have hrest := fun s => ih s (fun x hx => h x (List.mem_cons_of_mem _ hx))
    unfold IsHexDigit at hc
    rw [List.foldl_cons, toHex]
    unfold hexDigitValue
    split
    · exact hrest _
    · split
      · exact hrest _
      · split
        · exact hrest _
        · rename_i h1 h2 h3
          rcases hc with hc | hc | hc
          · exact absurd hc h1
          · exact absurd hc h2
          · exact absurd hc h3

lemma hexDigitValue_lt (c : Char) : hexDigitValue c < 16 := by
  unfold hexDigitValue
  have e0 : '0'.toNat = 48 := by decide
  have e9 : '9'.toNat = 57 := by decide
  have ea : 'a'.toNat = 97 := by decide
  have ef : 'f'.toNat = 102 := by decide
  have eA : 'A'.toNat = 65 := by decide
  have eF : 'F'.toNat = 70 := by decide
  rw [e0, e9, ea, ef, eA, eF]
  split
  · omega
  · split
    · omega
    · split
      · omega
      · omega

lemma hex_not_blank (c : Char) (h : IsHexDigit c) : c ≠ ' ' := by
  intro e
  rw [e] at h
  revert h
  decide

lemma letter_not_blank (c : Char) (h : IsLetter c) : c ≠ ' ' := by
  intro e
  rw [e] at h
  revert h
  decide

/-- A text without a blank is one token. -/
lemma splitBlank_single (text : List Char) (h : ∀ c ∈ text, c ≠ ' ') :
    splitBlank text = [text] := by
  unfold splitBlank List.splitOn
  exact List.splitOnP_eq_single _ _ (fun x hx => by simpa using h x hx)

lemma lhsLoop_format (text : List Char) : ∀ (fuel offset : Nat) (opcode : Opcode),
    (lhsLoop text fuel offset opcode).format = opcode.format := by
  intro fuel
  induction fuel with
  | zero => intro offset opcode; rfl
  | succ fuel ih =>
    intro offset opcode
    unfold lhsLoop
    simp only
    split
    · rfl
    · split
      · rw [ih]
      · rw [ih]

lemma lineOpcode_parts (lhs rhs : List Char) :
    (lineOpcode lhs rhs).format = (splitBlank rhs).filterMap rhsItem ∧
    (lineOpcode lhs rhs).number = (assembleTableLHS {} lhs).number := by
  unfold lineOpcode assembleTableRHS assembleTableLHS
  simp only [lhsLoop_format, List.nil_append, and_self]

/-- A token whose first character is none of the characters the dispatch of
`assembleTableRHS` knows adds no format; neither does a `$` token whose length
is not 3. -/
lemma rhsItem_dollar (item : List Char) (h0 : charAt item 0 = '$') (hl : item.length ≠ 3) :
    rhsItem item = none := by
  unfold rhsItem
  simp only
  rw [if_neg (fun h => hl h.2)]
  repeat
    first
    | rw [if_neg (fun h : _ ∧ _ => absurd (h0.symm.trans h.1) (by decide))]
    | rw [if_neg (fun h : _ = _ => absurd (h0.symm.trans h) (by decide))]

lemma rhsItem_star (item : List Char) (h0 : charAt item 0 = '*') :
    rhsItem item = some { type := .Repeat, argument := argumentOf (charAt item 1),
                          data := wrapU 32 (toHex (item.drop 3) 0) } := by
  unfold rhsItem
  simp only
  repeat
    first
    | rw [if_neg (fun h : _ ∧ _ => absurd (h0.symm.trans h.1) (by decide))]
    | rw [if_neg (fun h : _ = _ => absurd (h0.symm.trans h) (by decide))]
  rw [if_pos h0]

lemma hexNumber_two (h1 h2 : Char) :
    hexNumber [h1, h2] = 16 * hexDigitValue h1 + hexDigitValue h2 := by
  simp [hexNumber]

lemma wrapU_small (x : Nat) (h : x < 2 ^ 32) : wrapU 32 (x : Int) = x := by
  unfold wrapU
  omega

end Table

/-! ## Lemmas: arithmetic of the probe sequence of `hashset` -/

namespace hashset

variable {T : Type}

lemma mask_eq_aux (n : Nat) (hpos : 0 < n) (hle : n ≤ 2 ^ 32) (hdvd : n ∣ 2 ^ 32)
    (hand : ∀ a, a &&& (n - 1) = a % n) (x : Int) : mask n x = (x % n).toNat := by
  unfold mask wrapU
  have h1 : (((n : Nat) : Int) - 1) % 2 ^ 32 = ((n - 1 : Nat) : Int) := by omega
  rw [h1, Int.toNat_ofNat, hand]
  have hnn : 0 ≤ x % 2 ^ 32 := Int.emod_nonneg _ (by norm_num)
  have hdvd' : (n : Int) ∣ 2 ^ 32 := by exact_mod_cast hdvd
  have hn0 : (n : Int) ≠ 0 := by omega
  apply Int.ofNat.inj
  simp only [Int.ofNat_eq_coe]
  rw [Int.toNat_of_nonneg (Int.emod_nonneg _ hn0), Int.natCast_mod, Int.toNat_of_nonneg hnn]
  exact Int.emod_emod_of_dvd x hdvd'

lemma mask_eq (k : Nat) (hk : k ≤ 32) (x : Int) :
    mask (2 ^ k) x = (x % ((2 ^ k : Nat) : Int)).toNat :=
  mask_eq_aux (2 ^ k) (Nat.pow_pos (by norm_num)) (Nat.pow_le_pow_right (by norm_num) hk)
    (Nat.pow_dvd_pow 2 hk) (fun a => Nat.and_pow_two_sub_one_eq_mod a k) x

lemma mask_add (k : Nat) (hk : k ≤ 32) (h i : Nat) :
    mask (2 ^ k) ((h : Int) + i) = (h + i) % 2 ^ k := by
  rw [mask_eq k hk]
  have : ((h : Int) + i) % ((2 ^ k : Nat) : Int) = (((h + i) % 2 ^ k : Nat) : Int) := by
    rw [Int.natCast_mod]; push_cast; rfl
  rw [this, Int.toNat_ofNat]

lemma dist_cast (n p g : Nat) (hn : 0 < n) :
    ((p : Int) - g) % (n : Int) = ((dist n p g : Nat) : Int) := by
  unfold dist
  have hlt : g % n < n := Nat.mod_lt _ hn
  rw [Int.natCast_mod]
  have hc : ((p + n - g % n : Nat) : Int) = (p : Int) + n - ((g % n : Nat) : Int) := by
    rw [Nat.cast_sub (by omega)]
    push_cast
    ring
  rw [hc, Int.natCast_mod]
  have hg : (g : Int) % n = (g : Int) - n * ((g : Int) / n) := by
    have := Int.emod_add_ediv (g : Int) n
    omega
  rw [hg]
  have e : (p : Int) + n - ((g : Int) - n * ((g : Int) / n))
      = (p : Int) - g + n * (1 + (g : Int) / n) := by ring
  rw [e, Int.add_mul_emod_self_left]

lemma mask_sub (k : Nat) (hk : k ≤ 32) (p g : Nat) :
    mask (2 ^ k) ((p : Int) - g) = dist (2 ^ k) p g := by
  rw [mask_eq k hk, dist_cast _ _ _ (Nat.pow_pos (by norm_num)), Int.toNat_ofNat]

lemma dist_lt (n p g : Nat) (hn : 0 < n) : dist n p g < n := Nat.mod_lt _ hn

lemma dist_probe (n g d : Nat) (hn : 0 < n) : dist n ((g + d) % n) g = d % n := by
  have h : (((dist n ((g + d) % n) g : Nat) : Int)) = ((d % n : Nat) : Int) := by
    rw [← dist_cast _ _ _ hn, Int.natCast_mod, Int.natCast_mod]
    push_cast
    rw [Int.sub_emod, Int.emod_emod_of_dvd _ (dvd_refl _), ← Int.sub_emod]
    congr 1
    ring
  exact_mod_cast h

lemma probe_dist (n p g : Nat) (hp : p < n) : (g + dist n p g) % n = p := by
  have hn : 0 < n := by omega
  have h : (((g + dist n p g) % n : Nat) : Int) = (p : Int) := by
    rw [Int.natCast_mod]
    push_cast
    rw [← dist_cast _ _ _ hn, Int.add_emod, Int.emod_emod_of_dvd _ (dvd_refl _),
      ← Int.add_emod]
    have e : (g : Int) + ((p : Int) - g) = p := by ring
    rw [e]
    exact Int.emod_eq_of_lt (by omega) (by omega)
  exact_mod_cast h

lemma next_probe (n h i : Nat) : next n ((h + i) % n) = (h + i + 1) % n := by
  unfold next
  rw [Nat.add_mod ((h + i) % n) 1 n, Nat.mod_mod, ← Nat.add_mod]

lemma next_lt (n p : Nat) (hn : 0 < n) : next n p < n := Nat.mod_lt _ hn

lemma next_eq (n p : Nat) (hp : p < n) : next n p = if p + 1 = n then 0 else p + 1 := by
  unfold next
  split
  · next h => rw [h, Nat.mod_self]
  · next h => exact Nat.mod_eq_of_lt (by omega)

lemma dist_next (n p g : Nat) (hp : p < n) :
    dist n (next n p) g = (dist n p g + 1) % n := by
  have hn : 0 < n := by omega
  have e : next n p = (g + (dist n p g + 1)) % n := by
    conv_lhs => rw [← probe_dist n p g hp]
    rw [next_probe]
    rfl
  rw [e, dist_probe _ _ _ hn]

lemma dist_next_succ (n p g : Nat) (hp : p < n) (h : dist n (next n p) g ≠ 0) :
    dist n (next n p) g = dist n p g + 1 := by
  have hn : 0 < n := by omega
  have hd := dist_lt n p g hn
  rw [dist_next n p g hp] at h ⊢
  by_cases hlt : dist n p g + 1 < n
  · exact Nat.mod_eq_of_lt hlt
  · have : dist n p g + 1 = n := by omega
    rw [this, Nat.mod_self] at h
    exact absurd rfl h

lemma probe_inj (n h i j : Nat) (hi : i < n) (hj : j < n)
    (e : (h + i) % n = (h + j) % n) : i = j := by
  have hn : 0 < n := by omega
  have h1 := dist_probe n h i hn
  have h2 := dist_probe n h j hn
  rw [e, h2, Nat.mod_eq_of_lt hj, Nat.mod_eq_of_lt hi] at h1
  exact h1.symm

lemma next_inj (n p q : Nat) (hp : p < n) (hq : q < n) (e : next n p = next n q) : p = q := by
  rw [next_eq n p hp, next_eq n q hq] at e
  split at e <;> split at e <;> omega

lemma next_ne (n p : Nat) (hn : 2 ≤ n) (hp : p < n) : next n p ≠ p := by
  rw [next_eq n p hp]
  split <;> omega

lemma next_next_ne (n p : Nat) (hn : 3 ≤ n) (hp : p < n) : next n (next n p) ≠ p := by
  have h1 : next n p < n := next_lt n p (by omega)
  rw [next_eq n (next n p) h1, next_eq n p hp]
  split <;> split <;> omega

lemma probe_lt (n h i : Nat) (hn : 0 < n) : (h + i) % n < n := Nat.mod_lt _ hn

/-- Every slot is on the probe sequence of every hash. -/
lemma slot_on_probe (n p h : Nat) (hp : p < n) : ∃ i, i < n ∧ (h + i) % n = p :=
  ⟨dist n p h, dist_lt n p h (by omega), probe_dist n p h hp⟩

end hashset

/-! ## Lemmas: the pool of `hashset` -/

namespace hashset

variable {T : Type}

lemma getD_set_self (pool : List (entry_t T)) (i : Nat) (e d : entry_t T)
    (h : i < pool.length) : (pool.set i e).getD i d = e := by
  simp [List.getD_eq_getElem?_getD, List.getElem?_set, h]

lemma getD_set_ne (pool : List (entry_t T)) (i j : Nat) (e d : entry_t T) (h : i ≠ j) :
    (pool.set i e).getD j d = pool.getD j d := by
  simp [List.getD_eq_getElem?_getD, List.getElem?_set, h]

lemma holds_lt {pool : List (entry_t T)} {p : Nat} {x : T} {g : Nat} (h : Holds pool p x g) :
    p < pool.length := by
  by_contra hn
  have : pool.getD p {} = ({} : entry_t T) := by
    simp [List.getD_eq_getElem?_getD, List.getElem?_eq_none (by omega : pool.length ≤ p)]
  rw [Holds, this] at h
  exact absurd h.1 (by simp)

lemma holds_or_vacant (pool : List (entry_t T)) (p : Nat) :
    Vacant pool p ∨ ∃ x g, Holds pool p x g := by
  unfold Vacant Holds
  cases h : (pool.getD p {}).ptr with
  | none => exact Or.inl rfl
  | some x => exact Or.inr ⟨x, _, rfl, rfl⟩

lemma holds_not_vacant {pool : List (entry_t T)} {p : Nat} {x : T} {g : Nat}
    (h : Holds pool p x g) : ¬ Vacant pool p := by
  intro hv
  rw [Vacant, h.1] at hv
  exact absurd hv (by simp)

lemma holds_fun {pool : List (entry_t T)} {p : Nat} {x y : T} {g g' : Nat}
    (h : Holds pool p x g) (h' : Holds pool p y g') : x = y ∧ g = g' := by
  have h1 := h.1.symm.trans h'.1
  injection h1 with h1
  exact ⟨h1, h.2.symm.trans h'.2⟩

lemma holds_set_self (pool : List (entry_t T)) (p : Nat) (x : T) (g : Nat)
    (h : p < pool.length) : Holds (pool.set p { ptr := some x, hash := g }) p x g := by
  unfold Holds
  rw [getD_set_self _ _ _ _ h]
  exact ⟨rfl, rfl⟩

lemma holds_set_ne (pool : List (entry_t T)) (p q : Nat) (e : entry_t T) (x : T) (g : Nat)
    (h : p ≠ q) : Holds (pool.set p e) q x g ↔ Holds pool q x g := by
  unfold Holds
  rw [getD_set_ne _ _ _ _ _ h]

lemma vacant_set_ne (pool : List (entry_t T)) (p q : Nat) (e : entry_t T) (h : p ≠ q) :
    Vacant (pool.set p e) q ↔ Vacant pool q := by
  unfold Vacant
  rw [getD_set_ne _ _ _ _ _ h]

lemma occupied_set : ∀ (pool : List (entry_t T)) (p : Nat) (e : entry_t T),
    p < pool.length →
    occupied (pool.set p e) + (if (pool.getD p {}).ptr.isSome then 1 else 0)
      = occupied pool + (if e.ptr.isSome then 1 else 0) := by
  intro pool
  induction pool with
  | nil => intro p e h; exact absurd h (by simp)
  | cons a l ih =>
    intro p e h
    cases p with
    | zero =>
      simp only [List.set_cons_zero, List.getD_cons_zero, occupied, List.countP_cons]
      omega
    | succ p =>
      have := ih p e (by simpa using h)
      simp only [List.set_cons_succ, List.getD_cons_succ, occupied, List.countP_cons] at this ⊢
      omega

lemma exists_vacant (pool : List (entry_t T)) (h : occupied pool < pool.length) :
    ∃ p, p < pool.length ∧ Vacant pool p := by
  unfold occupied at h
  by_contra hno
  have hall : ∀ e ∈ pool, (fun e : entry_t T => e.ptr.isSome) e = true := by
    intro e he
    obtain ⟨p, hp, rfl⟩ := List.mem_iff_getElem.1 he
    by_contra hne
    apply hno
    refine ⟨p, hp, ?_⟩
    unfold Vacant
    have : pool.getD p {} = pool[p] := by
      simp [List.getD_eq_getElem?_getD, List.getElem?_eq_getElem hp]
    rw [this]
    cases hpt : pool[p].ptr with
    | none => rfl
    | some x => simp [hpt] at hne
  have := List.countP_eq_length.2 hall
  omega

lemma occupied_replicate (n : Nat) : occupied (List.replicate n ({} : entry_t T)) = 0 := by
  unfold occupied
  rw [List.countP_replicate]
  simp

lemma vacant_replicate (n p : Nat) : Vacant (List.replicate n ({} : entry_t T)) p := by
  unfold Vacant
  rw [List.getD_eq_getElem?_getD]
  by_cases h : p < n
  · simp [List.getElem?_replicate, h]
  · simp [List.getElem?_replicate, h]

lemma poolInv_replicate (ops : Element T) (n : Nat) :
    PoolInv ops n (List.replicate n ({} : entry_t T)) where
  len := List.length_replicate _ _
  hashes := fun p _ _ h => absurd (vacant_replicate n p) (holds_not_vacant h)
  order := fun _ _ _ _ h _ => absurd (vacant_replicate n _) (holds_not_vacant h)
  unique := fun p _ _ _ _ _ h _ _ => absurd (vacant_replicate n p) (holds_not_vacant h)

/-- Putting an object into slot `p` keeps the ordering when the object differs
from all others, the slot before `p` holds an object far enough from its home,
and the object after `p` is not too far from its own. -/
lemma poolInv_put (ops : Element T) (n : Nat) (pool : List (entry_t T)) (p : Nat) (x : T)
    (g : Nat) (hn : 2 ≤ n) (hinv : PoolInv ops n pool) (hp : p < n)
    (hg : g = ops.hash x % 2 ^ 32)
    (hu : ∀ q y g', q ≠ p → Holds pool q y g' → ops.eq x y = false ∧ ops.eq y x = false)
    (hpr : dist n p g ≠ 0 → ∀ p0, p0 < n → next n p0 = p →
      ∃ y g0, Holds pool p0 y g0 ∧ dist n p g ≤ dist n p0 g0 + 1)
    (hsu : ∀ y g', Holds pool (next n p) y g' → dist n (next n p) g' ≠ 0 →
      dist n (next n p) g' ≤ dist n p g + 1) :
    PoolInv ops n (pool.set p { ptr := some x, hash := g }) := by
  have hlen : p < pool.length := by rw [hinv.len]; exact hp
  have hself := holds_set_self pool p x g hlen
  refine ⟨by rw [List.length_set, hinv.len], ?_, ?_, ?_⟩
  · intro q y g' h
    by_cases hq : p = q
    · subst hq
      obtain ⟨e1, e2⟩ := holds_fun h hself
      rw [e1, e2]
      exact hg
    · exact hinv.hashes q y g' ((holds_set_ne _ _ _ _ _ _ hq).1 h)
  · intro p1 hp1 y g' h hd
    by_cases hq : p = next n p1
    · rw [← hq] at h hd ⊢
      obtain ⟨e1, e2⟩ := holds_fun h hself
      subst e1 e2
      obtain ⟨y0, g0, h0, hle⟩ := hpr hd p1 hp1 hq.symm
      have hne : p ≠ p1 := by
        intro e
        rw [e] at hq
        exact next_ne n p1 hn hp1 hq.symm
      exact ⟨y0, g0, (holds_set_ne _ _ _ _ _ _ hne).2 h0, hle⟩
    · have h' := (holds_set_ne _ _ _ _ _ _ hq).1 h
      by_cases hq1 : p = p1
      · subst hq1
        exact ⟨x, g, hself, hsu y g' h' hd⟩
      · obtain ⟨y0, g0, h0, hle⟩ := hinv.order p1 hp1 y g' h' hd
        exact ⟨y0, g0, (holds_set_ne _ _ _ _ _ _ hq1).2 h0, hle⟩
  · intro q1 q2 y1 y2 g1 g2 h1 h2 he
    by_cases e1 : p = q1
    · by_cases e2 : p = q2
      · rw [← e1, ← e2]
      · subst e1
        obtain ⟨ex, _⟩ := holds_fun h1 hself
        subst ex
        have := (hu q2 y2 g2 (Ne.symm e2) ((holds_set_ne _ _ _ _ _ _ e2).1 h2)).1
        rw [this] at he
        exact absurd he (by simp)
    · by_cases e2 : p = q2
      · subst e2
        obtain ⟨ex, _⟩ := holds_fun h2 hself
        subst ex
        have := (hu q1 y1 g1 (Ne.symm e1) ((holds_set_ne _ _ _ _ _ _ e1).1 h1)).2
        rw [this] at he
        exact absurd he (by simp)
      · exact hinv.unique q1 q2 y1 y2 g1 g2 ((holds_set_ne _ _ _ _ _ _ e1).1 h1)
          ((holds_set_ne _ _ _ _ _ _ e2).1 h2) he

/-- Along the probe sequence of a stored object, every slot before it holds an
object at least as far from its own home. -/
lemma probe_chain (ops : Element T) (n : Nat) (pool : List (entry_t T))
    (hinv : PoolInv ops n pool) (q : Nat) (x : T) (g : Nat) (hx : Holds pool q x g) :
    ∀ k, k ≤ dist n q g →
      ∃ y g', Holds pool ((g + (dist n q g - k)) % n) y g' ∧
        dist n q g - k ≤ dist n ((g + (dist n q g - k)) % n) g' := by
  have hq : q < n := by rw [← hinv.len]; exact holds_lt hx
  have hn : 0 < n := by omega
  intro k
  induction k with
  | zero =>
    intro _
    rw [Nat.sub_zero, probe_dist n q g hq]
    exact ⟨x, g, hx, le_refl _⟩
  | succ k ih =>
    intro hk
    obtain ⟨y, g', hy, hle⟩ := ih (by omega)
    have hj : dist n q g - k = (dist n q g - (k + 1)) + 1 := by omega
    have hnext : next n ((g + (dist n q g - (k + 1))) % n) = (g + (dist n q g - k)) % n := by
      rw [next_probe, hj]
      rfl
    rw [← hnext] at hy hle
    have hne : dist n (next n ((g + (dist n q g - (k + 1))) % n)) g' ≠ 0 := by omega
    obtain ⟨z, g0, hz, hle0⟩ := hinv.order _ (probe_lt n _ _ hn) y g' hy hne
    exact ⟨z, g0, hz, by omega⟩

end hashset

/-! ## Lemmas: the walk shared by `find`, `insert` and `remove` -/

namespace hashset

variable {T : Type}

lemma walked_succ (ops : Element T) (n hash : Nat) (pool : List (entry_t T)) (value : T)
    (i : Nat) (y : T) (g : Nat) (hw : Walked ops n hash pool value i)
    (hy : Holds pool ((hash + i) % n) y g) (ht : ¬ (g = hash ∧ ops.eq y value = true))
    (hd : i ≤ dist n ((hash + i) % n) g) : Walked ops n hash pool value (i + 1) := by
  intro j hj
  by_cases e : j = i
  · subst e
    exact ⟨y, g, hy, ht, hd⟩
  · exact hw j (by omega)

/-- Where the walk stops, and what it has passed. -/
lemma probe_spec (ops : Element T) (n hash : Nat) (pool : List (entry_t T)) (value : T) :
    ∀ (remaining i : Nat), i + remaining = n → Walked ops n hash pool value i →
    match probe ops n hash pool value remaining i with
    | .found i' x => i ≤ i' ∧ i' < n ∧ Holds pool ((hash + i') % n) x hash ∧
        ops.eq x value = true ∧ Walked ops n hash pool value i'
    | .vacant i' => i ≤ i' ∧ i' < n ∧ Vacant pool ((hash + i') % n) ∧
        Walked ops n hash pool value i'
    | .rich i' y g => i ≤ i' ∧ i' < n ∧ i' ≠ 0 ∧ Holds pool ((hash + i') % n) y g ∧
        ¬ (g = hash ∧ ops.eq y value = true) ∧ dist n ((hash + i') % n) g < i' ∧
        Walked ops n hash pool value i'
    | .exhausted => Walked ops n hash pool value n := by
  intro remaining
  induction remaining with
  | zero =>
    intro i hi hw
    have e : i = n := by omega
    subst e
    simp only [probe]
    exact hw
  | succ remaining ih =>
    intro i hi hw
    unfold probe
    cases hptr : (pool.getD ((hash + i) % n) {}).ptr with
    | none =>
      simp only
      exact ⟨le_refl _, by omega, hptr, hw⟩
    | some x =>
      simp only
      have hx : Holds pool ((hash + i) % n) x (pool.getD ((hash + i) % n) {}).hash :=
        ⟨hptr, rfl⟩
      by_cases ht : (pool.getD ((hash + i) % n) {}).hash = hash ∧ ops.eq x value = true
      · rw [if_pos ht]
        simp only
        exact ⟨le_refl _, by omega, ⟨hptr, ht.1⟩, ht.2, hw⟩
      · rw [if_neg ht]
        by_cases hr : i ≠ 0 ∧ dist n ((hash + i) % n) (pool.getD ((hash + i) % n) {}).hash < i
        · rw [if_pos hr]
          simp only
          exact ⟨le_refl _, by omega, hr.1, hx, ht, hr.2, hw⟩
        · rw [if_neg hr]
          have hd : i ≤ dist n ((hash + i) % n) (pool.getD ((hash + i) % n) {}).hash := by
            by_cases h0 : i = 0
            · omega
            · by_contra hlt
              exact hr ⟨h0, by omega⟩
          have hw1 := walked_succ ops n hash pool value i x _ hw hx ht hd
          have := ih (i + 1) (by omega) hw1
          revert this
          cases probe ops n hash pool value remaining (i + 1) with
          | found i' x' => simp only; intro h; exact ⟨by omega, h.2⟩
          | vacant i' => simp only; intro h; exact ⟨by omega, h.2⟩
          | rich i' y' g' => simp only; intro h; exact ⟨by omega, h.2⟩
          | exhausted => simp only; intro h; exact h

/-- When the walk stops at an empty slot or at an object closer to its home, no
stored object is equal to the value. -/
lemma probe_absent (ops : Element T) (law : Lawful ops) (n hash : Nat)
    (pool : List (entry_t T)) (value : T) (hinv : PoolInv ops n pool)
    (hh : hash = ops.hash value % 2 ^ 32) (i : Nat) (_hi : i < n)
    (hw : Walked ops n hash pool value i)
    (hstop : Vacant pool ((hash + i) % n) ∨
      ∃ y g, Holds pool ((hash + i) % n) y g ∧ dist n ((hash + i) % n) g < i) :
    ∀ q x g, Holds pool q x g → ops.eq x value = false := by
  intro q x g hx
  by_contra hne
  have heq : ops.eq x value = true := by
    cases h : ops.eq x value with
    | true => rfl
    | false => exact absurd h hne
  have hq : q < n := by rw [← hinv.len]; exact holds_lt hx
  have hg : g = hash := by
    rw [hinv.hashes q x g hx, hh]
    exact law.hash_eq x value heq
  subst hg
  by_cases hd : dist n q g < i
  · obtain ⟨y, g', hy, ht, _⟩ := hw (dist n q g) hd
    rw [probe_dist n q g hq] at hy
    obtain ⟨e1, e2⟩ := holds_fun hy hx
    subst e1 e2
    exact ht ⟨rfl, heq⟩
  · obtain ⟨y, g', hy, hle⟩ := probe_chain ops n pool hinv q x g hx (dist n q g - i) (by omega)
    have e : dist n q g - (dist n q g - i) = i := by omega
    rw [e] at hy hle
    rcases hstop with hv | ⟨z, g0, hz, hlt⟩
    · exact holds_not_vacant hy hv
    · obtain ⟨_, e2⟩ := holds_fun hy hz
      subst e2
      omega

lemma probe_not_exhausted (ops : Element T) (n hash : Nat) (pool : List (entry_t T))
    (value : T) (hw : Walked ops n hash pool value n) (p : Nat) (hp : p < n) :
    ¬ Vacant pool p := by
  obtain ⟨i, hi, e⟩ := slot_on_probe n p hash hp
  obtain ⟨y, g, hy, _⟩ := hw i hi
  rw [e] at hy
  exact holds_not_vacant hy

/-- The loop of `find` follows the walk. -/
lemma findLoop_eq (ops : Element T) (k : Nat) (hk : k ≤ 32) (hash : Nat)
    (pool : List (entry_t T)) (value : T) : ∀ (remaining i : Nat),
    findLoop ops (2 ^ k) hash pool value remaining i
      = match probe ops (2 ^ k) hash pool value remaining i with
        | .found _ x => some x
        | _ => none := by
  intro remaining
  induction remaining with
  | zero => intro i; rfl
  | succ remaining ih =>
    intro i
    unfold findLoop probe
    simp only [mask_add k hk, mask_sub k hk]
    cases hptr : (pool.getD ((hash + i) % 2 ^ k) {}).ptr with
    | none => rfl
    | some x =>
      simp only
      split
      · rfl
      · split
        · rfl
        · exact ih (i + 1)

/-- The walk from the start stops at the stored object equal to the value, when
there is one and the pool has an empty slot. -/
lemma probe_found (ops : Element T) (law : Lawful ops) (n hash : Nat)
    (pool : List (entry_t T)) (value : T) (hinv : PoolInv ops n pool)
    (hh : hash = ops.hash value % 2 ^ 32) (p : Nat) (hp : p < n) (hv : Vacant pool p)
    (q : Nat) (x : T) (g : Nat) (hx : Holds pool q x g) (heq : ops.eq x value = true) :
    ∃ i, probe ops n hash pool value n 0 = .found i x ∧ i < n ∧ (hash + i) % n = q := by
  have hspec := probe_spec ops n hash pool value n 0 (by omega) (fun j hj => absurd hj (by omega))
  cases hpr : probe ops n hash pool value n 0 with
  | found i x' =>
    rw [hpr] at hspec
    simp only at hspec
    obtain ⟨_, hi, hx', heq', _⟩ := hspec
    have hxx : ops.eq x' x = true := law.trans _ _ _ heq' (law.symm _ _ heq)
    have hslot := hinv.unique _ _ _ _ _ _ hx' hx hxx
    rw [hslot] at hx'
    obtain ⟨e, _⟩ := holds_fun hx' hx
    subst e
    exact ⟨i, rfl, hi, hslot⟩
  | vacant i =>
    rw [hpr] at hspec
    simp only at hspec
    obtain ⟨_, hi, hvac, hw⟩ := hspec
    have := probe_absent ops law n hash pool value hinv hh i hi hw (Or.inl hvac) q x g hx
    rw [this] at heq
    exact absurd heq (by simp)
  | rich i y g' =>
    rw [hpr] at hspec
    simp only at hspec
    obtain ⟨_, hi, _, hy, _, hlt, hw⟩ := hspec
    have := probe_absent ops law n hash pool value hinv hh i hi hw
      (Or.inr ⟨y, g', hy, hlt⟩) q x g hx
    rw [this] at heq
    exact absurd heq (by simp)
  | exhausted =>
    rw [hpr] at hspec
    simp only at hspec
    exact absurd hv (probe_not_exhausted ops n hash pool value hspec p hp)

end hashset

/-! ## Lemmas: `hashset::insert` -/

namespace hashset

variable {T : Type}

lemma has_split (pool : List (entry_t T)) (p : Nat) (w : T) :
    Has pool w ↔ (∃ q, q ≠ p ∧ (pool.getD q {}).ptr = some w) ∨
      (pool.getD p {}).ptr = some w := by
  constructor
  · rintro ⟨q, hq⟩
    by_cases e : q = p
    · subst e; exact Or.inr hq
    · exact Or.inl ⟨q, e, hq⟩
  · rintro (⟨q, _, hq⟩ | h)
    · exact ⟨q, hq⟩
    · exact ⟨p, h⟩

lemma has_set (pool : List (entry_t T)) (p : Nat) (e : entry_t T) (w : T)
    (hp : p < pool.length) :
    Has (pool.set p e) w ↔ (∃ q, q ≠ p ∧ (pool.getD q {}).ptr = some w) ∨ e.ptr = some w := by
  rw [has_split (pool.set p e) p w, getD_set_self _ _ _ _ hp]
  constructor
  · rintro (⟨q, hq, h⟩ | h)
    · rw [getD_set_ne _ _ _ _ _ (Ne.symm hq)] at h
      exact Or.inl ⟨q, hq, h⟩
    · exact Or.inr h
  · rintro (⟨q, hq, h⟩ | h)
    · refine Or.inl ⟨q, hq, ?_⟩
      rw [getD_set_ne _ _ _ _ _ (Ne.symm hq)]
      exact h
    · exact Or.inr h

lemma not_eq_of_false (ops : Element T) (law : Lawful ops) (x y : T)
    (h : ops.eq y x = false) : ops.eq x y = false ∧ ops.eq y x = false := by
  refine ⟨?_, h⟩
  cases hxy : ops.eq x y with
  | false => rfl
  | true =>
    rw [law.symm x y hxy] at h
    exact absurd h (by simp)

/-- The second part of the loop of `insert`: once an object has been taken out
of its slot, every further occupied slot is exchanged with the held object,
until an empty slot takes it.  The ordering is kept and the held object is
added. -/
lemma insertLoop_shift (ops : Element T) (law : Lawful ops) (k : Nat) (hk3 : 3 ≤ k)
    (hk : k ≤ 32) (hash : Nat) (ptr : T) (count : Nat) :
    ∀ (remaining i0 : Nat) (x : T) (g : Nat) (pool : List (entry_t T)),
    i0 + 1 + remaining = 2 ^ k →
    PoolInv ops (2 ^ k) pool →
    g = ops.hash x % 2 ^ 32 →
    (∀ q y g', Holds pool q y g' → ops.eq y x = false) →
    dist (2 ^ k) ((hash + (i0 + 1)) % 2 ^ k) g < i0 + 1 →
    (∃ y0 g0, Holds pool ((hash + i0) % 2 ^ k) y0 g0 ∧
      dist (2 ^ k) ((hash + (i0 + 1)) % 2 ^ k) g
        ≤ dist (2 ^ k) ((hash + i0) % 2 ^ k) g0 + 1) →
    (∀ y g', Holds pool ((hash + (i0 + 1)) % 2 ^ k) y g' →
      dist (2 ^ k) ((hash + (i0 + 1)) % 2 ^ k) g'
        ≤ dist (2 ^ k) ((hash + (i0 + 1)) % 2 ^ k) g) →
    (∃ j, i0 + 1 ≤ j ∧ j < 2 ^ k ∧ Vacant pool ((hash + j) % 2 ^ k)) →
    ∃ pool1, insertLoop ops (2 ^ k) hash ptr remaining (i0 + 1) x g pool count
        = (pool1, (count + 1) % 2 ^ 32, some ptr) ∧
      PoolInv ops (2 ^ k) pool1 ∧ occupied pool1 = occupied pool + 1 ∧
      (∀ w, Has pool1 w ↔ Has pool w ∨ w = x) := by
  have hn8 : 8 ≤ 2 ^ k := by
    calc 8 = 2 ^ 3 := by norm_num
      _ ≤ 2 ^ k := Nat.pow_le_pow_right (by norm_num) hk3
  intro remaining
  induction remaining with
  | zero =>
    intro i0 x g pool hi _ _ _ _ _ _ hvac
    obtain ⟨j, h1, h2, _⟩ := hvac
    omega
  | succ remaining ih =>
    intro i0 x g pool hi hinv hg hne hc hpred hres hvac
    have hσ : (hash + (i0 + 1)) % 2 ^ k < 2 ^ k := probe_lt _ _ _ (by omega)
    have hσ0 : (hash + i0) % 2 ^ k < 2 ^ k := probe_lt _ _ _ (by omega)
    have hlen : (hash + (i0 + 1)) % 2 ^ k < pool.length := by rw [hinv.len]; exact hσ
    have hnx : next (2 ^ k) ((hash + i0) % 2 ^ k) = (hash + (i0 + 1)) % 2 ^ k :=
      next_probe _ _ _
    have hnx1 : next (2 ^ k) ((hash + (i0 + 1)) % 2 ^ k) = (hash + (i0 + 1 + 1)) % 2 ^ k :=
      next_probe _ _ _
    -- the held object can be put into the slot of this step
    have hput : PoolInv ops (2 ^ k)
        (pool.set ((hash + (i0 + 1)) % 2 ^ k) { ptr := some x, hash := g }) := by
      apply poolInv_put ops (2 ^ k) pool _ x g (by omega) hinv hσ hg
      · intro q y g' _ hy
        exact not_eq_of_false ops law x y (hne q y g' hy)
      · intro _ p0 hp0 hp0n
        have : p0 = (hash + i0) % 2 ^ k := next_inj _ _ _ hp0 hσ0 (hp0n.trans hnx.symm)
        subst this
        exact hpred
      · intro y g' hy hd
        obtain ⟨z, g0, hz, hle⟩ := hinv.order _ hσ y g' hy hd
        have := hres z g0 hz
        omega
    unfold insertLoop
    simp only [mask_add k hk, mask_sub k hk]
    rcases holds_or_vacant pool ((hash + (i0 + 1)) % 2 ^ k) with hv | ⟨y, g', hy⟩
    · -- an empty slot takes the held object
      rw [show (pool.getD ((hash + (i0 + 1)) % 2 ^ k) {}).ptr = none from hv]
      simp only
      refine ⟨_, rfl, hput, ?_, ?_⟩
      · have := occupied_set pool _ { ptr := some x, hash := g } hlen
        rw [show (pool.getD ((hash + (i0 + 1)) % 2 ^ k) {}).ptr = none from hv] at this
        simpa using this
      · intro w
        rw [has_set pool _ _ w hlen, has_split pool ((hash + (i0 + 1)) % 2 ^ k) w,
          show (pool.getD ((hash + (i0 + 1)) % 2 ^ k) {}).ptr = none from hv]
        simp only [Option.some.injEq, reduceCtorEq, or_false]
        constructor
        · rintro (h | h)
          · exact Or.inl h
          · exact Or.inr h.symm
        · rintro (h | h)
          · exact Or.inl h
          · exact Or.inr h.symm
    · -- an occupied slot is exchanged
      rw [hy.1]
      simp only
      have htest : ¬ ((pool.getD ((hash + (i0 + 1)) % 2 ^ k) {}).hash = g ∧
          ops.eq y x = true) := by
        intro h
        rw [hne _ y g' hy] at h
        exact absurd h.2 (by simp)
      rw [if_neg htest]
      have hr : dist (2 ^ k) ((hash + (i0 + 1)) % 2 ^ k) g' ≤
          dist (2 ^ k) ((hash + (i0 + 1)) % 2 ^ k) g := hres y g' hy
      rw [hy.2]
      have hswap : i0 + 1 ≠ 0 ∧ dist (2 ^ k) ((hash + (i0 + 1)) % 2 ^ k) g' < i0 + 1 :=
        ⟨by omega, by omega⟩
      rw [if_pos hswap]
      -- the empty slot is further on
      obtain ⟨j, hj1, hj2, hjv⟩ := hvac
      have hjne : j ≠ i0 + 1 := by
        intro e
        rw [e] at hjv
        exact holds_not_vacant hy hjv
      have hd1 : dist (2 ^ k) ((hash + (i0 + 1 + 1)) % 2 ^ k) g'
          = dist (2 ^ k) ((hash + (i0 + 1)) % 2 ^ k) g' + 1 := by
        rw [← hnx1, dist_next _ _ _ hσ]
        exact Nat.mod_eq_of_lt (by omega)
      have hself := holds_set_self pool ((hash + (i0 + 1)) % 2 ^ k) x g hlen
      have hne1 : (hash + (i0 + 1)) % 2 ^ k ≠ (hash + (i0 + 1 + 1)) % 2 ^ k := by
        intro e
        have := probe_inj _ _ _ _ (by omega) (by omega) e
        omega
      obtain ⟨pool1, hrun, hinv1, hocc1, hhas1⟩ := ih (i0 + 1) y g'
        (pool.set ((hash + (i0 + 1)) % 2 ^ k) { ptr := some x, hash := g })
        (by omega) hput (hinv.hashes _ y g' hy)
        (by
          intro q z g0 hz
          by_cases e : (hash + (i0 + 1)) % 2 ^ k = q
          · subst e
            obtain ⟨e1, _⟩ := holds_fun hz hself
            subst e1
            exact (not_eq_of_false ops law z y (hne _ y g' hy)).1
          · have hz' := (holds_set_ne _ _ _ _ _ _ e).1 hz
            cases hzy : ops.eq z y with
            | false => rfl
            | true => exact absurd (hinv.unique _ _ _ _ _ _ hz' hy hzy) (Ne.symm e))
        (by omega)
        ⟨x, g, hself, by omega⟩
        (by
          intro z g0 hz
          have hz' := (holds_set_ne _ _ _ _ _ _ hne1).1 hz
          by_cases hd0 : dist (2 ^ k) ((hash + (i0 + 1 + 1)) % 2 ^ k) g0 = 0
          · omega
          · rw [← hnx1] at hz' hd0
            obtain ⟨z1, g1, hz1, hle⟩ := hinv.order _ hσ z g0 hz' hd0
            obtain ⟨_, e2⟩ := holds_fun hz1 hy
            subst e2
            rw [hnx1] at hle
            omega)
        ⟨j, by omega, hj2, by
          have hne2 : (hash + (i0 + 1)) % 2 ^ k ≠ (hash + j) % 2 ^ k := by
            intro e
            have := probe_inj _ _ _ _ (by omega) hj2 e
            omega
          exact (vacant_set_ne _ _ _ _ hne2).2 hjv⟩
      refine ⟨pool1, hrun, hinv1, ?_, ?_⟩
      · have := occupied_set pool _ { ptr := some x, hash := g } hlen
        rw [hy.1] at this
        simp only [Option.isSome_some, if_true] at this
        omega
      · intro w
        rw [hhas1 w, has_set pool _ _ w hlen,
          has_split pool ((hash + (i0 + 1)) % 2 ^ k) w, hy.1]
        simp only [Option.some.injEq]
        constructor
        · rintro ((h | h) | h)
          · exact Or.inl (Or.inl h)
          · exact Or.inr h.symm
          · exact Or.inl (Or.inr h.symm)
        · rintro ((h | h) | h)
          · exact Or.inl (Or.inl h)
          · exact Or.inr h.symm
          · exact Or.inl (Or.inr h.symm)

/-- The first part of the loop of `insert` follows the walk. -/
lemma insertLoop_probe (ops : Element T) (k : Nat) (hk : k ≤ 32) (hash : Nat)
    (pool : List (entry_t T)) (value : T) (count : Nat) : ∀ (remaining i : Nat),
    i + remaining = 2 ^ k →
    insertLoop ops (2 ^ k) hash value remaining i value hash pool count
      = match probe ops (2 ^ k) hash pool value remaining i with
        | .found _ _ => (pool, count, some value)
        | .vacant i' =>
          (pool.set ((hash + i') % 2 ^ k) { ptr := some value, hash := hash },
            (count + 1) % 2 ^ 32, some value)
        | .rich i' y g =>
          insertLoop ops (2 ^ k) hash value (2 ^ k - (i' + 1)) (i' + 1) y g
            (pool.set ((hash + i') % 2 ^ k) { ptr := some value, hash := hash }) count
        | .exhausted => (pool, count, none) := by
  intro remaining
  induction remaining with
  | zero => intro i _; rfl
  | succ remaining ih =>
    intro i hi
    rw [insertLoop, probe]
    simp only [mask_add k hk, mask_sub k hk]
    cases hptr : (pool.getD ((hash + i) % 2 ^ k) {}).ptr with
    | none => rfl
    | some x =>
      simp only
      split
      · rfl
      · split
        · have e : 2 ^ k - (i + 1) = remaining := by omega
          simp only [e]
        · exact ih (i + 1) (by omega)


/-- The loop of `insert` on an ordered pool with an empty slot: an equal stored
object leaves the pool as it is; otherwise the value is added, the ordering is
kept, and the path after the loop is not taken. -/
lemma insertLoop_start (ops : Element T) (law : Lawful ops) (k : Nat) (hk3 : 3 ≤ k)
    (hk : k ≤ 32) (hash : Nat) (value : T) (count : Nat) (pool : List (entry_t T))
    (hinv : PoolInv ops (2 ^ k) pool) (hh : hash = ops.hash value % 2 ^ 32)
    (p : Nat) (hp : p < 2 ^ k) (hv : Vacant pool p) :
    ((∃ q x g, Holds pool q x g ∧ ops.eq x value = true) →
      insertLoop ops (2 ^ k) hash value (2 ^ k) 0 value hash pool count
        = (pool, count, some value)) ∧
    ((¬ ∃ q x g, Holds pool q x g ∧ ops.eq x value = true) →
      ∃ pool1, insertLoop ops (2 ^ k) hash value (2 ^ k) 0 value hash pool count
          = (pool1, (count + 1) % 2 ^ 32, some value) ∧
        PoolInv ops (2 ^ k) pool1 ∧ occupied pool1 = occupied pool + 1 ∧
        (∀ w, Has pool1 w ↔ Has pool w ∨ w = value)) := by
  have hn8 : 8 ≤ 2 ^ k := by
    calc 8 = 2 ^ 3 := by norm_num
      _ ≤ 2 ^ k := Nat.pow_le_pow_right (by norm_num) hk3
  have hrun := insertLoop_probe ops k hk hash pool value count (2 ^ k) 0 (by omega)
  have hspec := probe_spec ops (2 ^ k) hash pool value (2 ^ k) 0 (by omega)
    (fun j hj => absurd hj (by omega))
  constructor
  · rintro ⟨q, x, g, hx, heq⟩
    obtain ⟨i, hpr, _⟩ := probe_found ops law (2 ^ k) hash pool value hinv hh p hp hv q x g hx heq
    rw [hrun, hpr]
  · intro hno
    have habs : ∀ q y g', Holds pool q y g' → ops.eq y value = false := by
      intro q y g' hy
      cases h : ops.eq y value with
      | false => rfl
      | true => exact absurd ⟨q, y, g', hy, h⟩ hno
    -- what putting the value into the slot of step `i` needs
    have hput : ∀ i, i < 2 ^ k → Walked ops (2 ^ k) hash pool value i →
        (∀ y g', Holds pool (next (2 ^ k) ((hash + i) % 2 ^ k)) y g' →
          dist (2 ^ k) (next (2 ^ k) ((hash + i) % 2 ^ k)) g' ≠ 0 →
          dist (2 ^ k) (next (2 ^ k) ((hash + i) % 2 ^ k)) g' ≤ i + 1) →
        PoolInv ops (2 ^ k) (pool.set ((hash + i) % 2 ^ k) { ptr := some value, hash := hash }) := by
      intro i hi hw hsu
      have hdi : dist (2 ^ k) ((hash + i) % 2 ^ k) hash = i := by
        rw [dist_probe _ _ _ (by omega)]
        exact Nat.mod_eq_of_lt hi
      apply poolInv_put ops (2 ^ k) pool _ value hash (by omega) hinv
        (probe_lt _ _ _ (by omega)) hh
      · intro q y g' _ hy
        exact not_eq_of_false ops law value y (habs q y g' hy)
      · intro hd p0 hp0 hp0n
        rw [hdi] at hd ⊢
        obtain ⟨y, g0, hy, _, hle⟩ := hw (i - 1) (by omega)
        have hnx : next (2 ^ k) ((hash + (i - 1)) % 2 ^ k) = (hash + i) % 2 ^ k := by
          rw [next_probe]
          congr 1
          omega
        have : p0 = (hash + (i - 1)) % 2 ^ k :=
          next_inj _ _ _ hp0 (probe_lt _ _ _ (by omega)) (hp0n.trans hnx.symm)
        subst this
        exact ⟨y, g0, hy, by omega⟩
      · intro y g' hy hd
        rw [hdi]
        exact hsu y g' hy hd
    cases hpr : probe ops (2 ^ k) hash pool value (2 ^ k) 0 with
    | found i x =>
      rw [hpr] at hspec
      simp only at hspec
      obtain ⟨_, _, hx, heq, _⟩ := hspec
      exact absurd ⟨_, x, hash, hx, heq⟩ hno
    | exhausted =>
      rw [hpr] at hspec
      simp only at hspec
      exact absurd hv (probe_not_exhausted ops _ hash pool value hspec p hp)
    | vacant i =>
      rw [hpr] at hspec
      simp only at hspec
      obtain ⟨_, hi, hvac, hw⟩ := hspec
      have hlen : (hash + i) % 2 ^ k < pool.length := by
        rw [hinv.len]; exact probe_lt _ _ _ (by omega)
      rw [hrun, hpr]
      simp only
      refine ⟨_, rfl, ?_, ?_, ?_⟩
      · apply hput i hi hw
        intro y g' hy hd
        obtain ⟨z, g0, hz, _⟩ := hinv.order _ (probe_lt _ _ _ (by omega)) y g' hy hd
        exact absurd hvac (holds_not_vacant hz)
      · have := occupied_set pool _ { ptr := some value, hash := hash } hlen
        rw [show (pool.getD ((hash + i) % 2 ^ k) {}).ptr = none from hvac] at this
        simpa using this
      · intro w
        rw [has_set pool _ _ w hlen, has_split pool ((hash + i) % 2 ^ k) w,
          show (pool.getD ((hash + i) % 2 ^ k) {}).ptr = none from hvac]
        simp only [Option.some.injEq, reduceCtorEq, or_false]
        constructor
        · rintro (h | h)
          · exact Or.inl h
          · exact Or.inr h.symm
        · rintro (h | h)
          · exact Or.inl h
          · exact Or.inr h.symm
    | rich i y g =>
      rw [hpr] at hspec
      simp only at hspec
      obtain ⟨_, hi, hi0, hy, _, hlt, hw⟩ := hspec
      have hσ : (hash + i) % 2 ^ k < 2 ^ k := probe_lt _ _ _ (by omega)
      have hlen : (hash + i) % 2 ^ k < pool.length := by rw [hinv.len]; exact hσ
      have hnx1 : next (2 ^ k) ((hash + i) % 2 ^ k) = (hash + (i + 1)) % 2 ^ k :=
        next_probe _ _ _
      have hdi : dist (2 ^ k) ((hash + i) % 2 ^ k) hash = i := by
        rw [dist_probe _ _ _ (by omega)]
        exact Nat.mod_eq_of_lt hi
      have hinv1 : PoolInv ops (2 ^ k)
          (pool.set ((hash + i) % 2 ^ k) { ptr := some value, hash := hash }) := by
        apply hput i hi hw
        intro z g0 hz hd
        obtain ⟨z1, g1, hz1, hle⟩ := hinv.order _ hσ z g0 hz hd
        obtain ⟨_, e2⟩ := holds_fun hz1 hy
        subst e2
        omega
      have hself := holds_set_self pool ((hash + i) % 2 ^ k) value hash hlen
      have hd1 : dist (2 ^ k) ((hash + (i + 1)) % 2 ^ k) g
          = dist (2 ^ k) ((hash + i) % 2 ^ k) g + 1 := by
        rw [← hnx1, dist_next _ _ _ hσ]
        exact Nat.mod_eq_of_lt (by omega)
      have hne1 : (hash + i) % 2 ^ k ≠ (hash + (i + 1)) % 2 ^ k := by
        intro e
        by_cases hlast : i + 1 < 2 ^ k
        · have := probe_inj _ _ _ _ hi hlast e
          omega
        · rw [← hnx1] at e
          exact next_ne _ _ (by omega) hσ e.symm
      -- the empty slot is further on
      obtain ⟨j, hj, hjp⟩ := slot_on_probe (2 ^ k) p hash hp
      have hji : i + 1 ≤ j := by
        by_contra hcon
        by_cases e : j = i
        · subst e
          rw [hjp] at hy
          exact holds_not_vacant hy hv
        · obtain ⟨z, g0, hz, _⟩ := hw j (by omega)
          rw [hjp] at hz
          exact holds_not_vacant hz hv
      obtain ⟨pool1, hrun1, hinv2, hocc, hhas⟩ :=
        insertLoop_shift ops law k hk3 hk hash value count (2 ^ k - (i + 1)) i y g
          (pool.set ((hash + i) % 2 ^ k) { ptr := some value, hash := hash })
          (by omega) hinv1 (hinv.hashes _ y g hy)
          (by
            intro q z g0 hz
            by_cases e : (hash + i) % 2 ^ k = q
            · subst e
              obtain ⟨e1, _⟩ := holds_fun hz hself
              subst e1
              exact (not_eq_of_false ops law z y (habs _ y g hy)).1
            · have hz' := (holds_set_ne _ _ _ _ _ _ e).1 hz
              cases hzy : ops.eq z y with
              | false => rfl
              | true => exact absurd (hinv.unique _ _ _ _ _ _ hz' hy hzy) (Ne.symm e))
          (by omega)
          ⟨value, hash, hself, by omega⟩
          (by
            intro z g0 hz
            have hz' := (holds_set_ne _ _ _ _ _ _ hne1).1 hz
            by_cases hd0 : dist (2 ^ k) ((hash + (i + 1)) % 2 ^ k) g0 = 0
            · omega
            · rw [← hnx1] at hz' hd0
              obtain ⟨z1, g1, hz1, hle⟩ := hinv.order _ hσ z g0 hz' hd0
              obtain ⟨_, e2⟩ := holds_fun hz1 hy
              subst e2
              rw [hnx1] at hle
              omega)
          ⟨j, hji, hj, by
            have hne2 : (hash + i) % 2 ^ k ≠ (hash + j) % 2 ^ k := by
              intro e
              have := probe_inj _ _ _ _ hi hj e
              omega
            rw [hjp]
            rw [hjp] at hne2
            exact (vacant_set_ne _ _ _ _ hne2).2 hv⟩
      rw [hrun, hpr]
      simp only
      refine ⟨pool1, hrun1, hinv2, ?_, ?_⟩
      · have := occupied_set pool _ { ptr := some value, hash := hash } hlen
        rw [hy.1] at this
        simp only [Option.isSome_some, if_true] at this
        omega
      · intro w
        rw [hhas w, has_set pool _ _ w hlen, has_split pool ((hash + i) % 2 ^ k) w, hy.1]
        simp only [Option.some.injEq]
        constructor
        · rintro ((h | h) | h)
          · exact Or.inl (Or.inl h)
          · exact Or.inr h.symm
          · exact Or.inl (Or.inr h.symm)
        · rintro ((h | h) | h)
          · exact Or.inl (Or.inl h)
          · exact Or.inr h.symm
          · exact Or.inl (Or.inr h.symm)

lemma has_iff_holds (pool : List (entry_t T)) (x : T) :
    Has pool x ↔ ∃ q g, Holds pool q x g := by
  constructor
  · rintro ⟨q, h⟩
    exact ⟨q, _, h, rfl⟩
  · rintro ⟨q, g, h⟩
    exact ⟨q, h.1⟩

/-- The part of `insert` after the growth of the pool, on a set whose pool is
allocated and whose load is below one half. -/
lemma insert_core (ops : Element T) (law : Lawful ops) (s : hashset T)
    (pool : List (entry_t T)) (hs : s.pool = some pool) (hinv : Inv ops s)
    (hload : 2 * (s.count + 1) ≤ s.length) (value : T) :
    ∃ pool1 count1,
      insertLoop ops s.length (ops.hash value % 2 ^ 32) value s.length 0 value
          (ops.hash value % 2 ^ 32) pool s.count = (pool1, count1, some value) ∧
      Inv ops { s with pool := some pool1, count := count1 } ∧
      ((∃ x, Has pool x ∧ ops.eq x value = true) →
        count1 = s.count ∧ pool1 = pool) ∧
      ((¬ ∃ x, Has pool x ∧ ops.eq x value = true) →
        count1 = s.count + 1 ∧ ∀ w, Has pool1 w ↔ Has pool w ∨ w = value) := by
  obtain ⟨k, hk3, hk31, hlen⟩ := hinv.pow
  obtain ⟨hpinv, hcount⟩ := hinv.pool pool hs
  rw [hlen] at hpinv hload ⊢
  have hocc : occupied pool < pool.length := by
    rw [hpinv.len, ← hcount]; omega
  obtain ⟨p, hp, hv⟩ := exists_vacant pool hocc
  rw [hpinv.len] at hp
  obtain ⟨hA, hB⟩ := insertLoop_start ops law k hk3 (by omega) (ops.hash value % 2 ^ 32) value
    s.count pool hpinv rfl p hp hv
  have hle : 2 ^ k ≤ 2 ^ 31 := Nat.pow_le_pow_right (by norm_num) hk31
  by_cases hex : ∃ x, Has pool x ∧ ops.eq x value = true
  · obtain ⟨x, hx, heq⟩ := hex
    obtain ⟨q, g, hq⟩ := (has_iff_holds pool x).1 hx
    refine ⟨pool, s.count, hA ⟨q, x, g, hq, heq⟩, ?_, fun _ => ⟨rfl, rfl⟩, ?_⟩
    · exact ⟨⟨k, hk3, hk31, rfl⟩, by simp only; omega,
        fun pl hpl => by
          simp only [Option.some.injEq] at hpl
          subst hpl
          exact ⟨hpinv, hcount⟩,
        fun h => by simp at h⟩
    · intro hno
      exact absurd ⟨x, hx, heq⟩ hno
  · have hno : ¬ ∃ q x g, Holds pool q x g ∧ ops.eq x value = true := by
      rintro ⟨q, x, g, hq, heq⟩
      exact hex ⟨x, (has_iff_holds pool x).2 ⟨q, g, hq⟩, heq⟩
    obtain ⟨pool1, hrun, hinv1, hocc1, hhas⟩ := hB hno
    have hmod : (s.count + 1) % 2 ^ 32 = s.count + 1 := Nat.mod_eq_of_lt (by omega)
    refine ⟨pool1, s.count + 1, by rw [hrun, hmod], ?_, fun h => absurd h hex,
      fun _ => ⟨rfl, hhas⟩⟩
    exact ⟨⟨k, hk3, hk31, rfl⟩, by simp only; omega,
      fun pl hpl => by
        simp only [Option.some.injEq] at hpl
        subst hpl
        exact ⟨hinv1, by simp only; omega⟩,
      fun h => by simp at h⟩

lemma stored_some (s : hashset T) (pool : List (entry_t T)) (hs : s.pool = some pool) (w : T) :
    Stored s w ↔ Has pool w := by
  unfold Stored
  constructor
  · rintro ⟨pl, hpl, h⟩
    rw [hs] at hpl
    injection hpl with hpl
    rw [hpl]
    exact h
  · intro h
    exact ⟨pool, hs, h⟩

lemma stored_none (s : hashset T) (hs : s.pool = none) (w : T) : ¬ Stored s w := by
  rintro ⟨pl, hpl, _⟩
  rw [hs] at hpl
  exact absurd hpl (by simp)

lemma not_has_replicate (n : Nat) (w : T) : ¬ Has (List.replicate n ({} : entry_t T)) w := by
  rintro ⟨p, h⟩
  have := vacant_replicate (T := T) n p
  rw [Vacant, h] at this
  exact absurd this (by simp)

/-- The first statement of `insert`: a null pool is allocated. -/
lemma materialize (ops : Element T) (s : hashset T) (hinv : Inv ops s) :
    ∃ pool, (match s.pool with
        | none => ({ s with pool := some (List.replicate s.length {}) } : hashset T)
        | some _ => s) = { s with pool := some pool } ∧
      Inv ops { s with pool := some pool } ∧ ∀ w, Has pool w ↔ Stored s w := by
  cases hs : s.pool with
  | none =>
    refine ⟨List.replicate s.length {}, rfl, ?_, ?_⟩
    · refine ⟨hinv.pow, hinv.load, ?_, fun h => by simp at h⟩
      intro pl hpl
      simp only [Option.some.injEq] at hpl
      subst hpl
      exact ⟨poolInv_replicate ops _, by rw [occupied_replicate]; exact hinv.null hs⟩
    · intro w
      constructor
      · intro h
        exact absurd h (not_has_replicate _ w)
      · intro h
        exact absurd h (stored_none s hs w)
  | some pool =>
    have e : ({ s with pool := some pool } : hashset T) = s := by
      cases s
      simp only at hs
      rw [hs]
    refine ⟨pool, e.symm, e.symm ▸ hinv, fun w => (stored_some s pool hs w).symm⟩

/-- `insert` on a set whose load stays at most one half: the pool does not
grow. -/
lemma insert_small (ops : Element T) (law : Lawful ops) (fuel : Nat) (s : hashset T)
    (hinv : Inv ops s) (hload : 2 * (s.count + 1) ≤ s.length) (value : T) :
    ∃ s1, insert ops (fuel + 1) s value = some (s1, some value) ∧ InsertOK ops s value s1 ∧
      s1.length = s.length := by
  obtain ⟨pool, hmat, hinv1, hhas⟩ := materialize ops s hinv
  obtain ⟨pool1, count1, hrun, hinv2, hA, hB⟩ :=
    insert_core ops law { s with pool := some pool } pool rfl hinv1 hload value
  simp only at hrun
  have hcond : ¬ (s.count ≥ s.length / 2) := by omega
  refine ⟨{ s with pool := some pool1, count := count1 }, ?_, ?_, rfl⟩
  · rw [insert]
    simp only [hmat, hcond, if_false, Option.getD_some, hrun]
  · refine ⟨hinv2, Or.inl rfl, by simp, ?_, ?_⟩
    · rintro ⟨x, hx, heq⟩
      obtain ⟨h1, h2⟩ := hA ⟨x, (hhas x).2 hx, heq⟩
      refine ⟨h1, fun w => ?_⟩
      rw [stored_some _ pool1 rfl, h2]
      exact hhas w
    · intro hno
      have hno' : ¬ ∃ x, Has pool x ∧ ops.eq x value = true := by
        rintro ⟨x, hx, heq⟩
        exact hno ⟨x, (hhas x).1 hx, heq⟩
      obtain ⟨h1, h2⟩ := hB hno'
      refine ⟨h1, fun w => ?_⟩
      rw [stored_some _ pool1 rfl, h2, hhas]

lemma map_getD_range (pool : List (entry_t T)) :
    ((List.range pool.length).map fun n => pool.getD n {}) = pool := by
  apply List.ext_getElem
  · simp
  · intro i h1 h2
    simp [List.getD_eq_getElem?_getD, List.getElem?_eq_getElem h2]

lemma entries_eq (s : hashset T) (pool : List (entry_t T)) (hs : s.pool = some pool)
    (hlen : pool.length = s.length) (hc : s.count ≠ 0) :
    entries s = pool.filter fun e => e.ptr.isSome := by
  unfold entries
  rw [hs]
  simp only [hc, if_false]
  rw [← hlen, map_getD_range]

lemma mem_pool_iff (pool : List (entry_t T)) (w : T) :
    (∃ e, e ∈ pool ∧ e.ptr = some w) ↔ Has pool w := by
  constructor
  · rintro ⟨e, he, hw⟩
    obtain ⟨p, hp, rfl⟩ := List.mem_iff_getElem.1 he
    refine ⟨p, ?_⟩
    rw [List.getD_eq_getElem?_getD, List.getElem?_eq_getElem hp]
    exact hw
  · rintro ⟨p, hw⟩
    have hp : p < pool.length := by
      by_contra hn
      rw [List.getD_eq_getElem?_getD, List.getElem?_eq_none (by omega)] at hw
      exact absurd hw (by simp)
    rw [List.getD_eq_getElem?_getD, List.getElem?_eq_getElem hp] at hw
    exact ⟨pool[p], List.getElem_mem _, hw⟩

/-- The loop of `reserve`: objects that differ from each other and from the
stored ones are inserted one by one into a pool that is large enough. -/
lemma reinsert (ops : Element T) (law : Lawful ops) (fuel : Nat) :
    ∀ (l : List (entry_t T)) (acc : hashset T),
    Inv ops acc →
    (∀ e ∈ l, ∃ x, e.ptr = some x) →
    l.Pairwise (fun e f => ∀ x y, e.ptr = some x → f.ptr = some y → ops.eq x y = false) →
    (∀ e ∈ l, ∀ x, e.ptr = some x → ∀ y, Stored acc y → ops.eq y x = false) →
    2 * (acc.count + l.length) ≤ acc.length →
    ∃ acc1, l.foldlM (fun acc entry =>
          match entry.ptr with
          | none => some acc
          | some x => (insert ops (fuel + 1) acc x).map Prod.fst) acc = some acc1 ∧
      Inv ops acc1 ∧ acc1.length = acc.length ∧ acc1.count = acc.count + l.length ∧
      (acc.pool ≠ none → acc1.pool ≠ none) ∧
      ∀ w, Stored acc1 w ↔ Stored acc w ∨ ∃ e, e ∈ l ∧ e.ptr = some w := by
  intro l
  induction l with
  | nil =>
    intro acc hinv _ _ _ _
    exact ⟨acc, rfl, hinv, rfl, rfl, id, fun w => by simp⟩
  | cons e l ih =>
    intro acc hinv hsome hpw hnew hload
    obtain ⟨x, hx⟩ := hsome e (List.mem_cons_self _ _)
    simp only [List.length_cons] at hload
    obtain ⟨s1, hins, hok, hlen1⟩ := insert_small ops law fuel acc hinv (by omega) x
    obtain ⟨hinv1, _, hpool1, _, hB⟩ := hok
    have hno : ¬ ∃ y, Stored acc y ∧ ops.eq y x = true := by
      rintro ⟨y, hy, heq⟩
      rw [hnew e (List.mem_cons_self _ _) x hx y hy] at heq
      exact absurd heq (by simp)
    obtain ⟨hc1, hst1⟩ := hB hno
    rw [List.pairwise_cons] at hpw
    obtain ⟨acc1, hrun, hinv2, hlen2, hc2, hp2, hst2⟩ := ih s1 hinv1
      (fun f hf => hsome f (List.mem_cons_of_mem _ hf)) hpw.2
      (by
        intro f hf y hy z hz
        rcases (hst1 z).1 hz with h | h
        · exact hnew f (List.mem_cons_of_mem _ hf) y hy z h
        · subst h
          exact hpw.1 f hf z y hx hy)
      (by omega)
    refine ⟨acc1, ?_, hinv2, by omega, by simp only [List.length_cons]; omega,
      fun _ => hp2 hpool1, ?_⟩
    · rw [List.foldlM_cons]
      simp only [hx, hins, Option.map_some', Option.bind_eq_bind, Option.some_bind]
      exact hrun
    · intro w
      rw [hst2, hst1]
      constructor
      · rintro ((h | h) | ⟨f, hf, hw⟩)
        · exact Or.inl h
        · exact Or.inr ⟨e, List.mem_cons_self _ _, h ▸ hx⟩
        · exact Or.inr ⟨f, List.mem_cons_of_mem _ hf, hw⟩
      · rintro (h | ⟨f, hf, hw⟩)
        · exact Or.inl (Or.inl h)
        · rcases List.mem_cons.1 hf with h | h
          · subst h
            rw [hx] at hw
            injection hw with hw
            exact Or.inl (Or.inr hw.symm)
          · exact Or.inr ⟨f, h, hw⟩

lemma pool_pairwise (ops : Element T) (n : Nat) (pool : List (entry_t T))
    (hinv : PoolInv ops n pool) :
    pool.Pairwise
      (fun e f => ∀ x y, e.ptr = some x → f.ptr = some y → ops.eq x y = false) := by
  rw [List.pairwise_iff_getElem]
  intro i j hi hj hij x y hx hy
  cases heq : ops.eq x y with
  | false => rfl
  | true =>
    have h1 : Holds pool i x pool[i].hash := by
      unfold Holds
      rw [List.getD_eq_getElem?_getD, List.getElem?_eq_getElem hi]
      exact ⟨hx, rfl⟩
    have h2 : Holds pool j y pool[j].hash := by
      unfold Holds
      rw [List.getD_eq_getElem?_getD, List.getElem?_eq_getElem hj]
      exact ⟨hy, rfl⟩
    have := hinv.unique _ _ _ _ _ _ h1 h2 heq
    omega

lemma two_pow_lt_cases (k : Nat) (h : 2 ^ k < 2 ^ 31) : k ≤ 30 := by
  have := (Nat.pow_lt_pow_iff_right (by norm_num : 1 < 2)).1 h
  omega

/-- The call `reserve(length << 1)` of `insert` at a load of one half: the pool
doubles and holds the same objects. -/
lemma reserve_double (ops : Element T) (law : Lawful ops) (fuel : Nat) (s : hashset T)
    (pool : List (entry_t T)) (hs : s.pool = some pool) (hinv : Inv ops s)
    (hhalf : s.length ≤ 2 * s.count) (hsmall : s.count < 2 ^ 30) :
    ∃ s2, reserveWith ops (insert ops (fuel + 1)) s (s.length * 2 % 2 ^ 32) = some s2 ∧
      Inv ops s2 ∧ s2.length = 2 * s.length ∧ s2.count = s.count ∧ s2.pool ≠ none ∧
      ∀ w, Stored s2 w ↔ Stored s w := by
  obtain ⟨k, hk3, hk31, hlen⟩ := hinv.pow
  obtain ⟨hpinv, hcount⟩ := hinv.pool pool hs
  have hload := hinv.load
  have hk30 : k ≤ 30 := two_pow_lt_cases k (by omega)
  have hn8 : 8 ≤ 2 ^ k := by
    calc 8 = 2 ^ 3 := by norm_num
      _ ≤ 2 ^ k := Nat.pow_le_pow_right (by norm_num) hk3
  have hle : 2 ^ k ≤ 2 ^ 30 := Nat.pow_le_pow_right (by norm_num) hk30
  have hnew : ops.round (max (s.length * 2 % 2 ^ 32) (s.count * 2 % 2 ^ 32)) % 2 ^ 32
      = 2 ^ (k + 1) := by
    have e1 : s.length * 2 % 2 ^ 32 = 2 ^ (k + 1) := by
      rw [hlen, pow_succ]
      exact Nat.mod_eq_of_lt (by omega)
    have e2 : s.count * 2 % 2 ^ 32 = s.count * 2 := Nat.mod_eq_of_lt (by omega)
    have e3 : max (2 ^ (k + 1)) (s.count * 2) = 2 ^ (k + 1) := by
      apply max_eq_left
      rw [pow_succ]
      omega
    rw [e1, e2, e3, law.round_pow]
    apply Nat.mod_eq_of_lt
    rw [pow_succ]
    omega
  have hinv0 : Inv ops
      (⟨some (List.replicate (2 ^ (k + 1)) {}), 2 ^ (k + 1), 0⟩ : hashset T) := by
    refine ⟨⟨k + 1, by omega, by omega, rfl⟩, by simp, ?_, fun h => by simp at h⟩
    intro pl hpl
    simp only [Option.some.injEq] at hpl
    subst hpl
    exact ⟨poolInv_replicate ops _, by rw [occupied_replicate]⟩
  have hc0 : s.count ≠ 0 := by omega
  have hent := entries_eq s pool hs (by rw [hpinv.len]) hc0
  have hlenl : (pool.filter fun e => e.ptr.isSome).length = s.count := by
    rw [hcount, occupied, List.countP_eq_length_filter]
  obtain ⟨s2, hrun, hinv2, hlen2, hc2, hp2, hst2⟩ := reinsert ops law fuel
    (pool.filter fun e => e.ptr.isSome) _ hinv0
    (by
      intro e he
      have := (List.mem_filter.1 he).2
      cases hpt : e.ptr with
      | none => simp [hpt] at this
      | some x => exact ⟨x, rfl⟩)
    ((pool_pairwise ops _ pool hpinv).sublist (List.filter_sublist _))
    (by
      intro e _ x _ y hy
      exact absurd hy (by
        rw [stored_some _ _ rfl]
        exact not_has_replicate _ y))
    (by
      simp only [hlenl, pow_succ]
      omega)
  refine ⟨s2, ?_, hinv2, ?_, ?_, hp2 (by simp), ?_⟩
  · unfold reserveWith
    simp only [hnew, hent]
    exact hrun
  · rw [hlen2, hlen, pow_succ]
    simp only
    omega
  · rw [hc2, hlenl]
    simp
  · intro w
    rw [hst2, stored_some s pool hs, ← mem_pool_iff]
    constructor
    · rintro (h | ⟨e, he, hw⟩)
      · exact absurd h (by
          rw [stored_some _ _ rfl]
          exact not_has_replicate _ w)
      · exact ⟨e, (List.mem_filter.1 he).1, hw⟩
    · rintro ⟨e, he, hw⟩
      exact Or.inr ⟨e, List.mem_filter.2 ⟨he, by simp [hw]⟩, hw⟩

/-- `insert` on a set of fewer than `2^30` objects, with a depth bound of at
least 2: the call returns the value, and leaves what `InsertOK` says. -/
lemma insert_spec (ops : Element T) (law : Lawful ops) (fuel : Nat) (s : hashset T)
    (hinv : Inv ops s) (hsmall : s.count < 2 ^ 30) (value : T) :
    ∃ s1, insert ops (fuel + 2) s value = some (s1, some value) ∧ InsertOK ops s value s1 := by
  by_cases hload : 2 * (s.count + 1) ≤ s.length
  · obtain ⟨s1, h1, h2, _⟩ := insert_small ops law (fuel + 1) s hinv hload value
    exact ⟨s1, h1, h2⟩
  · obtain ⟨k, hk3, hk31, hlen⟩ := hinv.pow
    have hn8 : 8 ≤ 2 ^ k := by
      calc 8 = 2 ^ 3 := by norm_num
        _ ≤ 2 ^ k := Nat.pow_le_pow_right (by norm_num) hk3
    have heven : 2 ^ k = 2 * 2 ^ (k - 1) := by
      rw [← pow_succ']
      congr 1
      omega
    obtain ⟨pool, hmat, hinv1, hhas⟩ := materialize ops s hinv
    have hl := hinv.load
    obtain ⟨s2, hres, hinv2, hlen2, hc2, hp2, hst2⟩ := reserve_double ops law fuel
      { s with pool := some pool } pool rfl hinv1 (by simp only; omega) hsmall
    simp only at hres hlen2 hc2
    obtain ⟨pool2, hpool2⟩ : ∃ pool2, s2.pool = some pool2 := by
      cases h : s2.pool with
      | none => exact absurd h hp2
      | some pl => exact ⟨pl, rfl⟩
    obtain ⟨pool3, count3, hrun, hinv3, hA, hB⟩ :=
      insert_core ops law s2 pool2 hpool2 hinv2 (by omega) value
    have hcond : s.count ≥ s.length / 2 := by omega
    have hst : ∀ w, Has pool2 w ↔ Stored s w := by
      intro w
      rw [← stored_some s2 pool2 hpool2, hst2, stored_some _ pool rfl, hhas]
    refine ⟨{ s2 with pool := some pool3, count := count3 }, ?_, ?_⟩
    · rw [insert]
      simp only [hmat, hcond, if_true, hres, hpool2, Option.getD_some, hrun]
    · refine ⟨hinv3, Or.inr hlen2, by simp, ?_, ?_⟩
      · rintro ⟨x, hx, heq⟩
        obtain ⟨h1, h2⟩ := hA ⟨x, (hst x).2 hx, heq⟩
        refine ⟨by simp only; omega, fun w => ?_⟩
        rw [stored_some _ pool3 rfl, h2]
        exact hst w
      · intro hno
        have hno' : ¬ ∃ x, Has pool2 x ∧ ops.eq x value = true := by
          rintro ⟨x, hx, heq⟩
          exact hno ⟨x, (hst x).1 hx, heq⟩
        obtain ⟨h1, h2⟩ := hB hno'
        refine ⟨by simp only; omega, fun w => ?_⟩
        rw [stored_some _ pool3 rfl, h2, hst]

end hashset

namespace hashset

variable {T : Type}

lemma holds_entry {pool : List (entry_t T)} {p : Nat} {x : T} {g : Nat}
    (h : Holds pool p x g) : pool.getD p {} = { ptr := some x, hash := g } := by
  obtain ⟨h1, h2⟩ := h
  cases he : pool.getD p {} with
  | mk ptr hash =>
    rw [he] at h1 h2
    simp only at h1 h2
    rw [h1, h2]

lemma holds_clear (pool : List (entry_t T)) (idx p : Nat) (x : T) (g : Nat)
    (hidx : idx < pool.length) :
    Holds (pool.set idx {}) p x g ↔ p ≠ idx ∧ Holds pool p x g := by
  by_cases e : idx = p
  · subst e
    constructor
    · intro h
      have : Vacant (pool.set idx {}) idx := by
        unfold Vacant
        rw [getD_set_self _ _ _ _ hidx]
      exact absurd this (holds_not_vacant h)
    · rintro ⟨h, _⟩
      exact absurd rfl h
  · rw [holds_set_ne _ _ _ _ _ _ e]
    exact ⟨fun h => ⟨Ne.symm e, h⟩, fun h => h.2⟩

lemma holeInv_init (ops : Element T) (n : Nat) (pool : List (entry_t T))
    (hinv : PoolInv ops n pool) (idx : Nat) (x : T) (g : Nat) (hx : Holds pool idx x g) :
    HoleInv ops n pool idx (dist n idx g) := by
  have hidx : idx < n := by rw [← hinv.len]; exact holds_lt hx
  refine ⟨hinv.len, hidx, fun p y g' _ h => hinv.hashes p y g' h,
    fun p hp _ _ y g' h hd => hinv.order p hp y g' h hd,
    fun p q y z g1 g2 _ _ h1 h2 he => hinv.unique p q y z g1 g2 h1 h2 he, ?_, ?_⟩
  · intro ha p0 hp0 hnx
    rw [← hnx] at hx ha
    obtain ⟨y, g0, hy, hle⟩ := hinv.order p0 hp0 x g hx ha
    rw [hnx] at hle
    exact ⟨y, g0, hy, hle⟩
  · intro y g' hy
    by_cases hd : dist n (next n idx) g' = 0
    · omega
    · obtain ⟨z, g0, hz, hle⟩ := hinv.order idx hidx y g' hy hd
      obtain ⟨_, e⟩ := holds_fun hz hx
      subst e
      exact hle

lemma holeInv_close (ops : Element T) (n : Nat) (pool : List (entry_t T)) (idx a : Nat)
    (h : HoleInv ops n pool idx a)
    (hstop : ∀ y g', Holds pool (next n idx) y g' → dist n (next n idx) g' = 0) :
    PoolInv ops n (pool.set idx {}) := by
  have hidx : idx < pool.length := by rw [h.len]; exact h.idx_lt
  refine ⟨by rw [List.length_set, h.len], ?_, ?_, ?_⟩
  · intro p x g hx
    obtain ⟨hp, hx'⟩ := (holds_clear pool idx p x g hidx).1 hx
    exact h.hashes p x g hp hx'
  · intro p hp y g' hy hd
    obtain ⟨hne, hy'⟩ := (holds_clear pool idx _ y g' hidx).1 hy
    by_cases e : p = idx
    · subst e
      exact absurd (hstop y g' hy') hd
    · obtain ⟨x, g, hx, hle⟩ := h.order p hp e hne y g' hy' hd
      exact ⟨x, g, (holds_clear pool idx p x g hidx).2 ⟨e, hx⟩, hle⟩
  · intro p q x y g g' hx hy he
    obtain ⟨hp, hx'⟩ := (holds_clear pool idx p x g hidx).1 hx
    obtain ⟨hq, hy'⟩ := (holds_clear pool idx q y g' hidx).1 hy
    exact h.unique p q x y g g' hp hq hx' hy' he

lemma holeInv_step (ops : Element T) (n : Nat) (pool : List (entry_t T)) (idx a : Nat)
    (hn : 3 ≤ n) (h : HoleInv ops n pool idx a) (y : T) (g' : Nat)
    (hy : Holds pool (next n idx) y g') (hd : dist n (next n idx) g' ≠ 0) :
    HoleInv ops n (pool.set idx { ptr := some y, hash := g' }) (next n idx)
      (dist n (next n idx) g') := by
  have hidx : idx < pool.length := by rw [h.len]; exact h.idx_lt
  have hne : next n idx ≠ idx := next_ne n idx (by omega) h.idx_lt
  have hself := holds_set_self pool idx y g' hidx
  have hdist : dist n (next n idx) g' = dist n idx g' + 1 :=
    dist_next_succ n idx g' h.idx_lt hd
  have hsucc := h.succ y g' hy
  refine ⟨by rw [List.length_set, h.len], next_lt n idx (by omega), ?_, ?_, ?_, ?_, ?_⟩
  · intro p x g _ hx
    by_cases e : idx = p
    · subst e
      obtain ⟨e1, e2⟩ := holds_fun hx hself
      subst e1 e2
      exact h.hashes _ x g hne hy
    · exact h.hashes p x g (Ne.symm e) ((holds_set_ne _ _ _ _ _ _ e).1 hx)
  · intro p hp hp1 hp2 z g0 hz hd0
    have hpi : p ≠ idx := by
      intro e
      rw [e] at hp2
      exact hp2 rfl
    by_cases e : idx = next n p
    · rw [← e] at hz hd0 ⊢
      obtain ⟨e1, e2⟩ := holds_fun hz hself
      subst e1 e2
      have ha : a ≠ 0 := by omega
      obtain ⟨x, g, hx, hle⟩ := h.pred ha p hp e.symm
      exact ⟨x, g, (holds_set_ne _ _ _ _ _ _ (Ne.symm hpi)).2 hx, by omega⟩
    · have hz' := (holds_set_ne _ _ _ _ _ _ e).1 hz
      obtain ⟨x, g, hx, hle⟩ := h.order p hp hpi (Ne.symm e) z g0 hz' hd0
      exact ⟨x, g, (holds_set_ne _ _ _ _ _ _ (Ne.symm hpi)).2 hx, hle⟩
  · intro p q x z g g0 hp hq hx hz he
    -- the slot of the old pool that an object of the new pool comes from
    have horig : ∀ r w gw, r ≠ next n idx →
        Holds (pool.set idx { ptr := some y, hash := g' }) r w gw →
        ∃ r0, r0 ≠ idx ∧ Holds pool r0 w gw ∧
          ((r = idx ∧ r0 = next n idx) ∨ (r ≠ idx ∧ r0 = r)) := by
      intro r w gw _ hw
      by_cases e : idx = r
      · subst e
        obtain ⟨e1, e2⟩ := holds_fun hw hself
        subst e1 e2
        exact ⟨next n idx, hne, hy, Or.inl ⟨rfl, rfl⟩⟩
      · exact ⟨r, Ne.symm e, (holds_set_ne _ _ _ _ _ _ e).1 hw, Or.inr ⟨Ne.symm e, rfl⟩⟩
    obtain ⟨p0, hp0, hx0, hpi⟩ := horig p x g hp hx
    obtain ⟨q0, hq0, hz0, hqi⟩ := horig q z g0 hq hz
    have e0 := h.unique p0 q0 x z g g0 hp0 hq0 hx0 hz0 he
    rcases hpi with ⟨h1, h2⟩ | ⟨h1, h2⟩ <;> rcases hqi with ⟨h3, h4⟩ | ⟨h3, h4⟩
    · rw [h1, h3]
    · exact absurd (by rw [← h4, ← e0, h2]) hq
    · exact absurd (by rw [← h2, e0, h4]) hp
    · rw [← h2, ← h4, e0]
  · intro _ p0 hp0 hnx
    have : p0 = idx := next_inj n p0 idx hp0 h.idx_lt hnx
    subst this
    exact ⟨y, g', hself, by omega⟩
  · intro z g0 hz
    have hnn : next n (next n idx) ≠ idx := next_next_ne n idx hn h.idx_lt
    have hz' := (holds_set_ne _ _ _ _ _ _ (Ne.symm hnn)).1 hz
    by_cases hd0 : dist n (next n (next n idx)) g0 = 0
    · omega
    · obtain ⟨x, g, hx, hle⟩ := h.order (next n idx) (next_lt n idx (by omega)) hne hnn
        z g0 hz' hd0
      obtain ⟨_, e2⟩ := holds_fun hx hy
      subst e2
      exact hle

lemma has_clear (pool : List (entry_t T)) (p : Nat) (w : T) (hp : p < pool.length) :
    Has (pool.set p {}) w ↔ ∃ q, q ≠ p ∧ (pool.getD q {}).ptr = some w := by
  rw [has_set pool p {} w hp]
  constructor
  · rintro (h | h)
    · exact h
    · exact absurd h (by simp)
  · exact Or.inl

lemma occupied_clear (pool : List (entry_t T)) (p : Nat) (x : T) (g : Nat)
    (h : Holds pool p x g) : occupied (pool.set p {}) + 1 = occupied pool := by
  have := occupied_set pool p {} (holds_lt h)
  rw [h.1] at this
  simpa using this

/-- The backward shift of `remove`: it ends with the ordering restored and moves
no object out of the pool. -/
lemma removeShift_spec (ops : Element T) (k : Nat) (hk3 : 3 ≤ k) (hk : k ≤ 32) (H : Nat) :
    ∀ (remaining j idx a : Nat) (pool : List (entry_t T)),
    j + remaining = 2 ^ k → 1 ≤ j → idx = (H + (j - 1)) % 2 ^ k →
    HoleInv ops (2 ^ k) pool idx a →
    (∃ j', j ≤ j' ∧ j' < 2 ^ k ∧ Vacant pool ((H + j') % 2 ^ k)) →
    PoolInv ops (2 ^ k)
        ((removeShift (2 ^ k) (H : Int) remaining j idx pool).1.set
          (removeShift (2 ^ k) (H : Int) remaining j idx pool).2 {}) ∧
      occupied ((removeShift (2 ^ k) (H : Int) remaining j idx pool).1.set
          (removeShift (2 ^ k) (H : Int) remaining j idx pool).2 {})
        = occupied (pool.set idx {}) ∧
      ∀ w, Has ((removeShift (2 ^ k) (H : Int) remaining j idx pool).1.set
          (removeShift (2 ^ k) (H : Int) remaining j idx pool).2 {}) w
        ↔ Has (pool.set idx {}) w := by
  have hn8 : 2 ^ 3 ≤ 2 ^ k := Nat.pow_le_pow_right (by norm_num) hk3
  have hn : 3 ≤ 2 ^ k := by omega
  intro remaining
  induction remaining with
  | zero =>
    intro j idx a pool hj _ _ _ hv
    obtain ⟨j', h1, h2, _⟩ := hv
    omega
  | succ remaining ih =>
    intro j idx a pool hj hj1 hidx h hv
    have hnx : next (2 ^ k) idx = (H + j) % 2 ^ k := by
      rw [hidx, next_probe]
      congr 1
      omega
    rw [removeShift]
    simp only [mask_add k hk, mask_sub k hk]
    rw [← hnx]
    cases hptr : (pool.getD (next (2 ^ k) idx) {}).ptr with
    | none =>
      dsimp only
      refine ⟨holeInv_close ops _ pool idx a h ?_, rfl, fun w => Iff.rfl⟩
      intro y g' hy
      rw [hy.1] at hptr
      exact absurd hptr (by simp)
    | some y =>
      dsimp only
      obtain ⟨g2, hg2⟩ : ∃ g2, (pool.getD (next (2 ^ k) idx) {}).hash = g2 := ⟨_, rfl⟩
      have hy : Holds pool (next (2 ^ k) idx) y g2 := ⟨hptr, hg2⟩
      rw [hg2]
      split
      · next hd0 =>
        refine ⟨holeInv_close ops _ pool idx a h ?_, rfl, fun w => Iff.rfl⟩
        intro z g' hz
        obtain ⟨_, e⟩ := holds_fun hz hy
        rw [e]
        exact hd0
      · next hd0 =>
        have hent := holds_entry hy
        rw [hent]
        have hil : idx < pool.length := by rw [h.len]; exact h.idx_lt
        have hne : next (2 ^ k) idx ≠ idx := next_ne _ idx (by omega) h.idx_lt
        have hstep := holeInv_step ops (2 ^ k) pool idx a hn h y _ hy hd0
        have hv1 : ∃ j', j + 1 ≤ j' ∧ j' < 2 ^ k ∧
            Vacant (pool.set idx (⟨some y, g2⟩ : entry_t T)) ((H + j') % 2 ^ k) := by
          obtain ⟨j', h1, h2, h3⟩ := hv
          have hjj : j ≠ j' := by
            intro e
            rw [← e, ← hnx] at h3
            exact holds_not_vacant hy h3
          refine ⟨j', by omega, h2, ?_⟩
          rw [vacant_set_ne]
          · exact h3
          · rw [hidx]
            intro e
            have := probe_inj (2 ^ k) H (j - 1) j' (by omega) h2 e
            omega
        obtain ⟨r1, r2, r3⟩ := ih (j + 1) (next (2 ^ k) idx) _ _ (by omega) (by omega)
          (by rw [hnx]; rfl) hstep hv1
        refine ⟨r1, ?_, ?_⟩
        · rw [r2]
          have hy1 : Holds (pool.set idx (⟨some y, g2⟩ : entry_t T)) (next (2 ^ k) idx) y g2 :=
            (holds_set_ne _ _ _ _ _ _ (Ne.symm hne)).2 hy
          have e1 := occupied_clear _ _ _ _ hy1
          have e2 := occupied_set pool idx (⟨some y, g2⟩ : entry_t T) hil
          have e3 := occupied_set pool idx {} hil
          simp only [Option.isSome_some, if_true] at e2
          have e4 : (({} : entry_t T).ptr.isSome) = false := rfl
          rw [e4] at e3
          simp only [Bool.false_eq_true, if_false] at e3
          omega
        · intro w
          rw [r3 w, has_clear _ _ _
              (by rw [List.length_set, h.len]; exact next_lt _ _ (by omega)),
            has_clear _ _ _ hil]
          constructor
          · rintro ⟨q, hq, hw⟩
            by_cases e : idx = q
            · subst e
              rw [getD_set_self _ _ _ _ hil] at hw
              exact ⟨next (2 ^ k) idx, hne, by rw [hptr]; exact hw⟩
            · rw [getD_set_ne _ _ _ _ _ e] at hw
              exact ⟨q, Ne.symm e, hw⟩
          · rintro ⟨q, hq, hw⟩
            by_cases e : q = next (2 ^ k) idx
            · subst e
              refine ⟨idx, Ne.symm hne, ?_⟩
              rw [getD_set_self _ _ _ _ hil]
              rw [hptr] at hw
              exact hw
            · refine ⟨q, e, ?_⟩
              rw [getD_set_ne _ _ _ _ _ (Ne.symm hq)]
              exact hw

/-- The outer loop of `remove` follows the walk. -/
lemma removeLoop_probe (ops : Element T) (k : Nat) (hk : k ≤ 32) (hash : Nat)
    (pool : List (entry_t T)) (value : T) (count : Nat) : ∀ (remaining i : Nat),
    removeLoop ops (2 ^ k) hash value count remaining i pool
      = match probe ops (2 ^ k) hash pool value remaining i with
        | .found i' _ =>
          ((removeShift (2 ^ k) ((hash + i' : Nat) : Int) (2 ^ k - 1) 1
              ((hash + i') % 2 ^ k) pool).1.set
            (removeShift (2 ^ k) ((hash + i' : Nat) : Int) (2 ^ k - 1) 1
              ((hash + i') % 2 ^ k) pool).2 {},
            wrapU 32 ((count : Int) - 1), true)
        | _ => (pool, count, false) := by
  intro remaining
  induction remaining with
  | zero => intro i; rfl
  | succ remaining ih =>
    intro i
    rw [removeLoop, probe]
    simp only [mask_add k hk, mask_sub k hk]
    simp only [← Nat.cast_add]
    cases hptr : (pool.getD ((hash + i) % 2 ^ k) {}).ptr with
    | none => rfl
    | some x =>
      dsimp only
      split
      · rfl
      · split
        · rfl
        · exact ih (i + 1)

/-- The loops of `remove` on an ordered pool with an empty slot: a stored object
equal to `value` is taken out and the ordering is restored; without one the pool
is left as it is. -/
lemma removeLoop_spec (ops : Element T) (law : Lawful ops) (k : Nat) (hk3 : 3 ≤ k)
    (hk : k ≤ 32) (hash : Nat) (value : T) (count : Nat) (pool : List (entry_t T))
    (hinv : PoolInv ops (2 ^ k) pool) (hh : hash = ops.hash value % 2 ^ 32)
    (p : Nat) (hp : p < 2 ^ k) (hv : Vacant pool p) :
    ((∃ q x g, Holds pool q x g ∧ ops.eq x value = true) →
      ∃ pool1, removeLoop ops (2 ^ k) hash value count (2 ^ k) 0 pool
          = (pool1, wrapU 32 ((count : Int) - 1), true) ∧
        PoolInv ops (2 ^ k) pool1 ∧ occupied pool1 + 1 = occupied pool ∧
        ∀ w, Has pool1 w ↔ Has pool w ∧ ops.eq w value = false) ∧
    ((¬ ∃ q x g, Holds pool q x g ∧ ops.eq x value = true) →
      removeLoop ops (2 ^ k) hash value count (2 ^ k) 0 pool = (pool, count, false)) := by
  have hn8 : 2 ^ 3 ≤ 2 ^ k := Nat.pow_le_pow_right (by norm_num) hk3
  constructor
  · rintro ⟨q, x, g, hx, heq⟩
    obtain ⟨i, hpr, hi, hq⟩ := probe_found ops law (2 ^ k) hash pool value hinv hh p hp hv
      q x g hx heq
    rw [removeLoop_probe ops k hk, hpr]
    dsimp only
    rw [hq]
    have hhole := holeInv_init ops (2 ^ k) pool hinv q x g hx
    have hvac : ∃ j', 1 ≤ j' ∧ j' < 2 ^ k ∧ Vacant pool ((hash + i + j') % 2 ^ k) := by
      obtain ⟨j', hj', e⟩ := slot_on_probe (2 ^ k) p (hash + i) hp
      refine ⟨j', ?_, hj', by rw [e]; exact hv⟩
      by_contra h0
      have : j' = 0 := by omega
      subst this
      rw [Nat.add_zero, hq] at e
      rw [← e] at hv
      exact holds_not_vacant hx hv
    obtain ⟨r1, r2, r3⟩ := removeShift_spec ops k hk3 hk (hash + i) (2 ^ k - 1) 1 q _ pool
      (by omega) (by omega) (by rw [← hq]; rfl) hhole hvac
    refine ⟨_, rfl, r1, ?_, ?_⟩
    · rw [r2]
      exact occupied_clear pool q x g hx
    · intro w
      have hql : q < pool.length := holds_lt hx
      rw [r3 w, has_clear _ _ _ hql]
      constructor
      · rintro ⟨q1, hq1, hw⟩
        refine ⟨⟨q1, hw⟩, ?_⟩
        cases hwv : ops.eq w value with
        | false => rfl
        | true =>
          have hxw : ops.eq w x = true := law.trans _ _ _ hwv (law.symm _ _ heq)
          exact absurd (hinv.unique q1 q w x _ g ⟨hw, rfl⟩ hx hxw) hq1
      · rintro ⟨⟨q1, hw⟩, hwv⟩
        refine ⟨q1, ?_, hw⟩
        intro e
        subst e
        rw [hx.1] at hw
        injection hw with hw
        subst hw
        rw [heq] at hwv
        exact absurd hwv (by simp)
  · intro hno
    have hspec := probe_spec ops (2 ^ k) hash pool value (2 ^ k) 0 (by omega)
      (fun j hj => absurd hj (by omega))
    rw [removeLoop_probe ops k hk]
    cases hpr : probe ops (2 ^ k) hash pool value (2 ^ k) 0 with
    | found i x =>
      rw [hpr] at hspec
      exact absurd ⟨_, x, hash, hspec.2.2.1, hspec.2.2.2.1⟩ hno
    | vacant i => rfl
    | rich i y g => rfl
    | exhausted => rfl

/-- The call `remove(value)` on a set with the invariant. -/
lemma remove_spec (ops : Element T) (law : Lawful ops) (s : hashset T) (hinv : Inv ops s)
    (value : T) :
    ((∃ x, Stored s x ∧ ops.eq x value = true) →
      (remove ops s value).2 = true ∧ Inv ops (remove ops s value).1 ∧
      (remove ops s value).1.count + 1 = s.count ∧
      (remove ops s value).1.length = s.length ∧
      ∀ w, Stored (remove ops s value).1 w ↔ Stored s w ∧ ops.eq w value = false) ∧
    ((¬ ∃ x, Stored s x ∧ ops.eq x value = true) → remove ops s value = (s, false)) := by
  cases hs : s.pool with
  | none =>
    constructor
    · rintro ⟨x, hx, _⟩
      exact absurd hx (stored_none s hs x)
    · intro _
      unfold remove
      rw [hs]
  | some pool =>
    obtain ⟨k, hk3, hk31, hlen⟩ := hinv.pow
    obtain ⟨hpinv, hcount⟩ := hinv.pool pool hs
    have hload := hinv.load
    rw [hlen] at hpinv hload
    have hocc : occupied pool < pool.length := by
      rw [hpinv.len, ← hcount]
      have : 0 < 2 ^ k := Nat.pow_pos (by norm_num)
      omega
    obtain ⟨p, hp, hv⟩ := exists_vacant pool hocc
    rw [hpinv.len] at hp
    obtain ⟨hA, hB⟩ := removeLoop_spec ops law k hk3 (by omega) (ops.hash value % 2 ^ 32)
      value s.count pool hpinv rfl p hp hv
    have hrem : remove ops s value
        = ({ s with
              pool := some (removeLoop ops (2 ^ k) (ops.hash value % 2 ^ 32) value s.count
                (2 ^ k) 0 pool).1,
              count := (removeLoop ops (2 ^ k) (ops.hash value % 2 ^ 32) value s.count
                (2 ^ k) 0 pool).2.1 },
            (removeLoop ops (2 ^ k) (ops.hash value % 2 ^ 32) value s.count
                (2 ^ k) 0 pool).2.2) := by
      unfold remove
      rw [hs, hlen]
    constructor
    · rintro ⟨x, hx, heq⟩
      obtain ⟨q, g, hq⟩ := (has_iff_holds pool x).1 ((stored_some s pool hs x).1 hx)
      obtain ⟨pool1, hrun, hinv1, hocc1, hhas⟩ := hA ⟨q, x, g, hq, heq⟩
      rw [hrem, hrun]
      have hpos : 1 ≤ s.count := by omega
      have hle : 2 ^ k ≤ 2 ^ 31 := Nat.pow_le_pow_right (by norm_num) hk31
      have hwrap : wrapU 32 ((s.count : Int) - 1) = s.count - 1 := by
        unfold wrapU
        have e : ((s.count : Int) - 1) = ((s.count - 1 : Nat) : Int) := by omega
        rw [e]
        have : (((s.count - 1 : Nat) : Int)) % 2 ^ 32 = ((s.count - 1 : Nat) : Int) := by omega
        rw [this, Int.toNat_ofNat]
      rw [hwrap]
      refine ⟨rfl, ?_, by simp only; omega, rfl, ?_⟩
      · exact ⟨⟨k, hk3, hk31, hlen⟩, by simp only; omega,
          fun pl hpl => by
            simp only [Option.some.injEq] at hpl
            subst hpl
            exact ⟨by simp only; rw [hlen]; exact hinv1, by simp only; omega⟩,
          fun h => by simp at h⟩
      · intro w
        rw [stored_some _ pool1 rfl, stored_some s pool hs]
        exact hhas w
    · intro hno
      have hno1 : ¬ ∃ q x g, Holds pool q x g ∧ ops.eq x value = true := by
        rintro ⟨q, x, g, hq, heq⟩
        exact hno ⟨x, (stored_some s pool hs x).2 ((has_iff_holds pool x).2 ⟨q, g, hq⟩), heq⟩
      rw [hrem, hB hno1]
      simp only [← hs]

/-- The call `find(value)` on a set with the invariant returns the stored object
equal to `value`. -/
lemma find_spec (ops : Element T) (law : Lawful ops) (s : hashset T) (hinv : Inv ops s)
    (value x : T) :
    find ops s value = some x ↔ Stored s x ∧ ops.eq x value = true := by
  cases hs : s.pool with
  | none =>
    unfold find
    rw [hs]
    constructor
    · intro h
      exact absurd h (by simp)
    · rintro ⟨hx, _⟩
      exact absurd hx (stored_none s hs x)
  | some pool =>
    obtain ⟨k, hk3, hk31, hlen⟩ := hinv.pow
    obtain ⟨hpinv, hcount⟩ := hinv.pool pool hs
    have hload := hinv.load
    rw [hlen] at hpinv hload
    have hocc : occupied pool < pool.length := by
      rw [hpinv.len, ← hcount]
      have : 0 < 2 ^ k := Nat.pow_pos (by norm_num)
      omega
    obtain ⟨p, hp, hv⟩ := exists_vacant pool hocc
    rw [hpinv.len] at hp
    unfold find
    rw [hs, hlen]
    dsimp only
    rw [findLoop_eq ops k (by omega), stored_some s pool hs]
    constructor
    · intro h
      have hspec := probe_spec ops (2 ^ k) (ops.hash value % 2 ^ 32) pool value (2 ^ k) 0
        (by omega) (fun j hj => absurd hj (by omega))
      cases hpr : probe ops (2 ^ k) (ops.hash value % 2 ^ 32) pool value (2 ^ k) 0 with
      | found i x1 =>
        rw [hpr] at hspec h
        simp only [Option.some.injEq] at h
        subst h
        exact ⟨(has_iff_holds pool x1).2 ⟨_, _, hspec.2.2.1⟩, hspec.2.2.2.1⟩
      | vacant i => rw [hpr] at h; exact absurd h (by simp)
      | rich i y g => rw [hpr] at h; exact absurd h (by simp)
      | exhausted => rw [hpr] at h; exact absurd h (by simp)
    · rintro ⟨hx, heq⟩
      obtain ⟨q, g, hq⟩ := (has_iff_holds pool x).1 hx
      obtain ⟨i, hpr, _, _⟩ := probe_found ops law (2 ^ k) (ops.hash value % 2 ^ 32) pool
        value hpinv rfl p hp hv q x g hq heq
      rw [hpr]

end hashset

namespace hashset

variable {T : Type}

lemma lawful_natOps : Lawful natOps where
  refl := fun a => by simp [natOps]
  symm := fun a b h => by simp [natOps] at h ⊢; exact h.symm
  trans := fun a b c h1 h2 => by simp [natOps] at h1 h2 ⊢; exact h1.trans h2
  hash_eq := fun a b h => by simp [natOps] at h ⊢; rw [h]
  round_pow := fun _ => rfl

lemma inv_default (ops : Element T) : Inv ops ({} : hashset T) where
  pow := ⟨3, le_refl _, by norm_num, rfl⟩
  load := by show 2 * 0 ≤ 8; omega
  pool := fun pool h => by simp at h
  null := fun _ => rfl

lemma refines_default (ops : Element T) : Refines ops ({} : hashset T) [] where
  inv := inv_default ops
  size := rfl
  mem := fun w => by
    constructor
    · intro h
      exact absurd h (stored_none _ rfl w)
    · intro h
      exact absurd h (List.not_mem_nil w)
  distinct := List.Pairwise.nil

lemma specRemove_self (ops : Element T) (v : T) : ∀ l : List T,
    (∀ x ∈ l, ops.eq x v = false) → specRemove ops l v = l := by
  intro l h
  unfold specRemove
  rw [List.filter_eq_self]
  intro x hx
  rw [h x hx]
  rfl

lemma specRemove_length (ops : Element T) (law : Lawful ops) (v : T) : ∀ l : List T,
    l.Pairwise (fun a b => ops.eq a b = false) → (∃ x, x ∈ l ∧ ops.eq x v = true) →
    (specRemove ops l v).length + 1 = l.length := by
  intro l
  induction l with
  | nil =>
    rintro _ ⟨x, hx, _⟩
    exact absurd hx (List.not_mem_nil x)
  | cons a l ih =>
    intro hp hex
    rw [List.pairwise_cons] at hp
    obtain ⟨ha, hl⟩ := hp
    cases hav : ops.eq a v with
    | true =>
      have hrest : ∀ x ∈ l, ops.eq x v = false := by
        intro x hx
        cases hxv : ops.eq x v with
        | false => rfl
        | true =>
          have := law.trans _ _ _ hav (law.symm _ _ hxv)
          rw [ha x hx] at this
          exact absurd this (by simp)
      have e : specRemove ops (a :: l) v = specRemove ops l v := by
        unfold specRemove
        rw [List.filter_cons_of_neg]
        rw [hav]
        simp
      rw [e, specRemove_self ops v l hrest]
      rfl
    | false =>
      have e : specRemove ops (a :: l) v = a :: specRemove ops l v := by
        unfold specRemove
        rw [List.filter_cons_of_pos]
        rw [hav]
        rfl
      obtain ⟨x, hx, hxv⟩ := hex
      rw [List.mem_cons] at hx
      rcases hx with hx | hx
      · subst hx
        rw [hav] at hxv
        exact absurd hxv (by simp)
      · rw [e, List.length_cons, List.length_cons, ih hl ⟨x, hx, hxv⟩]

/-- One `insert` on a set that represents `l`. -/
lemma insert_refines (ops : Element T) (law : Lawful ops) (fuel : Nat) (s : hashset T)
    (l : List T) (h : Refines ops s l) (hb : l.length < 2 ^ 30) (v : T) :
    ∃ s1, insert ops (fuel + 2) s v = some (s1, some v) ∧
      Refines ops s1 (specInsert ops l v) ∧
      (s1.length = s.length ∨ s1.length = 2 * s.length) := by
  obtain ⟨s1, hrun, hinv1, hlen, _, hA, hB⟩ :=
    insert_spec ops law fuel s h.inv (by rw [h.size]; exact hb) v
  refine ⟨s1, hrun, ?_, hlen⟩
  unfold specInsert
  by_cases hex : ∃ x, Stored s x ∧ ops.eq x v = true
  · obtain ⟨hc, hst⟩ := hA hex
    obtain ⟨x, hx, hxv⟩ := hex
    have hany : l.any (fun x => ops.eq x v) = true :=
      List.any_eq_true.2 ⟨x, (h.mem x).1 hx, hxv⟩
    rw [if_pos hany]
    exact ⟨hinv1, by rw [hc, h.size], fun w => by rw [hst w, h.mem w], h.distinct⟩
  · obtain ⟨hc, hst⟩ := hB hex
    have hno : ∀ x ∈ l, ops.eq x v = false := by
      intro x hx
      cases hxv : ops.eq x v with
      | false => rfl
      | true => exact absurd ⟨x, (h.mem x).2 hx, hxv⟩ hex
    have hany : ¬ l.any (fun x => ops.eq x v) = true := by
      intro hany
      obtain ⟨x, hx, hxv⟩ := List.any_eq_true.1 hany
      rw [hno x hx] at hxv
      exact absurd hxv (by simp)
    rw [if_neg hany]
    refine ⟨hinv1, by rw [hc, h.size, List.length_append]; rfl, fun w => ?_, ?_⟩
    · rw [hst w, h.mem w, List.mem_append, List.mem_singleton]
    · rw [List.pairwise_append]
      refine ⟨h.distinct, List.pairwise_singleton _ _, ?_⟩
      intro a ha b hb
      rw [List.mem_singleton] at hb
      subst hb
      exact hno a ha

/-- One `remove` on a set that represents `l`. -/
lemma remove_refines (ops : Element T) (law : Lawful ops) (s : hashset T)
    (l : List T) (h : Refines ops s l) (v : T) :
    Refines ops (remove ops s v).1 (specRemove ops l v) ∧
      (remove ops s v).1.length = s.length := by
  obtain ⟨hA, hB⟩ := remove_spec ops law s h.inv v
  by_cases hex : ∃ x, Stored s x ∧ ops.eq x v = true
  · obtain ⟨_, hinv1, hc, hlen, hst⟩ := hA hex
    obtain ⟨x, hx, hxv⟩ := hex
    have hl := specRemove_length ops law v l h.distinct ⟨x, (h.mem x).1 hx, hxv⟩
    refine ⟨⟨hinv1, ?_, fun w => ?_, ?_⟩, hlen⟩
    · have := h.size
      omega
    · rw [hst w, h.mem w]
      unfold specRemove
      rw [List.mem_filter]
      simp
    · exact List.Pairwise.sublist (List.filter_sublist l) h.distinct
  · have hno : ∀ x ∈ l, ops.eq x v = false := by
      intro x hx
      cases hxv : ops.eq x v with
      | false => rfl
      | true => exact absurd ⟨x, (h.mem x).2 hx, hxv⟩ hex
    rw [hB hex, specRemove_self ops v l hno]
    exact ⟨h, rfl⟩

/-- A sequence of calls on a set that represents `l` ends in a set that
represents what the calls make of `l`. -/
lemma run_refines (ops : Element T) (law : Lawful ops) (fuel : Nat) :
    ∀ (calls : List (Call T)) (s : hashset T) (l : List T), Refines ops s l →
      Bounded ops l calls →
      ∃ s1, run ops (fuel + 2) s calls = some s1 ∧ Refines ops s1 (specRun ops l calls) := by
  intro calls
  induction calls with
  | nil => intro s l h _; exact ⟨s, rfl, h⟩
  | cons c rest ih =>
    intro s l h hb
    cases c with
    | insert v =>
      obtain ⟨hb1, hb2⟩ := hb
      obtain ⟨s1, hrun, href, _⟩ := insert_refines ops law fuel s l h hb1 v
      obtain ⟨s2, hrun2, href2⟩ := ih s1 _ href hb2
      refine ⟨s2, ?_, href2⟩
      rw [run, step, hrun]
      exact hrun2
    | remove v =>
      obtain ⟨s2, hrun2, href2⟩ := ih _ _ (remove_refines ops law s l h v).1 hb
      exact ⟨s2, hrun2, href2⟩
    | reset =>
      obtain ⟨s2, hrun2, href2⟩ := ih _ _ (refines_default ops) hb
      exact ⟨s2, hrun2, href2⟩

lemma specInsert_mem_eq (ops : Element T) (law : Lawful ops) (l : List T) (u v : T) :
    (∃ x, x ∈ specInsert ops l u ∧ ops.eq x v = true) ↔
      (∃ x, x ∈ l ∧ ops.eq x v = true) ∨ ops.eq u v = true := by
  unfold specInsert
  split
  · next hany =>
    constructor
    · exact Or.inl
    · rintro (h | h)
      · exact h
      · obtain ⟨x, hx, hxu⟩ := List.any_eq_true.1 hany
        exact ⟨x, hx, law.trans _ _ _ hxu h⟩
  · constructor
    · rintro ⟨x, hx, hxv⟩
      rw [List.mem_append, List.mem_singleton] at hx
      rcases hx with hx | hx
      · exact Or.inl ⟨x, hx, hxv⟩
      · subst hx; exact Or.inr hxv
    · rintro (⟨x, hx, hxv⟩ | h)
      · exact ⟨x, List.mem_append_left _ hx, hxv⟩
      · exact ⟨u, List.mem_append_right _ (List.mem_singleton.2 rfl), h⟩

lemma specInsert_sub (ops : Element T) (l : List T) (u x : T)
    (h : x ∈ specInsert ops l u) : x ∈ l ∨ x = u := by
  unfold specInsert at h
  split at h
  · exact Or.inl h
  · rw [List.mem_append, List.mem_singleton] at h
    exact h

lemma specInsert_length (ops : Element T) (l : List T) (u : T) :
    l.length ≤ (specInsert ops l u).length := by
  unfold specInsert
  split
  · exact le_refl _
  · rw [List.length_append]
    omega

/-- The objects of the finite set after a sequence of insertions, up to
`operator==`. -/
lemma specRun_inserts_mem (ops : Element T) (law : Lawful ops) (v : T) :
    ∀ (vs l : List T),
    (∃ x, x ∈ specRun ops l (vs.map Call.insert) ∧ ops.eq x v = true) ↔
      (∃ x, x ∈ l ∧ ops.eq x v = true) ∨ ∃ u, u ∈ vs ∧ ops.eq u v = true := by
  intro vs
  induction vs with
  | nil =>
    intro l
    constructor
    · exact Or.inl
    · rintro (h | ⟨u, hu, _⟩)
      · exact h
      · exact absurd hu (List.not_mem_nil u)
  | cons u vs ih =>
    intro l
    rw [List.map_cons, specRun, ih, specInsert_mem_eq ops law]
    constructor
    · rintro ((h | h) | ⟨w, hw, hwv⟩)
      · exact Or.inl h
      · exact Or.inr ⟨u, List.mem_cons_self _ _, h⟩
      · exact Or.inr ⟨w, List.mem_cons_of_mem _ hw, hwv⟩
    · rintro (h | ⟨w, hw, hwv⟩)
      · exact Or.inl (Or.inl h)
      · rw [List.mem_cons] at hw
        rcases hw with hw | hw
        · subst hw; exact Or.inl (Or.inr hwv)
        · exact Or.inr ⟨w, hw, hwv⟩

lemma specRun_inserts_sub (ops : Element T) (x : T) : ∀ (vs l : List T),
    x ∈ specRun ops l (vs.map Call.insert) → x ∈ l ∨ x ∈ vs := by
  intro vs
  induction vs with
  | nil => intro l h; exact Or.inl h
  | cons u vs ih =>
    intro l h
    rw [List.map_cons, specRun] at h
    rcases ih _ h with h1 | h1
    · rcases specInsert_sub ops l u x h1 with h2 | h2
      · exact Or.inl h2
      · subst h2; exact Or.inr (List.mem_cons_self _ _)
    · exact Or.inr (List.mem_cons_of_mem _ h1)

lemma specRun_inserts_length (ops : Element T) : ∀ (vs l : List T),
    l.length ≤ (specRun ops l (vs.map Call.insert)).length := by
  intro vs
  induction vs with
  | nil => intro l; exact le_refl _
  | cons u vs ih =>
    intro l
    rw [List.map_cons, specRun]
    exact le_trans (specInsert_length ops l u) (ih _)

lemma bounded_inserts (ops : Element T) : ∀ (vs l : List T),
    (specRun ops l (vs.map Call.insert)).length < 2 ^ 30 →
    Bounded ops l (vs.map Call.insert) := by
  intro vs
  induction vs with
  | nil => intro l _; exact trivial
  | cons u vs ih =>
    intro l h
    rw [List.map_cons, specRun] at h
    refine ⟨?_, ih _ h⟩
    exact lt_of_le_of_lt
      (le_trans (specInsert_length ops l u) (specRun_inserts_length ops vs _)) h

/-- What `find` returns on a set that represents `l`. -/
lemma find_refines (ops : Element T) (law : Lawful ops) (s : hashset T) (l : List T)
    (h : Refines ops s l) (v x : T) :
    find ops s v = some x ↔ x ∈ l ∧ ops.eq x v = true := by
  rw [find_spec ops law s h.inv, h.mem]

lemma find_congr (ops : Element T) (law : Lawful ops) (s s1 : hashset T)
    (hinv : Inv ops s) (hinv1 : Inv ops s1) (v : T)
    (h : ∀ x, ops.eq x v = true → (Stored s1 x ↔ Stored s x)) :
    find ops s1 v = find ops s v := by
  apply Option.ext
  intro x
  rw [Option.mem_def, Option.mem_def, find_spec ops law s hinv, find_spec ops law s1 hinv1]
  constructor
  · rintro ⟨h1, h2⟩
    exact ⟨(h x h2).1 h1, h2⟩
  · rintro ⟨h1, h2⟩
    exact ⟨(h x h2).2 h1, h2⟩

end hashset

/-! ## Theorems -/

namespace Table

/-- C1 (bit accumulator accounting).  (1) After every call of `writeBits`,
`bitpos < 8`.  (2) A call `writeBits(data, n)` whose `bitpos + n` fits the type of
`bitpos` hands exactly `(bitpos_before + n) / 8` bytes to the byte sink and leaves
`bitpos = (bitpos_before + n) % 8`.  (3) Starting from a table with `bitpos = 0`,
after any sequence of `writeBits` calls whose lengths fit, `bitpos < 8`, the
number of bytes handed to the sink is the sum of the lengths divided by 8, and
`bitpos` is the remainder.  (4) `assemble` keeps `bitpos < 8` whenever it
returns, and what it does to the accumulator and the sink is a sequence of
`writeBits` calls.  (5) So after every run of statements that `assemble` takes
from a table with `bitpos = 0`, the state is the one a sequence of `writeBits`
calls leaves, with `bitpos < 8` and, when the lengths fit, the sum of the
lengths divided by 8 as the number of bytes handed to the sink.  With the
upstream `uint64_t bitpos` every `uint` length fits. -/
theorem writeBits_accounting (w : AccWidth) :
    (∀ (t : Table) (data n : Nat), (writeBits w t data n).bitpos < 8) ∧
    (∀ (t : Table) (data n : Nat), t.bitpos + n < 2 ^ w.pos →
      (writeBits w t data n).bitpos = (t.bitpos + n) % 8 ∧
      (writeBits w t data n).sink.length = t.sink.length + (t.bitpos + n) / 8) ∧
    (∀ (t : Table) (calls : List (Nat × Nat)), t.bitpos = 0 →
      (∀ c ∈ calls, c.2 + 7 < 2 ^ w.pos) →
      (writeAll w t calls).bitpos < 8 ∧
      (writeAll w t calls).sink.length = t.sink.length + (calls.map Prod.snd).sum / 8 ∧
      (writeAll w t calls).bitpos = (calls.map Prod.snd).sum % 8) ∧
    (∀ (env : Env) (t t1 : Table) (statement : List Char) (r : Bool), t.bitpos < 8 →
      assemble w env t statement = .ok (r, t1) →
      t1.bitpos < 8 ∧
      ∃ calls, t1 = writeAll w { t with table := t1.table, endian := t1.endian } calls) ∧
    (∀ (env : Env) (t t1 : Table) (statements : List (List Char)), t.bitpos = 0 →
      assembleAll w env t statements = .ok t1 →
      ∃ calls, t1 = writeAll w { t with table := t1.table, endian := t1.endian } calls ∧
        t1.bitpos < 8 ∧
        ((∀ c ∈ calls, c.2 + 7 < 2 ^ w.pos) →
          t1.sink.length = t.sink.length + (calls.map Prod.snd).sum / 8 ∧
          t1.bitpos = (calls.map Prod.snd).sum % 8)) := by
  have hseq : ∀ (t : Table) (calls : List (Nat × Nat)), t.bitpos = 0 →
      (∀ c ∈ calls, c.2 + 7 < 2 ^ w.pos) →
      (writeAll w t calls).bitpos < 8 ∧
      (writeAll w t calls).sink.length = t.sink.length + (calls.map Prod.snd).sum / 8 ∧
      (writeAll w t calls).bitpos = (calls.map Prod.snd).sum % 8 := by
    intro t calls h0 hc
    have h := writeAll_count w calls t (by omega) hc
    rw [h0, Nat.zero_add] at h
    refine ⟨?_, h.2, h.1⟩
    rw [h.1]
    exact Nat.mod_lt _ (by norm_num)
  refine ⟨writeBits_bitpos_lt w, writeBits_count w, hseq, ?_, ?_⟩
  · intro env t t1 statement r h hr
    exact ⟨assemble_bitpos_lt w env t t1 statement r h hr, assemble_calls w env t t1 statement r hr⟩
  · intro env t t1 statements h0 hr
    obtain ⟨calls, hc⟩ := assembleAll_calls w env statements t t1 hr
    refine ⟨calls, hc, ?_, ?_⟩
    · rw [hc]
      exact writeAll_bitpos_lt w calls _ (by show t.bitpos < 8; omega)
    · intro hfit
      have h := hseq { t with table := t1.table, endian := t1.endian } calls h0 hfit
      rw [← hc] at h
      exact ⟨h.2.1, h.2.2⟩

/-- Witness for C1: three calls of 8, 8 and 3 bits on a fresh table with the
upstream accumulator leave `bitpos = 3` and two bytes in the sink. -/
theorem writeBits_accounting_witness :
    (writeAll AccWidth.u64 {} [(0xA9, 8), (0x42, 8), (5, 3)]).bitpos < 8 ∧
    (writeAll AccWidth.u64 {} [(0xA9, 8), (0x42, 8), (5, 3)]).sink.length = 0 + 19 / 8 ∧
    (writeAll AccWidth.u64 {} [(0xA9, 8), (0x42, 8), (5, 3)]).bitpos = 19 % 8 :=
  (writeBits_accounting AccWidth.u64).2.2.1 {} [(0xA9, 8), (0x42, 8), (5, 3)] rfl (by decide)

/-- C2 (width check).  For an opcode whose pattern matches the statement with
as many extracted arguments as descriptors: (1) the opcode is accepted (the width
check ends without mismatch) if and only if every format, taken in sequence
order, fits: `Absolute`/`Strong` needs `bitLength(args[argument]) <= number[argument].bits`,
`Absolute`/`Exact` needs equality; (2) an accepted opcode is the one `assemble`
emits; (3) a `Weak` format and a format that is not `Absolute` are skipped by the
check.  (4) Scenario S2: the table line `lda #*08; $a9 =a` gives the pattern
`lda #*`, one descriptor of 8 bits and the formats `Static $a9`, `Absolute Strong a`;
with it `lda #$42` is accepted and emits A9 42, and `lda #$1234` is rejected
(`assemble` returns false and the state is unchanged). -/
theorem width_check_accepts (w : AccWidth) (env : Env) (s : List Char) (pc : Nat)
    (opcode : Opcode) (rest : List Opcode) (t : Table)
    (hm : env.tokenizeMatch s opcode.pattern = true)
    (hl : (env.tokenizeArgs s opcode.pattern).length = opcode.number.length) :
    ((∃ args1, Accepted env t s opcode args1) ↔
      WidthOk env.toEvaluator t opcode.number opcode.format (env.tokenizeArgs s opcode.pattern)) ∧
    (∀ args1, Accepted env t s opcode args1 →
      assembleLoop w env s pc (opcode :: rest) t
        = (emitFormats w env.toEvaluator pc opcode.number args1 opcode.format t).map
            (fun t1 => (true, t1))) ∧
    (∀ (f : Format) (fs : List Format) (args : List (List Char)),
      f.match_ = FormatMatch.Weak ∨ f.type ≠ FormatType.Absolute →
      widthCheck env.toEvaluator t opcode.number (f :: fs) args
        = widthCheck env.toEvaluator t opcode.number fs args) ∧
    (lineOpcode "lda #*08".toList "$a9 =a".toList).pattern = "lda #*".toList ∧
    (lineOpcode "lda #*08".toList "$a9 =a".toList).number = [⟨8⟩] ∧
    (lineOpcode "lda #*08".toList "$a9 =a".toList).format
      = [{ type := FormatType.Static, data := 0xa9, bits := 8 },
         { type := FormatType.Absolute, match_ := FormatMatch.Strong, argument := 0 }] ∧
    assemble AccWidth.u64 Scenario.env
        { table := [lineOpcode "lda #*08".toList "$a9 =a".toList] } "lda #$42".toList
      = .ok (true, { table := [lineOpcode "lda #*08".toList "$a9 =a".toList],
                     sink := [0xA9, 0x42], origin := 2 }) ∧
    assemble AccWidth.u64 Scenario.env
        { table := [lineOpcode "lda #*08".toList "$a9 =a".toList] } "lda #$1234".toList
      = .ok (false, { table := [lineOpcode "lda #*08".toList "$a9 =a".toList] }) := by
  have hspec := widthCheck_spec env.toEvaluator t opcode.number opcode.format
    (env.tokenizeArgs s opcode.pattern)
  refine ⟨⟨?_, ?_⟩, ?_, ?_, by decide, by decide, by decide, by decide, by decide⟩
  · rintro ⟨args1, _, _, hc⟩
    exact hspec.2 args1 hc
  · intro hok
    exact ⟨_, hm, hl, hspec.1 hok⟩
  · intro args1 h
    exact assembleLoop_accept w env s pc opcode rest t args1 h
  · intro f fs args hskip
    rw [widthCheck]
    rcases hskip with h | h
    · rw [if_pos h]
    · by_cases hw : f.match_ = FormatMatch.Weak
      · rw [if_pos hw]
      · rw [if_neg hw, if_neg h]

/-- Witness for C2: the theorem at the opcode `lda #*08; $a9 =a` and the
statement `lda #$42`, whose one argument `$42` has 8 bits. -/
theorem width_check_accepts_witness :
    Scenario.env.tokenizeMatch "lda #$42".toList Scenario.lda.pattern = true ∧
    (Scenario.env.tokenizeArgs "lda #$42".toList Scenario.lda.pattern).length
      = Scenario.lda.number.length ∧
    ((∃ args1, Accepted Scenario.env { table := [Scenario.lda] } "lda #$42".toList
        Scenario.lda args1) ↔
      WidthOk Scenario.env.toEvaluator { table := [Scenario.lda] } Scenario.lda.number
        Scenario.lda.format (Scenario.env.tokenizeArgs "lda #$42".toList Scenario.lda.pattern)) :=
  ⟨by decide, by decide,
    (width_check_accepts AccWidth.u64 Scenario.env "lda #$42".toList 0 Scenario.lda []
      { table := [Scenario.lda] } (by decide) (by decide)).1⟩

/-- C3 (first match).  For a statement that is not an `instrument` statement:
when the table is `pre ++ opcode :: post`, every opcode of `pre` is rejected and
`opcode` is accepted, `assemble` emits the formats of `opcode` and of no other
opcode, with the program counter read before the loop, and returns true (or
fails where the emission fails); the formats are emitted in sequence order:
emitting `fs1 ++ fs2` is emitting `fs1`, then `fs2` from the state reached. -/
theorem assemble_first_accepted (w : AccWidth) (env : Env) (t : Table) (s : List Char)
    (pre : List Opcode) (opcode : Opcode) (post : List Opcode) (args1 : List (List Char))
    (hi : env.instrument s = none) (ht : t.table = pre ++ opcode :: post)
    (hpre : ∀ o ∈ pre, Rejected env t s o) (hop : Accepted env t s opcode args1) :
    assemble w env t s
      = (emitFormats w env.toEvaluator t.pc opcode.number args1 opcode.format t).map
          (fun t1 => (true, t1)) ∧
    (∀ (fs1 fs2 : List Format) (t0 : Table),
      emitFormats w env.toEvaluator t.pc opcode.number args1 (fs1 ++ fs2) t0
        = (emitFormats w env.toEvaluator t.pc opcode.number args1 fs1 t0).bind
            (emitFormats w env.toEvaluator t.pc opcode.number args1 fs2)) ∧
    (∀ (f : Format) (t0 : Table),
      emitFormats w env.toEvaluator t.pc opcode.number args1 [f] t0
        = emitFormat w env.toEvaluator t.pc opcode.number args1 t0 f) := by
  refine ⟨?_, ?_, ?_⟩
  · unfold assemble
    rw [hi, ht]
    exact assembleLoop_first w env s _ pre opcode post _ args1 hpre hop
  · intro fs1 fs2 t0
    exact emitFormats_append w env.toEvaluator _ _ _ fs1 fs2 t0
  · intro f t0
    simp only [emitFormats]
    cases emitFormat w env.toEvaluator t.pc opcode.number args1 t0 f <;> rfl

/-- Witness for C3: with the table `lda #*08; $a9 =a`, `lda #*16; $ad =a` the
statement `lda #$1234` is rejected by the first opcode (16 > 8) and accepted by
the second, whose formats alone are emitted: AD, then 1234 in 16 bits. -/
theorem assemble_first_accepted_witness :
    assemble AccWidth.u64 Scenario.env { table := [Scenario.lda, Scenario.lda16] }
        "lda #$1234".toList
      = .ok (true, { table := [Scenario.lda, Scenario.lda16], sink := [0xAD, 0x34, 0x12],
                     origin := 3 }) :=
  (assemble_first_accepted AccWidth.u64 Scenario.env
    { table := [Scenario.lda, Scenario.lda16] } "lda #$1234".toList
    [Scenario.lda] Scenario.lda16 [] ["$1234".toList] rfl rfl
    (by
      intro o ho
      rw [List.mem_singleton] at ho
      subst ho
      exact Or.inr (Or.inr ⟨["$1234".toList], by decide⟩))
    ⟨by decide, by decide, by decide⟩).1.trans (by decide)

/-- C4 (no match).  For a statement that is not an `instrument` statement:
(1) `assemble` returns false if and only if every opcode of the table is rejected
(by the pattern, the argument count or the width check); (2) said with
acceptance: it returns false if and only if no opcode of the table is accepted
and no error is raised (a width check that consults the evaluator can be left by
an exception, and then `assemble` does not return); (3) when it returns false
the whole state is as before the call: no byte was handed to the sink, and
`bitval`, `bitpos` and the opcode table are unchanged. -/
theorem assemble_false_iff (w : AccWidth) (env : Env) (t : Table) (s : List Char)
    (hi : env.instrument s = none) :
    ((∃ t1, assemble w env t s = .ok (false, t1)) ↔ ∀ o ∈ t.table, Rejected env t s o) ∧
    ((∃ t1, assemble w env t s = .ok (false, t1)) ↔
      (∀ o ∈ t.table, ∀ a, ¬ Accepted env t s o a) ∧ ∀ e, assemble w env t s ≠ .error e) ∧
    (∀ t1, assemble w env t s = .ok (false, t1) →
      t1 = t ∧ t1.sink = t.sink ∧ t1.bitval = t.bitval ∧ t1.bitpos = t.bitpos ∧
      t1.table = t.table) := by
  have hdef : assemble w env t s = assembleLoop w env s t.pc t.table t := by
    unfold assemble
    rw [hi]
  have hloop : ∀ t1, assemble w env t s = .ok (false, t1) ↔
      (∀ o ∈ t.table, Rejected env t s o) ∧ t1 = t := by
    intro t1
    rw [hdef]
    exact assembleLoop_false_iff w env s t.pc t.table t t1
  refine ⟨⟨?_, ?_⟩, ⟨?_, ?_⟩, ?_⟩
  · rintro ⟨t1, h⟩
    exact ((hloop t1).1 h).1
  · intro h
    exact ⟨t, (hloop t).2 ⟨h, rfl⟩⟩
  · rintro ⟨t1, h⟩
    refine ⟨?_, ?_⟩
    · intro o ho a
      exact rejected_not_accepted env t s o (((hloop t1).1 h).1 o ho) a
    · intro e he
      rw [h] at he
      cases he
  · rintro ⟨hna, hne⟩
    cases hres : assemble w env t s with
    | error e => exact absurd hres (hne e)
    | ok res =>
      obtain ⟨r, t1⟩ := res
      cases r with
      | false => exact ⟨t1, rfl⟩
      | true =>
        rw [hdef] at hres
        obtain ⟨o, ho, a, ha⟩ := assembleLoop_true_accepted w env s t.pc t.table t t1 hres
        exact absurd ha (hna o ho a)
  · intro t1 h
    have e := ((hloop t1).1 h).2
    subst e
    exact ⟨rfl, rfl, rfl, rfl, rfl⟩

/-- Witness for C4: with the one opcode `lda #*08; $a9 =a`, the statement
`lda #$1234` is rejected by every opcode, and `assemble` returns false. -/
theorem assemble_false_iff_witness :
    Scenario.env.instrument "lda #$1234".toList = none ∧
    ((∃ t1, assemble AccWidth.u64 Scenario.env { table := [Scenario.lda] } "lda #$1234".toList
        = .ok (false, t1)) ↔
      ∀ o ∈ ({ table := [Scenario.lda] } : Table).table,
        Rejected Scenario.env { table := [Scenario.lda] } "lda #$1234".toList o) :=
  ⟨rfl, (assemble_false_iff AccWidth.u64 Scenario.env { table := [Scenario.lda] }
    "lda #$1234".toList rfl).1⟩

/-- C5 (relative encoding).  For a `Relative` format on an argument of declared
width `b`, `1 <= b <= 31`, with `pc` the snapshot handed to the emission and
`v = evaluate(arg) - (pc + displacement)` fitting a signed 32-bit integer:
(1) the encoding raises "branch out of bounds" if and only if `v < -2^(b-1)` or
`v > 2^(b-1) - 1`; (2) otherwise it is `writeBits` of the `b`-bit two's complement
of `v`, that is `v mod 2^b`; (3) which, when the shifted accumulator fits its
type, holds `bitval * 2^b + (v mod 2^b)` before the whole bytes are flushed.
(4) Scenarios S3 and S4: the table line `beq *08; $f0 +1a` gives the pattern
`beq *`, one descriptor of 8 bits and the formats `Static $f0`, `Relative +1 a`;
with it, at pc = 0x8000 the target 0x8000 emits F0 FF (the snapshot 0x8000 is
used, not the 0x8001 that `pc()` returns once F0 is written), and at pc = 0 the
target 0x200 raises the error.  For `b = 31` the mask `(1 << 31) - 1`
overflows `int`; the statement then rests on the wrap-around of the model. -/
theorem relative_encoding (w : AccWidth) (ev : Evaluator) (pc : Nat) (number : List Number)
    (args : List (List Char)) (t : Table) (f : Format) (arg : List Char) (e : Int) (b : Nat)
    (hty : f.type = FormatType.Relative) (harg : args[f.argument]? = some arg)
    (hev : ev.evaluate t arg = .ok e) (hnum : number[f.argument]? = some ⟨b⟩)
    (hb1 : 1 ≤ b) (hb31 : b ≤ 31)
    (hlo : -(2 : Int) ^ 31 ≤ e - ((pc : Int) + f.displacement))
    (hhi : e - ((pc : Int) + f.displacement) < 2 ^ 31) :
    (emitFormat w ev pc number args t f = .error Error.branchOutOfBounds ↔
      (e - ((pc : Int) + f.displacement) < -(2 : Int) ^ (b - 1) ∨
        e - ((pc : Int) + f.displacement) > 2 ^ (b - 1) - 1)) ∧
    (¬ (e - ((pc : Int) + f.displacement) < -(2 : Int) ^ (b - 1) ∨
        e - ((pc : Int) + f.displacement) > 2 ^ (b - 1) - 1) →
      emitFormat w ev pc number args t f
        = .ok (writeBits w t ((e - ((pc : Int) + f.displacement)) % 2 ^ b).toNat b)) ∧
    (b < w.val → t.bitval * 2 ^ b < 2 ^ w.val → t.bitpos + b < 2 ^ w.pos →
      writeBits w t ((e - ((pc : Int) + f.displacement)) % 2 ^ b).toNat b
        = flushLoop ((t.bitpos + b) / 8)
            { t with
              bitval := t.bitval * 2 ^ b + ((e - ((pc : Int) + f.displacement)) % 2 ^ b).toNat
              bitpos := t.bitpos + b }) ∧
    (lineOpcode "beq *08".toList "$f0 +1a".toList).pattern = "beq *".toList ∧
    (lineOpcode "beq *08".toList "$f0 +1a".toList).number = [⟨8⟩] ∧
    (lineOpcode "beq *08".toList "$f0 +1a".toList).format
      = [{ type := FormatType.Static, data := 0xf0, bits := 8 },
         { type := FormatType.Relative, argument := 0, displacement := 1 }] ∧
    assemble AccWidth.u64 Scenario.env
        { table := [lineOpcode "beq *08".toList "$f0 +1a".toList], origin := 0x8000 }
        "beq 0x8000".toList
      = .ok (true, { table := [lineOpcode "beq *08".toList "$f0 +1a".toList],
                     sink := [0xF0, 0xFF], origin := 0x8002 }) ∧
    assemble AccWidth.u64 Scenario.env
        { table := [lineOpcode "beq *08".toList "$f0 +1a".toList], origin := 0 }
        "beq 0x200".toList
      = .error Error.branchOutOfBounds := by
  have hdata := relativeData_eq e pc f.displacement hlo hhi
  obtain ⟨hmin, hmax⟩ := relative_bounds b hb1 hb31
  have hemit : emitFormat w ev pc number args t f
      = if e - ((pc : Int) + f.displacement) < -(2 : Int) ^ (b - 1) ∨
          e - ((pc : Int) + f.displacement) > 2 ^ (b - 1) - 1
        then .error Error.branchOutOfBounds
        else .ok (writeBits w t (wrapU 64 (e - ((pc : Int) + f.displacement))) b) := by
    unfold emitFormat
    simp only [hty, harg, hev, hnum, hdata, hmin, hmax]
  have hmodlt : (((e - ((pc : Int) + f.displacement)) % 2 ^ b).toNat) < 2 ^ b := by
    have h1 : (e - ((pc : Int) + f.displacement)) % 2 ^ b < 2 ^ b :=
      Int.emod_lt_of_pos _ (by positivity)
    have h0 : (0 : Int) ≤ (e - ((pc : Int) + f.displacement)) % 2 ^ b :=
      Int.emod_nonneg _ (by positivity)
    have : ((((e - ((pc : Int) + f.displacement)) % 2 ^ b).toNat : Nat) : Int) < ((2 ^ b : Nat) : Int) := by
      rw [Int.toNat_of_nonneg h0]
      exact_mod_cast h1
    exact_mod_cast this
  refine ⟨?_, ?_, ?_, by decide, by decide, by decide, by decide, by decide⟩
  · rw [hemit]
    constructor
    · intro h
      by_contra hcon
      rw [if_neg hcon] at h
      exact absurd h (by simp)
    · intro h
      rw [if_pos h]
  · intro h
    rw [hemit, if_neg h, writeBits_mod w t _ b hb31, wrapU64_mod _ b (by omega)]
  · intro hbw hv hp
    unfold writeBits
    rw [accumulate_eq w t _ b hb31 hbw hv hp, Nat.mod_eq_of_lt hmodlt]

/-- Witness for C5: the theorem at the format `+1a` of `beq *08; $f0 +1a` with
the snapshot 0x8000, after the byte F0 has advanced `origin` to 0x8001, and the
target 0x8000: `v = -1` is within the bounds and the byte written is FF. -/
theorem relative_encoding_witness :
    emitFormat AccWidth.u64 Scenario.env.toEvaluator 0x8000 [⟨8⟩] ["0x8000".toList]
        { origin := 0x8001, sink := [0xF0] } Scenario.beqRelative
      = .ok { origin := 0x8002, sink := [0xF0, 0xFF] } :=
  ((relative_encoding AccWidth.u64 Scenario.env.toEvaluator 0x8000 [⟨8⟩] ["0x8000".toList]
    { origin := 0x8001, sink := [0xF0] } Scenario.beqRelative "0x8000".toList 0x8000 8
    rfl rfl (by decide) rfl (by decide) (by decide) (by decide) (by decide)).2.1
    (by decide)).trans (by decide)

/-- C6 (byte swap round trip).  The round trip `swapEndian(swapEndian(x, b), b) = x`
holds for `b` in {8, 16, 24, 32} whenever `x < 2^31`, but not for every `x < 2^32`
at `b = 32`: the result passes through `int t_data` and is sign-extended, so
`swapEndian(0x80000000, 32) = 0x80` and `swapEndian(0x80, 32) = 0xFFFFFFFF80000000`. -/
theorem swapEndian_round_trip :
    (∀ b x : Nat, (b = 8 ∨ b = 16 ∨ b = 24 ∨ b = 32) → x < 2 ^ b → x < 2 ^ 31 →
      ∃ y, swapEndian x b = .ok y ∧ swapEndian y b = .ok x) ∧
    swapEndian 0x80000000 32 = .ok 0x80 ∧
    swapEndian 0x80 32 = .ok 0xFFFFFFFF80000000 ∧
    ¬ (∃ y, swapEndian 0x80000000 32 = .ok y ∧ swapEndian y 32 = .ok 0x80000000) := by
  refine ⟨swapEndian_round_trip_small, by decide, by decide, ?_⟩
  rintro ⟨y, h1, h2⟩
  have e1 : swapEndian 0x80000000 32 = .ok 0x80 := by decide
  rw [e1] at h1
  injection h1 with h1
  subst h1
  revert h2
  decide

/-- C7 (`decLength`).  `decLength` returns 0 for the empty string and for every
string that holds a character outside `'0'..'9'`; for every canonical decimal
string (digits without a leading zero, or "0") denoting `v` it returns 1 when
`v = 0`, `floor(log2 v) + 1` when `1 <= v < 2^64`, and 65 when `v >= 2^64`.  The
last conjunct is the check of the table itself: every row of `metas` points at
the powers of two of its decimal length in `powers`, for the lengths 1 to 20. -/
theorem decLength_contract :
    decLength [] = 0 ∧
    (∀ p : List Char, (∃ c ∈ p, ¬ IsDigit c) → decLength p = 0) ∧
    (∀ p : List Char, Canonical p →
      decLength p = if decValue p = 0 then 1
        else if decValue p < 2 ^ 64 then Nat.log 2 (decValue p) + 1 else 65) ∧
    metasOk = true := by
  refine ⟨by decide, ?_, ?_, metasOk_true⟩
  · intro p h
    unfold decLength
    rw [decScan_nondigit p 0 h]
  · intro p hc
    have h : decLength p = decContract (decValue p) := by
      by_cases h20 : p.length ≤ 20
      · exact decLength_canonical_short p hc h20
      · exact decLength_canonical_long p hc (by omega)
    exact h

/-- Witness for C7: the canonical string "18446744073709551615" denotes
`2^64 - 1`, which needs 64 bits. -/
theorem decLength_contract_witness :
    Canonical "18446744073709551615".toList ∧
    decLength "18446744073709551615".toList
      = if decValue "18446744073709551615".toList = 0 then 1
        else if decValue "18446744073709551615".toList < 2 ^ 64
          then Nat.log 2 (decValue "18446744073709551615".toList) + 1 else 65 :=
  ⟨by decide, decLength_contract.2.2.1 "18446744073709551615".toList (by decide)⟩

/-- C8 (`$` and `%` literals).  For `$` followed by `n >= 1` hexadecimal digits
`bitLength` returns `4 * n`, and for `%` followed by `n >= 1` binary digits it
returns `n`, whenever the result fits the `uint` that counts it; the result is
the same for every evaluator, which is therefore not consulted, and the text is
returned as it was. -/
theorem bitLength_sigil_literals (ev : Evaluator) (t : Table) (ds : List Char)
    (hn : 1 ≤ ds.length) :
    ((∀ c ∈ ds, IsHexDigit c) → 4 * ds.length < 2 ^ 32 →
      bitLength ev t ('$' :: ds) = .ok (4 * ds.length, '$' :: ds)) ∧
    ((∀ c ∈ ds, IsBinDigit c) → ds.length < 2 ^ 32 →
      bitLength ev t ('%' :: ds) = .ok (ds.length, '%' :: ds)) := by
  constructor
  · intro hd hlt
    have hl : hexLength ds = 4 * ds.length := by
      rw [hexLength_digits ds hd, Nat.mod_eq_of_lt hlt]
    have hne : ¬ (4 * ds.length = 0) := by omega
    unfold bitLength
    simp [charAt, hl, hne]
  · intro hd hlt
    have hl : binLength ds = ds.length := by
      rw [binLength_digits ds hd, Nat.mod_eq_of_lt hlt]
    have hne : ¬ (ds.length = 0) := by omega
    unfold bitLength
    simp [charAt, hl, hne]

/-- Witness for C8: `$1aF0` has 16 bits and `%0101` has 4, with an evaluator
that throws whenever it is called. -/
theorem bitLength_sigil_literals_witness :
    bitLength Scenario.noEvaluator {} "$1aF0".toList = .ok (4 * 4, "$1aF0".toList) ∧
    bitLength Scenario.noEvaluator {} "%0101".toList = .ok (4, "%0101".toList) :=
  ⟨(bitLength_sigil_literals Scenario.noEvaluator {} "1aF0".toList (by decide)).1
      (by decide) (by decide),
   (bitLength_sigil_literals Scenario.noEvaluator {} "0101".toList (by decide)).2
      (by decide) (by decide)⟩

/-- C9 (`0x` and `0b` literals).  The widths that `hexLength` and `binLength`
compute for `0x...` and `0b...` are overwritten by `decLength`, which returns 0
for a text that holds `x` or `b`: `bitLength` falls through to the evaluator for
every such literal.  For `0x0042` the digits count 16 bits, and with an evaluator
that reads the literal as 66 the result is 7. -/
theorem bitLength_0x_consults_evaluator :
    (∀ (ev : Evaluator) (t : Table) (ds : List Char),
      bitLength ev t ('0' :: 'x' :: ds)
        = match ev.evaluate t ('0' :: 'x' :: ds) with
          | .error e => .error e
          | .ok data => .ok (if data ≥ 0 then ev.log2Bits data else 64, '0' :: 'x' :: ds)) ∧
    (∀ (ev : Evaluator) (t : Table) (ds : List Char),
      bitLength ev t ('0' :: 'b' :: ds)
        = match ev.evaluate t ('0' :: 'b' :: ds) with
          | .error e => .error e
          | .ok data => .ok (if data ≥ 0 then ev.log2Bits data else 64, '0' :: 'b' :: ds)) ∧
    hexLength "0042".toList = 16 ∧
    bitLength Scenario.env.toEvaluator {} "0x0042".toList = .ok (7, "0x0042".toList) ∧
    bitLength Scenario.noEvaluator {} "0x0042".toList = .error Error.evaluator := by
  refine ⟨?_, ?_, by decide, by decide, by decide⟩
  · intro ev t ds
    have hd : decLength ('0' :: 'x' :: ds) = 0 := by
      simp [decLength, decScan]
    unfold bitLength
    simp [charAt, hd]
  · intro ev t ds
    have hd : decLength ('0' :: 'b' :: ds) = 0 := by
      simp [decLength, decScan]
    unfold bitLength
    simp [charAt, hd]

end Table

namespace Bass

/-- C10 (overwrite tracker).  With tracking enabled and the target file offset
at `a`, with `a + length` within the range of the `uint64_t` offset:
`track(length)` raises the overwrite error if and only if an address of
`[a, a + length)` is already in the address set; every error it raises is an
overwrite error for such an address; and when no address of the range is in the
set it returns with the set united with `{a, ..., a + length - 1}` and nothing
else changed. -/
theorem track_overwrite (b : Bass) (length : Nat) (he : b.tracker.enable = true)
    (hfit : b.targetOffset + length ≤ 2 ^ 64) :
    ((∃ e, track b length = .error e) ↔
      ∃ x, b.targetOffset ≤ x ∧ x < b.targetOffset + length ∧ x ∈ b.tracker.addresses) ∧
    (∀ e, track b length = .error e →
      ∃ x, e = Error.overwrite x ∧ b.targetOffset ≤ x ∧ x < b.targetOffset + length ∧
        x ∈ b.tracker.addresses) ∧
    ((¬ ∃ x, b.targetOffset ≤ x ∧ x < b.targetOffset + length ∧ x ∈ b.tracker.addresses) →
      track b length = .ok { b with tracker := { b.tracker with
        addresses := b.tracker.addresses ∪
          Finset.Ico b.targetOffset (b.targetOffset + length) } }) := by
  have hspec := trackLoop_spec b.targetOffset length 0 b.tracker.addresses (by omega)
  simp only [Nat.add_zero] at hspec
  have hen : ¬ (b.tracker.enable = false) := by rw [he]; decide
  have hbad : (∃ x, b.targetOffset ≤ x ∧ x < b.targetOffset + length ∧ x ∈ b.tracker.addresses) →
      ∃ x, track b length = .error (Error.overwrite x) ∧ b.targetOffset ≤ x ∧
        x < b.targetOffset + length ∧ x ∈ b.tracker.addresses := by
    intro h
    obtain ⟨y, y1, y2, y3, y4⟩ := hspec.2 h
    refine ⟨y, ?_, y1, y2, y3⟩
    unfold track
    rw [if_neg hen, y4]
  have hgood : (¬ ∃ x, b.targetOffset ≤ x ∧ x < b.targetOffset + length ∧
      x ∈ b.tracker.addresses) →
      track b length = .ok { b with tracker := { b.tracker with
        addresses := b.tracker.addresses ∪
          Finset.Ico b.targetOffset (b.targetOffset + length) } } := by
    intro h
    have hfree : ∀ x, b.targetOffset ≤ x → x < b.targetOffset + length →
        x ∉ b.tracker.addresses := fun x h1 h2 h3 => h ⟨x, h1, h2, h3⟩
    unfold track
    rw [if_neg hen, hspec.1 hfree]
  refine ⟨⟨?_, ?_⟩, ?_, hgood⟩
  · rintro ⟨e, herr⟩
    by_contra hno
    rw [hgood hno] at herr
    exact absurd herr (by simp)
  · intro h
    obtain ⟨x, hx, _⟩ := hbad h
    exact ⟨_, hx⟩
  · intro e herr
    by_cases hex : ∃ x, b.targetOffset ≤ x ∧ x < b.targetOffset + length ∧
        x ∈ b.tracker.addresses
    · obtain ⟨x, hx, h1, h2, h3⟩ := hbad hex
      rw [hx] at herr
      injection herr with herr
      exact ⟨x, herr.symm, h1, h2, h3⟩
    · rw [hgood hex] at herr
      exact absurd herr (by simp)

/-- Witness for C10: at offset 3, with the addresses 1 and 5 written, a write
of 2 bytes passes and adds the addresses 3 and 4, and a write of 4 bytes raises
an error exactly because the address 5 of its range is in the set. -/
theorem track_overwrite_witness :
    track { tracker := { enable := true, addresses := {1, 5} }, targetOffset := 3 } 2
      = .ok { tracker := { enable := true, addresses := {1, 5} ∪ Finset.Ico 3 (3 + 2) },
              targetOffset := 3 } ∧
    ((∃ e, track { tracker := { enable := true, addresses := {1, 5} }, targetOffset := 3 } 4
        = .error e) ↔
      ∃ x, 3 ≤ x ∧ x < 3 + 4 ∧ x ∈ ({1, 5} : Finset Nat)) :=
  ⟨(track_overwrite { tracker := { enable := true, addresses := {1, 5} }, targetOffset := 3 }
      2 rfl (by decide)).2.2 (by
        rintro ⟨x, h1, h2, h3⟩
        simp only [Finset.mem_insert, Finset.mem_singleton] at h1 h2 h3
        omega),
   (track_overwrite { tracker := { enable := true, addresses := {1, 5} }, targetOffset := 3 }
      4 rfl (by decide)).1⟩

end Bass
/-! ## Theorems: `Bass::write` and the pass driver -/

namespace Bass

/-- C11 as stated fails: the overwrite check is behind `if(!tracker.enable)
return;`.  On a freshly opened target file in the write phase, with tracking
off, `write(0xAA, 1)` puts a byte at offset 0; after `seek(0)` the call
`write(0xBB, 1)` covers offset 0 again and returns normally, and the file has
been written twice at offset 0. -/
theorem write_overwrite_untracked :
    ((write Scenario.opened 0xAA 1).bind fun b1 =>
        write (seek b1 0) 0xBB 1).map (fun b2 => (b2.targetOpen, b2.phase, b2.targetData))
      = .ok (true, Phase.Write, [(0, 0xAA), (0, 0xBB)]) := by
  decide

/-- C11, amended: at most one write per output byte is enforced while overwrite
tracking is on.  In the write phase with a target file attached, tracking
enabled and every offset written since the file was opened recorded in the
address set (and the write within the range of the 64-bit offset), a call of
`write` that covers an offset already written raises the overwrite error for an
offset of its range; a call that returns leaves the phase, the file and the
switch as they were, the offset advanced by `length`, and every written offset
recorded again.  Opening the target file establishes the condition: nothing is
written yet. -/
theorem write_overwrite_tracked (b : Bass) (data length : Nat) (hp : b.phase = Phase.Write)
    (ho : b.targetOpen = true) (he : b.tracker.enable = true)
    (hfit : b.targetOffset + length < 2 ^ 64)
    (hinv : ∀ e ∈ b.targetData, e.1 ∈ b.tracker.addresses) :
    ((∃ e ∈ b.targetData, b.targetOffset ≤ e.1 ∧ e.1 < b.targetOffset + length) →
      ∃ x, write b data length = .error (Error.overwrite x) ∧ b.targetOffset ≤ x ∧
        x < b.targetOffset + length) ∧
    (∀ b1, write b data length = .ok b1 →
      b1.phase = Phase.Write ∧ b1.targetOpen = true ∧ b1.tracker.enable = true ∧
      b1.targetOffset = b.targetOffset + length ∧
      (∀ e ∈ b1.targetData, e.1 ∈ b1.tracker.addresses)) ∧
    (∀ e ∈ (target b true true).2.targetData, e.1 ∈ (target b true true).2.tracker.addresses) := by
  have hw : b.writePhase = true := by simp [writePhase, hp]
  refine ⟨?_, ?_, ?_⟩
  · rintro ⟨e, hmem, h1, h2⟩
    obtain ⟨x, hx, x1, x2, _⟩ :=
      track_hit b length he (by omega) ⟨e.1, h1, h2, hinv e hmem⟩
    refine ⟨x, ?_, x1, x2⟩
    simp only [write, hw, ho, if_true, hx]
  · intro b1 hok
    by_cases hex : ∃ x, b.targetOffset ≤ x ∧ x < b.targetOffset + length ∧
        x ∈ b.tracker.addresses
    · obtain ⟨x, hx, _⟩ := track_hit b length he (by omega) hex
      simp only [write, hw, ho, if_true, hx] at hok
      exact absurd hok (by simp)
    · have hfree : ∀ x, b.targetOffset ≤ x → x < b.targetOffset + length →
          x ∉ b.tracker.addresses := fun x h1 h2 h3 => hex ⟨x, h1, h2, h3⟩
      have ht := track_free b length he (by omega) hfree
      simp only [write, hw, ho, if_true, ht, writel, writem] at hok
      have hl : (List.range length).length = length := List.length_range _
      have hr : (List.range length).reverse.length = length := by simp
      cases hend : b.endian
      · simp only [hend] at hok
        rw [foldl_filePut _ _ _ (by simp only [hl]; exact hfit)] at hok
        injection hok with hok
        subst hok
        simp only [hl, hp, ho, he, true_and]
        intro e hmem
        rcases List.mem_append.1 hmem with h | h
        · exact Finset.mem_union_left _ (hinv e h)
        · have := (List.of_mem_zip h).1
          rw [List.mem_range'_1] at this
          exact Finset.mem_union_right _ (Finset.mem_Ico.2 this)
      · simp only [hend] at hok
        rw [foldl_filePut _ _ _ (by simp only [hr]; exact hfit)] at hok
        injection hok with hok
        subst hok
        simp only [hr, hp, ho, he, true_and]
        intro e hmem
        rcases List.mem_append.1 hmem with h | h
        · exact Finset.mem_union_left _ (hinv e h)
        · have := (List.of_mem_zip h).1
          rw [List.mem_range'_1] at this
          exact Finset.mem_union_right _ (Finset.mem_Ico.2 this)
  · intro e hmem
    simp [target] at hmem

/-- Witness for C11: with tracking on and offset 0 written and recorded, a
write of one byte at offset 0 raises the overwrite error. -/
theorem write_overwrite_tracked_witness :
    ∃ x, write Scenario.tracked 0xBB 1 = .error (Error.overwrite x) ∧
      Scenario.tracked.targetOffset ≤ x ∧ x < Scenario.tracked.targetOffset + 1 :=
  (write_overwrite_tracked Scenario.tracked 0xBB 1 rfl rfl rfl (by decide) (by decide)).1
    ⟨(0, 0xAA), by decide, by decide, by decide⟩

/-- C12 (frame of `write`).  Whenever `write(data, length)` returns, in any
phase, `origin` is the old `origin` plus `length` as a `uint` (exactly
`origin + length` when that is below 2^32), `base` is unchanged and `pc()` has
advanced by `length` as a `uint`.  Outside the write phase the call returns and
changes nothing but `origin`: the tracker, the target file and stdout are as
they were. -/
theorem write_advances_origin (b : Bass) (data length : Nat) :
    (∀ b1, write b data length = .ok b1 →
      b1.origin = (b.origin + length) % 2 ^ 32 ∧ b1.base = b.base ∧
      b1.pc = (b.pc + length) % 2 ^ 32 ∧
      (b.origin + length < 2 ^ 32 → b1.origin = b.origin + length)) ∧
    (b.phase ≠ Phase.Write →
      write b data length = .ok { b with origin := (b.origin + length) % 2 ^ 32 }) := by
  constructor
  · intro b1 hok
    obtain ⟨b2, h1, h2, rfl⟩ := write_ok b b1 data length hok
    refine ⟨by simp only [h1], h2, ?_, fun hlt => ?_⟩
    · simp only [pc, h1, h2]
      exact pc_advance _ _ _
    · simp only [h1]
      exact Nat.mod_eq_of_lt hlt
  · intro hp
    have hw : b.writePhase = false := by simp [writePhase, hp]
    simp [write, hw]

/-- C13 (phases of `assemble`).  For every pass executor that raises no error,
`assemble` returns `true` and the passes it began are `Analyze`, `Query`, `k`
times `Refine` and `Write`, in this order, with `k` at most nine (the loop runs
for `passes` from 2 to 10), hence at most ten: `Analyze`, `Query` and `Write`
occur once each and `Write` is the last pass. -/
theorem assemble_phase_order {ρ : Type} (exec : Phase → Driver ρ → Except Error (Driver ρ))
    (d : Driver ρ) (h : ∀ ph d0, ∃ d1, exec ph d0 = .ok d1) :
    (assemble exec d).result = true ∧
    (∃ k, k ≤ 9 ∧ (assemble exec d).passes
        = [Phase.Analyze, Phase.Query] ++ List.replicate k Phase.Refine ++ [Phase.Write]) ∧
    (assemble exec d).passes.count Phase.Analyze = 1 ∧
    (assemble exec d).passes.count Phase.Query = 1 ∧
    (assemble exec d).passes.count Phase.Write = 1 ∧
    (assemble exec d).passes.count Phase.Refine ≤ 10 ∧
    (assemble exec d).passes.getLast? = some Phase.Write := by
  obtain ⟨k, hk, d3, hp, hr, _⟩ := assemble_passes exec d (fun ph d0 _ => h ph d0)
  refine ⟨hr.2 (h Phase.Write d3), ⟨k, hk, hp⟩, ?_, ?_, ?_, ?_, ?_⟩
  · rw [hp]; simp [List.count_replicate]
  · rw [hp]; simp [List.count_replicate]
  · rw [hp]; simp [List.count_replicate]
  · rw [hp]; simp [List.count_replicate]; omega
  · rw [hp, List.getLast?_append]; rfl

/-- Witness for C13: an executor that raises no error and never lets the
constants settle. -/
theorem assemble_phase_order_witness :
    (assemble Scenario.restless { rest := () }).result = true ∧
    (∃ k, k ≤ 9 ∧ (assemble Scenario.restless { rest := () }).passes
        = [Phase.Analyze, Phase.Query] ++ List.replicate k Phase.Refine ++ [Phase.Write]) ∧
    (assemble Scenario.restless { rest := () }).passes.count Phase.Analyze = 1 ∧
    (assemble Scenario.restless { rest := () }).passes.count Phase.Query = 1 ∧
    (assemble Scenario.restless { rest := () }).passes.count Phase.Write = 1 ∧
    (assemble Scenario.restless { rest := () }).passes.count Phase.Refine ≤ 10 ∧
    (assemble Scenario.restless { rest := () }).passes.getLast? = some Phase.Write :=
  assemble_phase_order Scenario.restless { rest := () } (fun _ _ => ⟨_, rfl⟩)

/-- C14 as stated fails.  With an executor that raises no error, `assemble`
returns `true` and ends with a pass in the write phase both when a held
constant has changed in every pass (nine `Refine` passes, then `Write`) and when
the first inspection finds no change and an unassigned constant (the loop is
left at once, then `Write`). -/
theorem assemble_nonconvergent_writes :
    (assemble Scenario.restless { rest := () }).result = true ∧
    (assemble Scenario.restless { rest := () }).passes
      = [Phase.Analyze, Phase.Query, Phase.Refine, Phase.Refine, Phase.Refine, Phase.Refine,
         Phase.Refine, Phase.Refine, Phase.Refine, Phase.Refine, Phase.Refine, Phase.Write] ∧
    (assemble Scenario.unassigned { rest := () }).result = true ∧
    (assemble Scenario.unassigned { rest := () }).passes
      = [Phase.Analyze, Phase.Query, Phase.Write] := by
  decide

/-- C14, amended: when refinement does not converge, `assemble` leaves the
loop and still begins the pass in the write phase; it returns `false` only when
a pass raised an error.  For every executor that raises no error in the
`Analyze`, `Query` and `Refine` phases, however the refinement loop ends, the
passes begun are `Analyze`, `Query`, at most nine times `Refine`, and `Write`;
the result is `true` exactly when the `Write` pass returns and `false` exactly
when it raises an error. -/
theorem assemble_write_after_refinement {ρ : Type}
    (exec : Phase → Driver ρ → Except Error (Driver ρ)) (d : Driver ρ)
    (h : ∀ ph d0, ph ≠ Phase.Write → ∃ d1, exec ph d0 = .ok d1) :
    ∃ k, k ≤ 9 ∧ ∃ d3,
      (assemble exec d).passes
        = [Phase.Analyze, Phase.Query] ++ List.replicate k Phase.Refine ++ [Phase.Write] ∧
      ((assemble exec d).result = true ↔ ∃ d4, exec Phase.Write d3 = .ok d4) ∧
      ((assemble exec d).result = false ↔ ∃ e, exec Phase.Write d3 = .error e) :=
  assemble_passes exec d h

/-- Witness for C14: an executor that leaves a constant unassigned; the `Write`
pass is begun and decides the result. -/
theorem assemble_write_after_refinement_witness :
    ∃ k, k ≤ 9 ∧ ∃ d3,
      (assemble Scenario.unassigned { rest := () }).passes
        = [Phase.Analyze, Phase.Query] ++ List.replicate k Phase.Refine ++ [Phase.Write] ∧
      ((assemble Scenario.unassigned { rest := () }).result = true ↔
        ∃ d4, Scenario.unassigned Phase.Write d3 = .ok d4) ∧
      ((assemble Scenario.unassigned { rest := () }).result = false ↔
        ∃ e, Scenario.unassigned Phase.Write d3 = .error e) :=
  assemble_write_after_refinement Scenario.unassigned { rest := () } (fun _ _ _ => ⟨_, rfl⟩)

end Bass

/-! ## Theorems: the table parser and the bit mask of `writeBits` -/

namespace Table

/-- C15 (shape of the parsed LHS).  For every pattern text in which each `*` is
followed by two decimal digits (a C string, so without a NUL inside),
`assembleTableLHS` on an empty opcode leaves as many prefixes as descriptors or
one more, the widths of the descriptors are, in order, the two-digit decimal
numbers that follow the `*` of the text, and no prefix text contains `*`; the
`size` of each prefix is the length of its text. -/
theorem assembleTableLHS_shape (text : List Char) (hwf : WellFormedLHS text)
    (hnul : NulFree text) :
    ((assembleTableLHS {} text).prefix_.length = (assembleTableLHS {} text).number.length ∨
     (assembleTableLHS {} text).prefix_.length
       = (assembleTableLHS {} text).number.length + 1) ∧
    (assembleTableLHS {} text).number.map (fun n => n.bits) = wildcardWidths text ∧
    (∀ p ∈ (assembleTableLHS {} text).prefix_, '*' ∉ p.text ∧ p.size = p.text.length) := by
  obtain ⟨ps, ns, hrun, h1, h2, _, h4⟩ := assembleTableLHS_run text hwf hnul
  rw [hrun]
  refine ⟨?_, h1, h2⟩
  rcases h4 with ⟨h, _⟩ | ⟨h, _⟩
  · exact Or.inl h
  · exact Or.inr h

/-- Witness for C15: the pattern text `lda #*08,*16`. -/
theorem assembleTableLHS_shape_witness :
    ((assembleTableLHS {} "lda #*08,*16".toList).prefix_.length
        = (assembleTableLHS {} "lda #*08,*16".toList).number.length ∨
     (assembleTableLHS {} "lda #*08,*16".toList).prefix_.length
        = (assembleTableLHS {} "lda #*08,*16".toList).number.length + 1) ∧
    (assembleTableLHS {} "lda #*08,*16".toList).number.map (fun n => n.bits)
      = wildcardWidths "lda #*08,*16".toList ∧
    (∀ p ∈ (assembleTableLHS {} "lda #*08,*16".toList).prefix_,
      '*' ∉ p.text ∧ p.size = p.text.length) :=
  assembleTableLHS_shape "lda #*08,*16".toList (by simp [WellFormedLHS, IsDigit]) (by decide)

/-- C16 as stated fails: nothing compares an argument letter with the number of
wildcards.  The table line `lda #*08; $a9 =b` has one wildcard, and its format
`=b` names the argument of index 1. -/
theorem lineOpcode_argument_unchecked :
    ((lineOpcode "lda #*08".toList "$a9 =b".toList).format.map fun f => (f.type, f.argument))
      = [(FormatType.Static, 0), (FormatType.Absolute, 1)] ∧
    (lineOpcode "lda #*08".toList "$a9 =b".toList).number.length = 1 := by
  decide

/-- C16, amended: a format that names an argument has the index of the argument
letter of its token, whatever the LHS is.  For every table line, every format
of the opcode other than a `Static` one comes from a token of the RHS, and its
`argument` is the value of the expression of `assembleTableRHS` on the
character at the place of the argument letter in that token; when that
character is a letter, this is its index (`a..z` are 0 to 25, `A..Z` 26 to 51),
below 52.  The descriptors are those of the LHS alone. -/
theorem lineOpcode_argument_letter (lhs rhs : List Char) (f : Format)
    (hf : f ∈ (lineOpcode lhs rhs).format) (hs : f.type ≠ FormatType.Static) :
    (lineOpcode lhs rhs).number = (assembleTableLHS {} lhs).number ∧
    ∃ item ∈ splitBlank rhs, rhsItem item = some f ∧
      f.argument = argumentOf (charAt item (letterPosition f.type)) ∧
      (IsLetter (charAt item (letterPosition f.type)) →
        f.argument = letterIndex (charAt item (letterPosition f.type)) ∧ f.argument < 52) := by
  obtain ⟨hfmt, hnum⟩ := lineOpcode_parts lhs rhs
  refine ⟨hnum, ?_⟩
  rw [hfmt, List.mem_filterMap] at hf
  obtain ⟨item, hmem, hitem⟩ := hf
  have harg := rhsItem_argument item f hitem hs
  refine ⟨item, hmem, hitem, harg, fun hl => ?_⟩
  have hidx := argumentOf_letter _ hl
  refine ⟨harg.trans hidx, ?_⟩
  rw [harg, hidx]
  unfold IsLetter at hl
  unfold letterIndex
  have ea : 'a'.toNat = 97 := by decide
  have ez : 'z'.toNat = 122 := by decide
  have eA : 'A'.toNat = 65 := by decide
  have eZ : 'Z'.toNat = 90 := by decide
  rw [ea, ez, eA, eZ] at hl
  rw [ea, ez, eA]
  split <;> omega

/-- Witness for C16: the format `=b` of the table line `lda #*08; $a9 =b`. -/
theorem lineOpcode_argument_letter_witness :
    (lineOpcode "lda #*08".toList "$a9 =b".toList).number
      = (assembleTableLHS {} "lda #*08".toList).number ∧
    ∃ item ∈ splitBlank "$a9 =b".toList,
      rhsItem item = some { type := .Absolute, match_ := .Strong, argument := 1 } ∧
      (1 : Nat) = argumentOf (charAt item 1) ∧
      (IsLetter (charAt item 1) → (1 : Nat) = letterIndex (charAt item 1) ∧ (1 : Nat) < 52) :=
  lineOpcode_argument_letter "lda #*08".toList "$a9 =b".toList
    { type := .Absolute, match_ := .Strong, argument := 1 } (by decide) (by decide)

/-- C17 (matcher pattern).  For every non-empty pattern text in which each `*`
is followed by two decimal digits, the pattern that `assembleTableLHS` builds on
an empty opcode is the text with every `*NN` replaced by `*`; it has as many `*`
as the opcode has descriptors, and it ends with `*` exactly when the text ends
with a wildcard, that is with `*` and two more characters. -/
theorem assembleTableLHS_pattern (text : List Char) (hne : text ≠ [])
    (hwf : WellFormedLHS text) (hnul : NulFree text) :
    (assembleTableLHS {} text).pattern = starred text ∧
    List.count '*' (assembleTableLHS {} text).pattern
      = (assembleTableLHS {} text).number.length ∧
    ((assembleTableLHS {} text).pattern.getLast? = some '*' ↔
      ∃ pre d1 d2, text = pre ++ ['*', d1, d2]) := by
  obtain ⟨ps, ns, hrun, _, h2, h3, h4⟩ := assembleTableLHS_run text hwf hnul
  have hpat := lhsPattern_eq text ps ns (h3 hne) h4
  rw [hrun]
  simp only [hpat]
  refine ⟨trivial, ?_, starred_last text.length text (le_refl _) hwf hne⟩
  have hcount := join_count ps (fun p hp => (h2 p hp).1)
  rcases h4 with ⟨h, hj⟩ | ⟨h, hj⟩
  · rw [← hj, hcount, h]
  · rw [hj, List.count_append] at hcount
    simp at hcount
    omega

/-- Witness for C17: the pattern text `mov *08,x`, whose pattern is `mov *,x`. -/
theorem assembleTableLHS_pattern_witness :
    (assembleTableLHS {} "mov *08,x".toList).pattern = starred "mov *08,x".toList ∧
    List.count '*' (assembleTableLHS {} "mov *08,x".toList).pattern
      = (assembleTableLHS {} "mov *08,x".toList).number.length ∧
    ((assembleTableLHS {} "mov *08,x".toList).pattern.getLast? = some '*' ↔
      ∃ pre d1 d2, "mov *08,x".toList = pre ++ ['*', d1, d2]) :=
  assembleTableLHS_pattern "mov *08,x".toList (by decide)
    (by simp [WellFormedLHS, IsDigit]) (by decide)

/-- C18 as stated fails: the `Static` branch asks for a token of length 3.  The
tokens `$a9f0` (four digits) and `$a` (one digit) add no format at all. -/
theorem rhs_static_other_lengths :
    (assembleTableRHS {} "$a9f0".toList).format = [] ∧
    (assembleTableRHS {} "$a".toList).format = [] := by
  decide

/-- C18, amended: a `$` token is a `Static` format when it has exactly two
hexadecimal digits.  For every token of `$` followed by hexadecimal digits,
`assembleTableRHS` appends exactly one `Static` format with the hexadecimal
value of the digits as data and `4 * (len - 1) = 8` bits when there are two
digits, and leaves the opcode unchanged for any other number of digits. -/
theorem rhs_static_two_digits (opcode : Opcode) (ds : List Char)
    (hhex : ∀ c ∈ ds, IsHexDigit c) :
    (ds.length = 2 →
      assembleTableRHS opcode ('$' :: ds)
        = { opcode with format := opcode.format ++
              [{ type := .Static, data := hexNumber ds, bits := 4 * ds.length }] }) ∧
    (ds.length ≠ 2 → assembleTableRHS opcode ('$' :: ds) = opcode) := by
  have hsplit : splitBlank ('$' :: ds) = ['$' :: ds] := by
    apply splitBlank_single
    intro c hc
    rcases List.mem_cons.1 hc with h | h
    · rw [h]; decide
    · exact hex_not_blank c (hhex c h)
  constructor
  · intro hlen
    match ds, hhex, hlen with
    | [h1, h2], hhex, _ =>
      have hitem : rhsItem ['$', h1, h2]
          = some { type := .Static, data := hexNumber [h1, h2], bits := 8 } := by
        unfold rhsItem
        simp only
        rw [if_pos ⟨rfl, rfl⟩]
        have hval : toHex (List.drop 1 ['$', h1, h2]) 0 = hexNumber [h1, h2] :=
          toHex_digits [h1, h2] 0 hhex
        have hlt : hexNumber [h1, h2] < 2 ^ 32 := by
          rw [hexNumber_two]
          have := hexDigitValue_lt h1
          have := hexDigitValue_lt h2
          omega
        rw [hval, wrapU_small _ hlt]
        rfl
      unfold assembleTableRHS
      rw [hsplit]
      simp [hitem]
  · intro hlen
    have hitem : rhsItem ('$' :: ds) = none :=
      rhsItem_dollar _ rfl (by simp only [List.length_cons]; omega)
    unfold assembleTableRHS
    rw [hsplit]
    simp [hitem]

/-- Witness for C18: the table line `nop; $ea` gives the single format
`Static` with data `0xEA` in 8 bits, and the statement `nop` assembles to the one
byte `0xEA`. -/
theorem rhs_static_two_digits_witness :
    (assembleTableRHS (assembleTableLHS {} "nop".toList) "$ea".toList
        = { prefix_ := [⟨"nop".toList, 3⟩], pattern := "nop".toList,
            format := [{ type := .Static, data := 0xEA, bits := 8 }] }) ∧
    (assemble AccWidth.u64 Scenario.env { table := [Scenario.nop] } "nop".toList).map
        (fun r => (r.1, r.2.sink)) = .ok (true, [0xEA]) :=
  ⟨((rhs_static_two_digits (assembleTableLHS {} "nop".toList) ['e', 'a'] (by decide)).1
      rfl).trans (by decide), by decide⟩

/-- C19 as stated fails: the data of a `Repeat` format is read from the fourth
character of the token on.  The token `*a1f` gives the data `0xf`, not `0x1f`. -/
theorem rhs_repeat_last_digit :
    (assembleTableRHS {} "*a1f".toList).format
      = [{ type := .Repeat, argument := 0, data := 0xf }] := by
  decide

/-- C19, amended: the data of a `Repeat` format is the value of the hexadecimal
digits that start at the fourth character of the token.  For an argument letter
`a` and hexadecimal digits `H1`, `H2`: the token `*aH1H2` appends one `Repeat`
format for the argument `a` whose data is the value of `H2` alone; with one
more character between the letter and the digits the data is the value of the
two-digit number.  Encoding a `Repeat` format writes its data in the declared
width of the argument, `evaluate(arg)` times (the count is a `uint`). -/
theorem rhs_repeat_from_fourth (opcode : Opcode) (a s h1 h2 : Char) (ha : IsLetter a)
    (hs : s ≠ ' ') (hh1 : IsHexDigit h1) (hh2 : IsHexDigit h2) :
    assembleTableRHS opcode ['*', a, h1, h2]
      = { opcode with format := opcode.format ++
            [{ type := .Repeat, argument := letterIndex a, data := hexDigitValue h2 }] } ∧
    assembleTableRHS opcode ['*', a, s, h1, h2]
      = { opcode with format := opcode.format ++
            [{ type := .Repeat, argument := letterIndex a,
               data := 16 * hexDigitValue h1 + hexDigitValue h2 }] } ∧
    (∀ (w : AccWidth) (ev : Evaluator) (pc : Nat) (number : List Number)
        (args : List (List Char)) (t : Table) (f : Format) (arg : List Char) (e : Int)
        (n : Number),
      f.type = FormatType.Repeat → args[f.argument]? = some arg →
      ev.evaluate t arg = .ok e → number[f.argument]? = some n →
      emitFormat w ev pc number args t f
        = .ok (writeAll w t (List.replicate (wrapU 32 e) (f.data, n.bits)))) := by
  have hb1 := hex_not_blank h1 hh1
  have hb2 := hex_not_blank h2 hh2
  have hba := letter_not_blank a ha
  have hd1 := hexDigitValue_lt h1
  have hd2 := hexDigitValue_lt h2
  refine ⟨?_, ?_, ?_⟩
  · have hsplit : splitBlank ['*', a, h1, h2] = [['*', a, h1, h2]] := by
      apply splitBlank_single
      intro c hc
      simp only [List.mem_cons, List.mem_singleton, List.not_mem_nil, or_false] at hc
      rcases hc with h | h | h | h <;> rw [h]
      · decide
      · exact hba
      · exact hb1
      · exact hb2
    have hitem := rhsItem_star ['*', a, h1, h2] rfl
    have hval : toHex (List.drop 3 ['*', a, h1, h2]) 0 = hexDigitValue h2 := by
      rw [show List.drop 3 ['*', a, h1, h2] = [h2] from rfl,
        toHex_digits [h2] 0 (by simpa using hh2)]
      simp
    rw [hval, wrapU_small _ (by omega),
      show charAt ['*', a, h1, h2] 1 = a from rfl, argumentOf_letter a ha] at hitem
    unfold assembleTableRHS
    rw [hsplit]
    simp [hitem]
  · have hsplit : splitBlank ['*', a, s, h1, h2] = [['*', a, s, h1, h2]] := by
      apply splitBlank_single
      intro c hc
      simp only [List.mem_cons, List.mem_singleton, List.not_mem_nil, or_false] at hc
      rcases hc with h | h | h | h | h <;> rw [h]
      · decide
      · exact hba
      · exact hs
      · exact hb1
      · exact hb2
    have hitem := rhsItem_star ['*', a, s, h1, h2] rfl
    have hval : toHex (List.drop 3 ['*', a, s, h1, h2]) 0
        = 16 * hexDigitValue h1 + hexDigitValue h2 := by
      rw [show List.drop 3 ['*', a, s, h1, h2] = [h1, h2] from rfl,
        toHex_digits [h1, h2] 0 (by
          intro c hc
          simp only [List.mem_cons, List.mem_singleton, List.not_mem_nil, or_false] at hc
          rcases hc with h | h <;> rw [h]
          · exact hh1
          · exact hh2)]
      simp
    rw [hval, wrapU_small _ (by omega),
      show charAt ['*', a, s, h1, h2] 1 = a from rfl, argumentOf_letter a ha] at hitem
    unfold assembleTableRHS
    rw [hsplit]
    simp [hitem]
  · intro w ev pc number args t f arg e n hty harg hev hnum
    unfold emitFormat
    simp only [hty, harg, hev, hnum]
    split
    · rename_i h0
      rw [h0]
      rfl
    · rw [iterate_writeBits_eq]

/-- Witness for C19: the tokens `*a1f` and `*a:1f`. -/
theorem rhs_repeat_from_fourth_witness :
    assembleTableRHS {} "*a1f".toList
      = { format := [{ type := .Repeat, argument := letterIndex 'a',
                       data := hexDigitValue 'f' }] } ∧
    assembleTableRHS {} "*a:1f".toList
      = { format := [{ type := .Repeat, argument := letterIndex 'a',
                       data := 16 * hexDigitValue '1' + hexDigitValue 'f' }] } :=
  ⟨(rhs_repeat_from_fourth {} 'a' ':' '1' 'f' (by decide) (by decide) (by decide)
      (by decide)).1,
   (rhs_repeat_from_fourth {} 'a' ':' '1' 'f' (by decide) (by decide) (by decide)
      (by decide)).2.1⟩

/-- C20 (mask of `writeBits`), which fails at `n = 32`.  For `1 ≤ n ≤ 31`, on an
accumulator of at least 40 bits that holds `bitpos < 8` pending bits, the value
before flushing is `bitval * 2^n + data mod 2^n`.  For `n = 32` the mask
`(1 << 32) - 1` is computed in `int`: the shift count is taken modulo 32, the
mask is 0, and `writeBits(0xFFFFFFFF, 32)` on an empty accumulator holds 0 and
writes four zero bytes.  Whatever `int` the shift is taken to give, the mask
converted to `uint64_t` is not `2^32 - 1`. -/
theorem writeBits_mask_32 :
    (∀ (w : AccWidth) (t : Table) (data n : Nat), 40 ≤ w.val → 6 ≤ w.pos →
      1 ≤ n → n ≤ 31 → t.bitpos < 8 → t.bitval < 2 ^ t.bitpos →
      accumulate w t data n
        = { t with bitval := t.bitval * 2 ^ n + data % 2 ^ n, bitpos := t.bitpos + n }) ∧
    setBits 32 = 0 ∧
    (accumulate AccWidth.u64 {} 0xFFFFFFFF 32).bitval = 0 ∧
    (writeBits AccWidth.u64 {} 0xFFFFFFFF 32).sink = [0, 0, 0, 0] ∧
    (∀ r : Int, wrapU 64 (wrapS 32 (r - 1)) ≠ 2 ^ 32 - 1) := by
  refine ⟨?_, by decide, by decide, by decide, ?_⟩
  · intro w t data n hv hp h1 h31 hpos hval
    apply accumulate_eq w t data n h31 (by omega)
    · have h8 : t.bitval < 2 ^ 8 :=
        lt_of_lt_of_le hval (Nat.pow_le_pow_right (by norm_num) (by omega))
      calc t.bitval * 2 ^ n < 2 ^ 8 * 2 ^ n :=
            Nat.mul_lt_mul_of_pos_right h8 (Nat.pow_pos (by norm_num))
        _ = 2 ^ (8 + n) := by rw [pow_add]
        _ ≤ 2 ^ w.val := Nat.pow_le_pow_right (by norm_num) (by omega)
    · calc t.bitpos + n < 2 ^ 6 := by norm_num; omega
        _ ≤ 2 ^ w.pos := Nat.pow_le_pow_right (by norm_num) hp
  · intro r
    unfold wrapU wrapS
    norm_num
    omega

end Table

/-! ## Theorems: byte order, `swapEndian` widths, leading zeros, the inspection -/

namespace Table

/-- C21 as stated fails: the loop of `writeBits` hands `bitval` to `write`, which
sends its low byte, and then shifts `bitval` right by 8.  For
`writeBits(0x1234, 16)` on an empty accumulator the first byte is `0x34` and
the second `0x12`, under either endian setting. -/
theorem writeBits_low_byte_first :
    (writeBits AccWidth.u64 {} 0x1234 16).sink = [0x34, 0x12] ∧
    (writeBits AccWidth.u64 { endian := Endian.MSB } 0x1234 16).sink = [0x34, 0x12] := by
  decide

/-- C21, amended: two whole bytes left in the accumulator are sent
least-significant byte first.  For `writeBits(data, 16)` on an empty
accumulator (of at least 16 bits, with a position counter of at least 5 bits)
the bytes added to the sink are `data & 0xFF` and then `(data >> 8) & 0xFF`,
whatever the endian setting of the state, and no bit is left pending. -/
theorem writeBits_two_bytes (w : AccWidth) (t : Table) (data : Nat) (hv : 16 ≤ w.val)
    (hp : 5 ≤ w.pos) (h0 : t.bitval = 0) (h1 : t.bitpos = 0) :
    (writeBits w t data 16).sink = t.sink ++ [data % 256, data / 256 % 256] ∧
    (writeBits w t data 16).bitpos = 0 := by
  have hpos : (16 : Nat) < 2 ^ w.pos :=
    lt_of_lt_of_le (by norm_num) (Nat.pow_le_pow_right (by norm_num) hp)
  have hval : data % 2 ^ 16 < 2 ^ w.val :=
    lt_of_lt_of_le (Nat.mod_lt _ (by norm_num)) (Nat.pow_le_pow_right (by norm_num) hv)
  have hacc : accumulate w t data 16
      = { t with bitval := data % 2 ^ 16, bitpos := 16 } := by
    unfold accumulate
    simp only [h0, h1, Nat.zero_mul, Nat.zero_mod, Nat.zero_or, Nat.zero_add]
    rw [masked_eq_mod data 16 (by norm_num), Nat.mod_eq_of_lt hval, Nat.mod_eq_of_lt hpos]
  unfold writeBits
  simp only [hacc]
  simp only [flushLoop, write, show (16 : Nat) / 8 = 2 from rfl]
  norm_num
  omega

/-- Witness for C21: `writeBits(0x1234, 16)` under MSB endian. -/
theorem writeBits_two_bytes_witness :
    (writeBits AccWidth.u64 { endian := Endian.MSB } 0x1234 16).sink
        = ([] : List Nat) ++ [0x1234 % 256, 0x1234 / 256 % 256] ∧
    (writeBits AccWidth.u64 { endian := Endian.MSB } 0x1234 16).bitpos = 0 :=
  writeBits_two_bytes AccWidth.u64 { endian := Endian.MSB } 0x1234 (by decide) (by decide)
    rfl rfl

/-- C22 as stated fails: `swapEndian` moves whole bytes.  For `x = 0x41` and
`w = 22` it returns `0x410000`, which is not below `2^22`; in the run of the
claim (`#endian msb`, `jmp *24; $4c +0>>02a`, `pc = 0x100`, target `0x204`) the
22 bits that `writeBits` takes are `0x010000`: the bytes `4c 00 00` go out,
six bits of value 1 stay pending, and bit 6 of `x` is gone. -/
theorem swapEndian_exceeds_width :
    swapEndian 0x41 22 = .ok 0x410000 ∧ ¬ (0x410000 < 2 ^ 22) ∧
    (assemble AccWidth.u64 Scenario.env
        { endian := Endian.MSB, origin := 0x100, table := [Scenario.jmp] }
        "jmp $204".toList).map (fun r => (r.1, r.2.sink, r.2.bitval, r.2.bitpos))
      = .ok (true, [0x4c, 0, 0], 1, 6) := by
  decide

/-- C22, amended: `swapEndian(x, w)` is below `2^w` when `w` is at most 8, or 16,
or 24.  For every `w` from 1 to 32 and every `x < 2^w` the call returns; for
`w ≤ 24` the result is below 2 to the number of bits of the `⌈w/8⌉` bytes it
swaps, hence below `2^w` for `w ≤ 8`, `w = 16` and `w = 24`; for `w ≥ 25` it is
below `2^31` when the low byte of `x` is below `0x80`. -/
theorem swapEndian_byte_bound (x w : Nat) (h1 : 1 ≤ w) (h32 : w ≤ 32) (hx : x < 2 ^ w) :
    ∃ y, swapEndian x w = .ok y ∧
      (w ≤ 24 → y < 2 ^ (8 * ((w + 7) / 8))) ∧
      (w ≤ 8 ∨ w = 16 ∨ w = 24 → y < 2 ^ w) ∧
      (25 ≤ w → x % 2 ^ 8 < 2 ^ 7 → y < 2 ^ 31) := by
  obtain ⟨e1, e2, e3, e4⟩ := swapEndian_eq x w
  have hb : ∀ k, x / 2 ^ k % 2 ^ 8 < 2 ^ 8 := fun k => Nat.mod_lt _ (by norm_num)
  have hb0 : x % 2 ^ 8 < 2 ^ 8 := Nat.mod_lt _ (by norm_num)
  by_cases c1 : w ≤ 8
  · have hx8 : x < 2 ^ 8 := lt_of_lt_of_le hx (Nat.pow_le_pow_right (by norm_num) c1)
    refine ⟨_, e1 ⟨h1, c1⟩, ?_, ?_, ?_⟩
    · intro _
      rw [narrow_small x (by omega)]
      have : (w + 7) / 8 = 1 := by omega
      rw [this]
      exact hx8
    · intro _
      rw [narrow_small x (by omega)]
      exact hx
    · intro h; omega
  · by_cases c2 : w ≤ 16
    · have hx16 : x < 2 ^ 16 := lt_of_lt_of_le hx (Nat.pow_le_pow_right (by norm_num) c2)
      have hs : x / 2 ^ 8 % 2 ^ 8 + x % 2 ^ 8 * 2 ^ 8 < 2 ^ 16 := by
        have := hb 8
        omega
      refine ⟨_, e2 ⟨by omega, c2⟩, ?_, ?_, ?_⟩
      · intro _
        rw [narrow_small _ (by omega)]
        have : (w + 7) / 8 = 2 := by omega
        rw [this]
        exact hs
      · intro h
        have hw : w = 16 := by omega
        rw [narrow_small _ (by omega), hw]
        exact hs
      · intro h; omega
    · by_cases c3 : w ≤ 24
      · have hs : x / 2 ^ 16 % 2 ^ 8 + x / 2 ^ 8 % 2 ^ 8 * 2 ^ 8 + x % 2 ^ 8 * 2 ^ 16
            < 2 ^ 24 := by
          have := hb 8
          have := hb 16
          omega
        refine ⟨_, e3 ⟨by omega, c3⟩, ?_, ?_, ?_⟩
        · intro _
          rw [narrow_small _ (by omega)]
          have : (w + 7) / 8 = 3 := by omega
          rw [this]
          exact hs
        · intro h
          have hw : w = 24 := by omega
          rw [narrow_small _ (by omega), hw]
          exact hs
        · intro h; omega
      · refine ⟨_, e4 ⟨by omega, h32⟩, ?_, ?_, ?_⟩
        · intro h; omega
        · intro h; omega
        · intro _ hlow
          have hs : x / 2 ^ 24 % 2 ^ 8 + x / 2 ^ 16 % 2 ^ 8 * 2 ^ 8
              + x / 2 ^ 8 % 2 ^ 8 * 2 ^ 16 + x % 2 ^ 8 * 2 ^ 24 < 2 ^ 31 := by
            have := hb 8
            have := hb 16
            have := hb 24
            omega
          rw [narrow_small _ hs]
          exact hs

/-- Witness for C22: `x = 0x41`, `w = 22`, where only the bound by whole bytes
holds. -/
theorem swapEndian_byte_bound_witness :
    ∃ y, swapEndian 0x41 22 = .ok y ∧
      (22 ≤ 24 → y < 2 ^ (8 * ((22 + 7) / 8))) ∧
      (22 ≤ 8 ∨ 22 = 16 ∨ 22 = 24 → y < 2 ^ 22) ∧
      (25 ≤ 22 → 0x41 % 2 ^ 8 < 2 ^ 7 → y < 2 ^ 31) :=
  swapEndian_byte_bound 0x41 22 (by decide) (by decide) (by decide)

/-- C23 fails at the input of the claim: `decLength` selects the row of its
table by the number of characters.  The strings `007` and `7` denote the same
integer, and `decLength` gives 7 for the first and 3 for the second; `00` gives
4 where `0` gives 1. -/
theorem decLength_leading_zeros :
    decLength "007".toList = 7 ∧ decLength "7".toList = 3 ∧
    decValue "007".toList = 7 ∧ decValue "7".toList = 7 ∧
    decLength "00".toList = 4 ∧ decLength "0".toList = 1 := by
  decide

end Table

namespace Bass

/-- C24 as stated fails: the branch for an indeterminate constant clears `held`
before the test `changed && held`.  A constant that ended the pass changed,
held and indeterminate leaves `anyChanged` false, and with an executor that
ends every pass so, `assemble` runs no `Refine` pass at all. -/
theorem inspect_indeterminate_unseen :
    inspect [{ name := "x".toList, held := true, changed := true, indeterminate := true }]
      = ([{ name := "x".toList, held := false, changed := false, indeterminate := false }],
         false, false) ∧
    (assemble Scenario.wavering { rest := () }).passes
      = [Phase.Analyze, Phase.Query, Phase.Write] := by
  decide

/-- C24, amended: the inspection sets `anyChanged` exactly when some constant
ended the preceding pass with `changed` and `held` set and `indeterminate`
clear, whatever its `unknown` flag is.  After the inspection no remaining
constant has `changed` set, and when `anyChanged` is set an iteration of the
refinement loop goes on to a `Refine` pass. -/
theorem inspect_any_changed (constants : List Constant) :
    ((inspect constants).2.1 = true ↔
      ∃ c ∈ constants, c.changed = true ∧ c.held = true ∧ c.indeterminate = false) ∧
    (∀ c ∈ (inspect constants).1, c.changed = false) ∧
    (∀ {ρ : Type} (exec : Phase → Driver ρ → Except Error (Driver ρ)) (remaining : Nat)
        (r : Run ρ), r.driver.constants = constants → (inspect constants).2.1 = true →
      refineLoop exec (remaining + 1) r
        = match pass exec Phase.Refine
            { r with driver := { r.driver with orderedUnknowns := [],
                                               constants := (inspect constants).1 } } with
          | .error passes => .error passes
          | .ok r1 => refineLoop exec remaining r1) := by
  refine ⟨?_, ?_, ?_⟩
  · unfold inspect
    simp only [List.any_eq_true]
    constructor
    · rintro ⟨c, hc, h⟩
      refine ⟨c, hc, ?_⟩
      unfold inspectConstant at h
      cases hh : c.held <;> cases hi : c.indeterminate <;> cases hu : c.unknown <;>
        cases hch : c.changed <;> simp [hh, hi, hu, hch] at h ⊢
    · rintro ⟨c, hc, h1, h2, h3⟩
      refine ⟨c, hc, ?_⟩
      unfold inspectConstant
      cases hu : c.unknown <;> simp [h1, h2, h3, hu]
  · intro c hc
    unfold inspect at hc
    simp only [List.mem_filterMap] at hc
    obtain ⟨c0, _, h⟩ := hc
    unfold inspectConstant at h
    cases hh : c0.held <;> cases hi : c0.indeterminate <;> cases hu : c0.unknown <;>
      simp [hh, hi, hu] at h <;> rw [← h]
  · intro ρ exec remaining r hr hany
    have hne : ¬ ((inspect r.driver.constants).2.1 = false) := by
      rw [hr, hany]; decide
    rw [hr] at hne
    rw [refineLoop]
    simp only [hr]
    rw [if_neg hne]

end Bass

/-! ## Theorems: the Robin Hood `hashset` -/

namespace hashset

variable {T : Type}

/-- C25 (the `hashset` refines a finite set under insertion).  `operator==` is
an equivalence with which `hash()` agrees, `bit::round` leaves a power of two as
it is, and fewer than `2^30` distinct values are inserted.  Then the calls
`insert` of the values `vs`, in turn, on a default-constructed `hashset` all
return, and on the set `s` they leave: `size()` is the number of distinct values
of `vs`; `find(v)` returns an object equal to `v` exactly when a value equal to
`v` is in `vs`; whatever `find(v)` returns is one of `vs`, equal to `v`, and an
object of the finite set; and one more `insert` of a value equal to one of `vs`
returns the value and changes neither `size()` nor what `find` returns. -/
theorem inserts_refine_set (ops : Element T) (law : Lawful ops) (fuel : Nat)
    (hfuel : 2 ≤ fuel) (vs : List T)
    (hb : (specRun ops [] (vs.map Call.insert)).length < 2 ^ 30) :
    ∃ s, run ops fuel {} (vs.map Call.insert) = some s ∧
      size s = (specRun ops [] (vs.map Call.insert)).length ∧
      (∀ v, (∃ x, find ops s v = some x ∧ ops.eq x v = true) ↔
        ∃ u, u ∈ vs ∧ ops.eq u v = true) ∧
      (∀ v x, find ops s v = some x ↔
        x ∈ specRun ops [] (vs.map Call.insert) ∧ ops.eq x v = true) ∧
      (∀ v x, find ops s v = some x → x ∈ vs ∧ ops.eq x v = true) ∧
      (∀ v, (∃ u, u ∈ vs ∧ ops.eq u v = true) →
        ∃ s1, insert ops fuel s v = some (s1, some v) ∧ size s1 = size s ∧
          ∀ w, find ops s1 w = find ops s w) := by
  obtain ⟨f, rfl⟩ : ∃ f, fuel = f + 2 := ⟨fuel - 2, by omega⟩
  obtain ⟨s, hrun, href⟩ := run_refines ops law f (vs.map Call.insert) {} []
    (refines_default ops) (bounded_inserts ops vs [] hb)
  have hmem := fun v => specRun_inserts_mem ops law v vs []
  have hnil : ∀ v, ¬ ∃ x, x ∈ ([] : List T) ∧ ops.eq x v = true := by
    rintro v ⟨x, hx, _⟩
    exact absurd hx (List.not_mem_nil x)
  refine ⟨s, hrun, href.size, ?_, fun v x => find_refines ops law s _ href v x, ?_, ?_⟩
  · intro v
    constructor
    · rintro ⟨x, hx, hxv⟩
      rcases (hmem v).1 ⟨x, ((find_refines ops law s _ href v x).1 hx).1, hxv⟩ with h | h
      · exact absurd h (hnil v)
      · exact h
    · intro h
      obtain ⟨x, hx, hxv⟩ := (hmem v).2 (Or.inr h)
      exact ⟨x, (find_refines ops law s _ href v x).2 ⟨hx, hxv⟩, hxv⟩
  · intro v x hx
    obtain ⟨h1, h2⟩ := (find_refines ops law s _ href v x).1 hx
    rcases specRun_inserts_sub ops x vs [] h1 with h | h
    · exact absurd h (List.not_mem_nil x)
    · exact ⟨h, h2⟩
  · intro v hv
    obtain ⟨x, hx, hxv⟩ := (hmem v).2 (Or.inr hv)
    obtain ⟨s1, hins, hinv1, _, _, hA, _⟩ :=
      insert_spec ops law f s href.inv (by rw [href.size]; exact hb) v
    obtain ⟨hc, hst⟩ := hA ⟨x, (href.mem x).2 hx, hxv⟩
    exact ⟨s1, hins, hc, fun w => find_congr ops law s s1 href.inv hinv1 w
      (fun y _ => hst y)⟩

/-- Witness for C25: the values 1, 5, 9, 1, 13, 2 on the numbers hashed modulo
4; four of the five distinct values share a home slot, and the fifth makes the
pool grow. -/
theorem inserts_refine_set_witness :
    (specRun natOps [] ([1, 5, 9, 1, 13, 2].map Call.insert)).length < 2 ^ 30 ∧
    ∃ s, run natOps 2 {} ([1, 5, 9, 1, 13, 2].map Call.insert) = some s ∧
      size s = (specRun natOps [] ([1, 5, 9, 1, 13, 2].map Call.insert)).length ∧
      (∀ v, (∃ x, find natOps s v = some x ∧ natOps.eq x v = true) ↔
        ∃ u, u ∈ [1, 5, 9, 1, 13, 2] ∧ natOps.eq u v = true) ∧
      (∀ v x, find natOps s v = some x ↔
        x ∈ specRun natOps [] ([1, 5, 9, 1, 13, 2].map Call.insert) ∧
          natOps.eq x v = true) ∧
      (∀ v x, find natOps s v = some x → x ∈ [1, 5, 9, 1, 13, 2] ∧ natOps.eq x v = true) ∧
      (∀ v, (∃ u, u ∈ [1, 5, 9, 1, 13, 2] ∧ natOps.eq u v = true) →
        ∃ s1, insert natOps 2 s v = some (s1, some v) ∧ size s1 = size s ∧
          ∀ w, find natOps s1 w = find natOps s w) :=
  ⟨by decide, inserts_refine_set natOps lawful_natOps 2 (le_refl 2) [1, 5, 9, 1, 13, 2]
    (by decide)⟩

/-- C26 (`remove`).  `operator==` is an equivalence with which `hash()` agrees,
`bit::round` leaves a power of two as it is, and every `insert` is called on a
set of fewer than `2^30` objects.  Then the calls of a sequence of `insert`,
`remove` and `reset` on a default-constructed `hashset` all return, and on the
set `s` they leave, `remove(v)` returns true exactly when `find(v)` returns an
object; when it returns true, `find(v)` returns nothing afterwards, `size()` is
one less, and `find(w)` returns what it returned before for every `w` not equal
to `v`; when it returns false the set is as before. -/
theorem remove_on_reached (ops : Element T) (law : Lawful ops) (fuel : Nat)
    (hfuel : 2 ≤ fuel) (calls : List (Call T)) (hb : Bounded ops [] calls) (v : T) :
    ∃ s, run ops fuel {} calls = some s ∧
      ((remove ops s v).2 = true ↔ ∃ x, find ops s v = some x) ∧
      ((remove ops s v).2 = true →
        find ops (remove ops s v).1 v = none ∧
        size (remove ops s v).1 + 1 = size s ∧
        ∀ w, ops.eq w v = false → find ops (remove ops s v).1 w = find ops s w) ∧
      ((remove ops s v).2 = false → (remove ops s v).1 = s) := by
  obtain ⟨f, rfl⟩ : ∃ f, fuel = f + 2 := ⟨fuel - 2, by omega⟩
  obtain ⟨s, hrun, href⟩ := run_refines ops law f calls {} [] (refines_default ops) hb
  obtain ⟨hA, hB⟩ := remove_spec ops law s href.inv v
  refine ⟨s, hrun, ?_⟩
  by_cases hex : ∃ x, Stored s x ∧ ops.eq x v = true
  · obtain ⟨hret, hinv1, hc, _, hst⟩ := hA hex
    obtain ⟨x, hx, hxv⟩ := hex
    refine ⟨⟨fun _ => ⟨x, (find_spec ops law s href.inv v x).2 ⟨hx, hxv⟩⟩, fun _ => hret⟩,
      fun _ => ⟨?_, hc, ?_⟩, fun h => ?_⟩
    · cases hf : find ops (remove ops s v).1 v with
      | none => rfl
      | some y =>
        obtain ⟨h1, h2⟩ := (find_spec ops law _ hinv1 v y).1 hf
        rw [((hst y).1 h1).2] at h2
        exact absurd h2 (by simp)
    · intro w hwv
      refine find_congr ops law s _ href.inv hinv1 w (fun y hyw => ?_)
      rw [hst y]
      constructor
      · exact fun h => h.1
      · intro h
        refine ⟨h, ?_⟩
        cases hyv : ops.eq y v with
        | false => rfl
        | true =>
          have := law.trans _ _ _ (law.symm _ _ hyw) hyv
          rw [hwv] at this
          exact absurd this (by simp)
    · rw [hret] at h
      exact absurd h (by simp)
  · have hrem := hB hex
    rw [hrem]
    refine ⟨⟨fun h => absurd h (by simp), ?_⟩, fun h => absurd h (by simp), fun _ => rfl⟩
    rintro ⟨x, hx⟩
    exact absurd ⟨x, (find_spec ops law s href.inv v x).1 hx⟩ hex

/-- Witness for C26: `remove(5)` after the insertion of 1, 5, 9, 13 and 2 and
the removal of 1, on the numbers hashed modulo 4. -/
theorem remove_on_reached_witness :
    Bounded natOps []
      [.insert 1, .insert 5, .insert 9, .insert 13, .insert 2, .remove 1] ∧
    ∃ s, run natOps 2 {}
        [.insert 1, .insert 5, .insert 9, .insert 13, .insert 2, .remove 1] = some s ∧
      ((remove natOps s 5).2 = true ↔ ∃ x, find natOps s 5 = some x) ∧
      ((remove natOps s 5).2 = true →
        find natOps (remove natOps s 5).1 5 = none ∧
        size (remove natOps s 5).1 + 1 = size s ∧
        ∀ w, natOps.eq w 5 = false → find natOps (remove natOps s 5).1 w = find natOps s w) ∧
      ((remove natOps s 5).2 = false → (remove natOps s 5).1 = s) :=
  ⟨by decide, remove_on_reached natOps lawful_natOps 2 (le_refl 2) _ (by decide) 5⟩

/-- C27 (the invariant of the pool).  `operator==` is an equivalence with which
`hash()` agrees, `bit::round` leaves a power of two as it is, and every `insert`
is called on a set of fewer than `2^30` objects.  Then the calls of a sequence
of `insert`, `remove` and `reset` on a default-constructed `hashset` all
return, and on the set `s` they leave, `length` is a power of two, at least 8,
and `count` is at most `length / 2`; a further `insert(v)`, on fewer than
`2^30` objects, returns the value: its loop ends at an empty slot or at an equal
object, and the path after the loop, which returns nothing, is not taken. -/
theorem reached_load_invariant (ops : Element T) (law : Lawful ops) (fuel : Nat)
    (hfuel : 2 ≤ fuel) (calls : List (Call T)) (hb : Bounded ops [] calls) :
    ∃ s, run ops fuel {} calls = some s ∧
      (∃ k, s.length = 2 ^ k) ∧ 8 ≤ s.length ∧ s.count ≤ s.length / 2 ∧
      ∀ v, s.count < 2 ^ 30 →
        ∃ s1, insert ops fuel s v = some (s1, some v) ∧
          (∃ k, s1.length = 2 ^ k) ∧ 8 ≤ s1.length ∧ s1.count ≤ s1.length / 2 := by
  obtain ⟨f, rfl⟩ : ∃ f, fuel = f + 2 := ⟨fuel - 2, by omega⟩
  obtain ⟨s, hrun, href⟩ := run_refines ops law f calls {} [] (refines_default ops) hb
  have hshape : ∀ s0 : hashset T, Inv ops s0 →
      (∃ k, s0.length = 2 ^ k) ∧ 8 ≤ s0.length ∧ s0.count ≤ s0.length / 2 := by
    intro s0 h0
    obtain ⟨k, hk3, _, hlen⟩ := h0.pow
    have hn8 : 2 ^ 3 ≤ 2 ^ k := Nat.pow_le_pow_right (by norm_num) hk3
    have := h0.load
    exact ⟨⟨k, hlen⟩, by omega, by omega⟩
  obtain ⟨h1, h2, h3⟩ := hshape s href.inv
  refine ⟨s, hrun, h1, h2, h3, fun v hv => ?_⟩
  obtain ⟨s1, hins, hinv1, _⟩ := insert_spec ops law f s href.inv hv v
  exact ⟨s1, hins, hshape s1 hinv1⟩

/-- Witness for C27: five insertions, a removal, a `reset` and an insertion, on
the numbers hashed modulo 4. -/
theorem reached_load_invariant_witness :
    Bounded natOps []
      [.insert 1, .insert 5, .insert 9, .insert 13, .insert 2, .remove 9, .reset,
        .insert 7] ∧
    ∃ s, run natOps 2 {}
        [.insert 1, .insert 5, .insert 9, .insert 13, .insert 2, .remove 9, .reset,
          .insert 7] = some s ∧
      (∃ k, s.length = 2 ^ k) ∧ 8 ≤ s.length ∧ s.count ≤ s.length / 2 ∧
      ∀ v, s.count < 2 ^ 30 →
        ∃ s1, insert natOps 2 s v = some (s1, some v) ∧
          (∃ k, s1.length = 2 ^ k) ∧ 8 ≤ s1.length ∧ s1.count ≤ s1.length / 2 :=
  ⟨by decide, reached_load_invariant natOps lawful_natOps 2 (le_refl 2) _ (by decide)⟩

end hashset

end BassModel
